import Mathlib

/-!
# Bullets pool (`addons/native_bullets/src/bullets_pool.inl`)

A shallow embedding of `AbstractBulletsPool<Kit, BulletType>`: the partitioned slot
array `bullets`, the indirection table `shapes_to_indices`, the two counters and the
generation counter `cycle` of every slot.

Modelling conventions.

* `int32_t` values are integers (`Int`).  The sums of the source that can leave the int32
  range on pools the program can hold are taken with `add32`, which wraps as the machine
  does: the bound `starting_shape_index + pool_size` of the three range tests and the
  generation counter `cycle += 1`.  Positions, the two counters and the offsets
  `x - starting_shape_index` stay within `[-1, pool_size]` wherever they are computed.
  The sum `starting_shape_index + i` of `_init` is the integer sum, which is the int32 sum
  whenever the last stable index `starting_shape_index + pool_size - 1` is an int32 value.
* The C arrays `bullets` and `shapes_to_indices` are lists.  Every array access of the
  source is an access through `getAt` / `List.set` guarded by `getAt`; an access outside
  the array makes the operation return `none`.
* A slot is a `Bullet α`: the two fields the pool itself reads and writes (`cycle`,
  `shape_index`) and the remaining per-bullet state `data : α` (canvas item, transform,
  velocity, lifetime, ...), which only the overridable hooks touch.
* Calls to `VisualServer` and `Physics2DServer` do not touch the pool and are left out.
* A tick records its calls of `_process_bullet` (`StepCall`) and the loop of the destructor
  records the positions at which it indexes `bullets` (`Teardown`); the records are ghost
  state, written by the model at the very place of the call or the access.
-/

namespace NativeBullets

/-- The handle `BulletID(index, cycle)`. -/
structure BulletID where
  index : Int
  cycle : Int
deriving DecidableEq, Repr

/-- One slot of the pool. -/
structure Bullet (α : Type) where
  cycle : Int
  shape_index : Int
  data : α
deriving DecidableEq, Repr

/-- Modelled from the spec: the bullet type and its property dispatch
`bullet->set(key, value)` are declared in `bullet.h`, which is not at hand; `set` assigns
to the transient state of an entity, here the per-bullet state `data`.  The other three
fields are the overridable hooks `_init_bullet`, `_enable_bullet` and `_disable_bullet`
of the pool, whose standard versions touch only `lifetime` and the canvas item. -/
structure Hooks (α ν : Type) where
  init_bullet : α → α
  enable_bullet : α → α
  disable_bullet : α → α
  set : α → String → ν → α

/-- The fields of `AbstractBulletsPool` that the slot management reads or writes. -/
structure BulletsPool (α : Type) where
  collisions_enabled : Bool
  starting_shape_index : Int
  pool_size : Int
  available_bullets : Int
  active_bullets : Int
  bullets : List (Bullet α)
  shapes_to_indices : List Int
deriving DecidableEq, Repr

/-- The integer is an `int32_t` value. -/
def fits32 (x : Int) : Prop := -2147483648 ≤ x ∧ x ≤ 2147483647

instance instDecidableFits32 (x : Int) : Decidable (fits32 x) := by
  unfold fits32; infer_instance

/-- The `int32_t` value a computation with the integer result `x` leaves: `x` wrapped
into `[-2147483648, 2147483647]` (two's complement). -/
def wrap32 (x : Int) : Int := (x + 2147483648) % 4294967296 - 2147483648

/-- The `int32_t` sum `a + b` of the source: on int32 operands the integer sum wrapped
into the int32 range.  A pool of the model may hold integers that are no int32 values,
which the program never holds; on those the sum is the integer sum. -/
def add32 (a b : Int) : Int := if fits32 a ∧ fits32 b then wrap32 (a + b) else a + b

/-- Read `xs[i]` for a machine index `i`; `none` when `i` is outside the array. -/
def getAt {β : Type} (xs : List β) (i : Int) : Option β :=
  if 0 ≤ i then xs[i.toNat]? else none

/-- Modelled from the spec: the helper `_swap(xs[i], xs[j])` is declared in
`bullets_pool.h`, which is not at hand; the release is "exactly one swap, two indirection
writes", so `_swap` exchanges the two array cells. -/
def _swap {β : Type} (xs : List β) (i j : Int) : Option (List β) :=
  match getAt xs i, getAt xs j with
  | some a, some b => some ((xs.set i.toNat b).set j.toNat a)
  | _, _ => none

/-- The body shared by `obtain_bullet` and `spawn_bullet`: with `available_bullets`
already decremented, fetch `bullets[available_bullets]`, let `prepare` act on its data
and store it back. -/
def activate {α : Type} (prepare : α → α) (p : BulletsPool α) :
    Option (Bullet α × BulletsPool α) :=
  let available := p.available_bullets - 1
  match getAt p.bullets available with
  | none => none
  | some bullet =>
    some (bullet,
      { p with
        available_bullets := available
        active_bullets := p.active_bullets + 1
        bullets := p.bullets.set available.toNat { bullet with data := prepare bullet.data } })

/-- The procedure `obtain_bullet()`. -/
def obtain_bullet {α ν : Type} (k : Hooks α ν) (p : BulletsPool α) :
    Option (BulletID × BulletsPool α) :=
  if 0 < p.available_bullets then
    match activate k.enable_bullet p with
    | none => none
    | some (bullet, q) => some (⟨bullet.shape_index, bullet.cycle⟩, q)
  else some (⟨-1, -1⟩, p)

/-- The loop of `spawn_bullet` over the keys of `properties`. -/
def set_properties {α ν : Type} (k : Hooks α ν) (properties : List (String × ν)) (d : α) : α :=
  properties.foldl (fun acc kv => k.set acc kv.1 kv.2) d

/-- The procedure `spawn_bullet(properties)`. -/
def spawn_bullet {α ν : Type} (k : Hooks α ν) (p : BulletsPool α)
    (properties : List (String × ν)) : Option (BulletsPool α) :=
  if 0 < p.available_bullets then
    match activate (fun d => k.enable_bullet (set_properties k properties d)) p with
    | none => none
    | some (_, q) => some q
  else some p

/-- What `_release_bullet` leaves in the released bullet: `_disable_bullet(bullet)` and
`bullet->cycle += 1`, an int32 sum. -/
abbrev released {α ν : Type} (k : Hooks α ν) (b : Bullet α) : Bullet α :=
  { b with cycle := add32 b.cycle 1, data := k.disable_bullet b.data }

/-- A write through the pointer `bullets[i]`. -/
def store {α : Type} (p : BulletsPool α) (i : Int) (b : Bullet α) : BulletsPool α :=
  { p with bullets := p.bullets.set i.toNat b }

/-- The procedure `_release_bullet(index)`. -/
def _release_bullet {α ν : Type} (k : Hooks α ν) (p : BulletsPool α) (index : Int) :
    Option (BulletsPool α) :=
  match getAt p.bullets index with
  | none => none
  | some bullet =>
    let bullets1 := p.bullets.set index.toNat (released k bullet)
    match getAt bullets1 p.available_bullets with
    | none => none
    | some first =>
      match _swap p.shapes_to_indices (bullet.shape_index - p.starting_shape_index)
          (first.shape_index - p.starting_shape_index) with
      | none => none
      | some indices =>
        match _swap bullets1 index p.available_bullets with
        | none => none
        | some bullets2 =>
          some { p with
            bullets := bullets2
            shapes_to_indices := indices
            available_bullets := p.available_bullets + 1
            active_bullets := p.active_bullets - 1 }

/-- The procedure `release_bullet(id)`. -/
def release_bullet {α ν : Type} (k : Hooks α ν) (p : BulletsPool α) (id : BulletID) :
    Option (Bool × BulletsPool α) :=
  if p.starting_shape_index ≤ id.index ∧ id.index < add32 p.starting_shape_index p.pool_size then
    match getAt p.shapes_to_indices (id.index - p.starting_shape_index) with
    | none => none
    | some bullet_index =>
      if p.available_bullets ≤ bullet_index ∧ bullet_index < p.pool_size then
        match getAt p.bullets bullet_index with
        | none => none
        | some bullet =>
          if id.cycle = bullet.cycle then
            match _release_bullet k p bullet_index with
            | none => none
            | some q => some (true, q)
          else some (false, p)
      else some (false, p)
  else some (false, p)

/-- The procedure `is_bullet_valid(id)`. -/
def is_bullet_valid {α : Type} (p : BulletsPool α) (id : BulletID) : Option Bool :=
  if p.starting_shape_index ≤ id.index ∧ id.index < add32 p.starting_shape_index p.pool_size then
    match getAt p.shapes_to_indices (id.index - p.starting_shape_index) with
    | none => none
    | some bullet_index =>
      if p.available_bullets ≤ bullet_index ∧ bullet_index < p.pool_size then
        match getAt p.bullets bullet_index with
        | none => none
        | some bullet => some (decide (id.cycle = bullet.cycle))
      else some false
  else some false

/-- The procedure `get_bullet_from_shape(shape_index)`. -/
def get_bullet_from_shape {α : Type} (p : BulletsPool α) (shape_index : Int) : Option BulletID :=
  if p.starting_shape_index ≤ shape_index ∧
      shape_index < add32 p.starting_shape_index p.pool_size then
    match getAt p.shapes_to_indices (shape_index - p.starting_shape_index) with
    | none => none
    | some bullet_index =>
      if p.available_bullets ≤ bullet_index then
        match getAt p.bullets bullet_index with
        | none => none
        | some bullet => some ⟨shape_index, bullet.cycle⟩
      else some ⟨-1, -1⟩
  else some ⟨-1, -1⟩

/-- One invocation of `_process_bullet` during a tick, as seen from the loop of
`_process`: the loop position, the value of `available_bullets` at that moment, the
stable index of the bullet stepped and the answer of the step function. -/
structure StepCall where
  position : Int
  available : Int
  shape_index : Int
  expired : Bool
deriving DecidableEq, Repr

/-- What a tick leaves behind: the pool, `amount_variation`, and the step calls made
so far, oldest first. -/
structure Tick (α : Type) where
  pool : BulletsPool α
  amount_variation : Int
  calls : List StepCall
deriving DecidableEq, Repr

/-- The loop `for(int32_t i = pool_size - 1; i >= available_bullets; i--)` of `_process`,
entered with `i = n - 1`.  The step function `step` is `_process_bullet(bullet, delta)`:
it reads the bullet, rewrites its data and reports expiry.  After a release
the `continue` statement goes to `i--`, like the end of the body does. -/
def process_loop {α ν : Type} (k : Hooks α ν) (step : Bullet α → α × Bool) :
    Nat → Tick α → Option (Tick α)
  | 0, t => if (-1 : Int) ≥ t.pool.available_bullets then none else some t
  | n + 1, t =>
    let i : Int := n
    if i ≥ t.pool.available_bullets then
      match getAt t.pool.bullets i with
      | none => none
      | some bullet =>
        let r := step bullet
        let call : StepCall := ⟨i, t.pool.available_bullets, bullet.shape_index, r.2⟩
        let p1 := store t.pool i { bullet with data := r.1 }
        if r.2 then
          match _release_bullet k p1 i with
          | none => none
          | some p2 => process_loop k step n ⟨p2, t.amount_variation - 1, t.calls ++ [call]⟩
        else process_loop k step n ⟨p1, t.amount_variation, t.calls ++ [call]⟩
    else some t

/-- The procedure `_process(delta)` together with the record of its step calls.  Both
branches on `collisions_enabled` run the same loop over the pool. -/
def process_tick {α ν : Type} (k : Hooks α ν) (step : Bullet α → α × Bool)
    (p : BulletsPool α) : Option (Tick α) :=
  if 0 ≤ p.pool_size then
    if p.collisions_enabled then process_loop k step p.pool_size.toNat ⟨p, 0, []⟩
    else process_loop k step p.pool_size.toNat ⟨p, 0, []⟩
  else if p.pool_size - 1 ≥ p.available_bullets then none else some ⟨p, 0, []⟩

/-- The procedure `_process(delta)`: the returned `amount_variation` and the new pool. -/
def _process {α ν : Type} (k : Hooks α ν) (step : Bullet α → α × Bool)
    (p : BulletsPool α) : Option (Int × BulletsPool α) :=
  (process_tick k step p).map fun t => (t.amount_variation, t.pool)

/-- The procedure `_init(kit, canvas_parent, z_index, shared_area, starting_shape_index,
pool_size)`.  `fresh i` is the bullet `BulletType::_new()` hands out in round `i` of the
loop (its fields are initialised in `bullet.h`) and `uninit` is the content of the array
`new int32_t[pool_size]` before anything is written to it.  A negative array length makes
`new` fail.  The stable index `starting_shape_index + i` is the integer sum: it is the
value the source computes whenever `starting_shape_index + pool_size - 1` is an int32
value. -/
def _init {α ν : Type} (k : Hooks α ν) (collisions_enabled : Bool)
    (starting_shape_index pool_size : Int) (fresh : Nat → Bullet α) (uninit : Nat → Int) :
    Option (BulletsPool α) :=
  if pool_size < 0 then none
  else
    some
      { collisions_enabled := collisions_enabled
        starting_shape_index := starting_shape_index
        pool_size := pool_size
        available_bullets := pool_size
        active_bullets := 0
        bullets := (List.range pool_size.toNat).map fun i =>
          let bullet := fresh i
          let bullet := if collisions_enabled then
            { bullet with shape_index := starting_shape_index + i } else bullet
          { bullet with data := k.init_bullet bullet.data }
        shapes_to_indices := (List.range pool_size.toNat).map fun i =>
          if collisions_enabled then Int.ofNat i else uninit i }

/-- A call made on a pool from outside. -/
inductive Call (α ν : Type) where
  | obtain_bullet
  | spawn_bullet (properties : List (String × ν))
  | release_bullet (id : BulletID)
  | is_bullet_valid (id : BulletID)
  | get_bullet_from_shape (shape_index : Int)
  | process (step : Bullet α → α × Bool)

/-- The pool after one call; `none` when the call reads or writes outside an array. -/
def Call.apply {α ν : Type} (k : Hooks α ν) (p : BulletsPool α) :
    Call α ν → Option (BulletsPool α)
  | .obtain_bullet => (NativeBullets.obtain_bullet k p).map Prod.snd
  | .spawn_bullet properties => NativeBullets.spawn_bullet k p properties
  | .release_bullet id => (NativeBullets.release_bullet k p id).map Prod.snd
  | .is_bullet_valid id => (NativeBullets.is_bullet_valid p id).map fun _ => p
  | .get_bullet_from_shape s => (NativeBullets.get_bullet_from_shape p s).map fun _ => p
  | .process step => (_process k step p).map Prod.snd

/-- The pool after a finite sequence of calls. -/
def run {α ν : Type} (k : Hooks α ν) (p : BulletsPool α) :
    List (Call α ν) → Option (BulletsPool α)
  | [] => some p
  | c :: cs => (c.apply k p).bind fun q => run k q cs

/-! ## Invariants -/

/-- The two arrays have `pool_size` cells. -/
def Sized {α : Type} (p : BulletsPool α) : Prop :=
  0 ≤ p.pool_size ∧ (p.bullets.length : Int) = p.pool_size ∧
    (p.shapes_to_indices.length : Int) = p.pool_size

/-- The partition cursor lies within the array: `0 <= available_bullets <= pool_size`. -/
def Partitioned {α : Type} (p : BulletsPool α) : Prop :=
  0 ≤ p.available_bullets ∧ p.available_bullets ≤ p.pool_size

/-- The counters add up: `available_bullets + active_bullets == pool_size`. -/
def Counted {α : Type} (p : BulletsPool α) : Prop :=
  p.available_bullets + p.active_bullets = p.pool_size

/-- The indirection predicate: for every `idx` in `[0, pool_size)`, `shapes_to_indices[idx]`
is a position in `[0, pool_size)` and the slot there has
`shape_index == starting_shape_index + idx`. -/
def Indirection {α : Type} (p : BulletsPool α) : Prop :=
  ∀ idx : Int, 0 ≤ idx → idx < p.pool_size →
    ∃ pos bullet, getAt p.shapes_to_indices idx = some pos ∧ 0 ≤ pos ∧ pos < p.pool_size ∧
      getAt p.bullets pos = some bullet ∧
      bullet.shape_index = p.starting_shape_index + idx

/-- A well-formed pool. -/
def WellFormed {α : Type} (p : BulletsPool α) : Prop :=
  Sized p ∧ Partitioned p ∧ Indirection p

/-- The indirection predicate at one index, as a test. -/
def indirect_at {α : Type} (p : BulletsPool α) (idx : Nat) : Bool :=
  match getAt p.shapes_to_indices idx with
  | none => false
  | some pos =>
    match getAt p.bullets pos with
    | none => false
    | some bullet =>
      decide (0 ≤ pos ∧ pos < p.pool_size ∧
        bullet.shape_index = p.starting_shape_index + idx)

/-- The handle names an active slot with the matching generation: the three tests of
`is_bullet_valid` all succeed. -/
def Live {α : Type} (p : BulletsPool α) (h : BulletID) : Prop :=
  ∃ pos bullet, p.starting_shape_index ≤ h.index ∧
    h.index < add32 p.starting_shape_index p.pool_size ∧
    getAt p.shapes_to_indices (h.index - p.starting_shape_index) = some pos ∧
    p.available_bullets ≤ pos ∧ pos < p.pool_size ∧
    getAt p.bullets pos = some bullet ∧ h.cycle = bullet.cycle

/-- The slot the handle points to has moved on to a later generation. -/
def Stale {α : Type} (p : BulletsPool α) (h : BulletID) : Prop :=
  ∃ pos bullet, p.starting_shape_index ≤ h.index ∧
    h.index < p.starting_shape_index + p.pool_size ∧
    getAt p.shapes_to_indices (h.index - p.starting_shape_index) = some pos ∧
    getAt p.bullets pos = some bullet ∧ h.cycle < bullet.cycle

/-- The pool `q` has the slots of `p` at the same positions, with the same generation and
stable index; only per-bullet data and the counters may differ. -/
def SameSlots {α : Type} (p q : BulletsPool α) : Prop :=
  q.collisions_enabled = p.collisions_enabled ∧
    q.starting_shape_index = p.starting_shape_index ∧ q.pool_size = p.pool_size ∧
    q.shapes_to_indices = p.shapes_to_indices ∧ q.bullets.length = p.bullets.length ∧
    ∀ pos x, getAt p.bullets pos = some x →
      ∃ y, getAt q.bullets pos = some y ∧ y.cycle = x.cycle ∧ y.shape_index = x.shape_index

/-- A call that leaves the bullet of the handle `h` alone: any call but a release of `h`
itself or a tick in which a step on the bullet of `h` reports expiry. -/
def Call.spares {α ν : Type} (k : Hooks α ν) (h : BulletID) (p : BulletsPool α) :
    Call α ν → Prop
  | .release_bullet id => id ≠ h
  | .process step => ∀ t, process_tick k step p = some t →
      ∀ c ∈ t.calls, c.shape_index = h.index → c.expired = false
  | _ => True

/-- A sequence of calls each of which, in the pool it is made on, spares `h`. -/
def Spares {α ν : Type} (k : Hooks α ν) (h : BulletID) :
    BulletsPool α → List (Call α ν) → Prop
  | _, [] => True
  | p, c :: cs => c.spares k h p ∧ ∀ q, c.apply k p = some q → Spares k h q cs

/-- The index of the handle lies outside `[starting_shape_index,
starting_shape_index + pool_size)`, the bound being the int32 sum the range test of the
source computes. -/
def OutOfRange {α : Type} (p : BulletsPool α) (h : BulletID) : Prop :=
  h.index < p.starting_shape_index ∨ add32 p.starting_shape_index p.pool_size ≤ h.index

/-- The slot the handle resolves to lies in the free part `[0, available_bullets)`. -/
def AlreadyReleased {α : Type} (p : BulletsPool α) (h : BulletID) : Prop :=
  ∃ pos, getAt p.shapes_to_indices (h.index - p.starting_shape_index) = some pos ∧
    pos < p.available_bullets

/-- The slot the handle resolves to has another generation than the handle. -/
def CycleMismatch {α : Type} (p : BulletsPool α) (h : BulletID) : Prop :=
  ∃ pos bullet, getAt p.shapes_to_indices (h.index - p.starting_shape_index) = some pos ∧
    getAt p.bullets pos = some bullet ∧ h.cycle ≠ bullet.cycle

/-- The slot the handle resolves to has a cycle below the largest int32, so that one
more release does not make its counter wrap. -/
def CycleRoom {α : Type} (p : BulletsPool α) (h : BulletID) : Prop :=
  ∀ pos b, getAt p.shapes_to_indices (h.index - p.starting_shape_index) = some pos →
    getAt p.bullets pos = some b → b.cycle < 2147483647

/-- A call that does not make the counter of the slot of `h` wrap: a release of that slot
finds its cycle below the largest int32, and so does a tick unless no step on that slot
reports expiry. -/
def Call.no_wrap {α ν : Type} (k : Hooks α ν) (h : BulletID) (p : BulletsPool α) :
    Call α ν → Prop
  | .release_bullet id => id.index = h.index → NativeBullets.is_bullet_valid p id = some true →
      id.cycle < 2147483647
  | .process step => ∀ t, process_tick k step p = some t →
      CycleRoom p h ∨ ∀ c ∈ t.calls, c.shape_index = h.index → c.expired = false
  | _ => True

/-- A sequence of calls none of which, in the pool it is made on, makes the counter of
the slot of `h` wrap. -/
def NoWrap {α ν : Type} (k : Hooks α ν) (h : BulletID) :
    BulletsPool α → List (Call α ν) → Prop
  | _, [] => True
  | p, c :: cs => c.no_wrap k h p ∧ ∀ q, c.apply k p = some q → NoWrap k h q cs

/-- The pool without the per-bullet data: the configuration, the two counters, the
cycle and stable index of every slot in the order of `bullets`, and `shapes_to_indices`. -/
def skeleton {α : Type} (p : BulletsPool α) :
    Bool × Int × Int × Int × Int × List (Int × Int) × List Int :=
  (p.collisions_enabled, p.starting_shape_index, p.pool_size, p.available_bullets,
    p.active_bullets, p.bullets.map (fun b => (b.cycle, b.shape_index)), p.shapes_to_indices)

/-- What the loop of the destructor did: the positions at which it indexed `bullets`, in
the order of the accesses, and whether it ran to its end; `completed` is false when an
access fell outside the array, which ends the model of the loop. -/
structure Teardown where
  accessed : List Int
  completed : Bool
deriving DecidableEq, Repr

/-- The loop `for(int32_t i = 0 - 1; i < pool_size; i++)` of the destructor with `n` rounds
to go, that is with `i = pool_size - n`: a round frees `bullets[i]->item_rid` and
`bullets[i]`. -/
def teardown_loop {α : Type} (p : BulletsPool α) : Nat → List Int → Teardown
  | 0, accessed => ⟨accessed, true⟩
  | n + 1, accessed =>
    let i : Int := p.pool_size - ((n + 1 : Nat) : Int)
    match getAt p.bullets i with
    | none => ⟨accessed ++ [i], false⟩
    | some _ => teardown_loop p n (accessed ++ [i])

/-- The destructor `~AbstractBulletsPool()`: the loop starts at `i = 0 - 1` and runs while
`i < pool_size`, so it has `pool_size - (0 - 1)` rounds to go when that is positive. -/
def destructor {α : Type} (p : BulletsPool α) : Teardown :=
  teardown_loop p (p.pool_size - (0 - 1)).toNat []

/-- The indirection predicate is decided by testing the `pool_size` indices. -/
instance instDecidableIndirection {α : Type} (p : BulletsPool α) : Decidable (Indirection p) :=
  decidable_of_iff (∀ idx : Nat, idx < p.pool_size.toNat → indirect_at p idx = true) (by
    have key : ∀ idx : Nat, indirect_at p idx = true ↔
        ∃ pos bullet, getAt p.shapes_to_indices idx = some pos ∧ 0 ≤ pos ∧
          pos < p.pool_size ∧ getAt p.bullets pos = some bullet ∧
          bullet.shape_index = p.starting_shape_index + idx := by
      intro idx
      unfold indirect_at
      constructor
      · intro h
        split at h
        · simp at h
        · rename_i pos hpos
          split at h
          · simp at h
          · rename_i b hb
            simp only [decide_eq_true_eq] at h
            exact ⟨pos, b, hpos, h.1, h.2.1, hb, h.2.2⟩
      · rintro ⟨pos, b, h1, h2, h3, h4, h5⟩
        simp [h1, h2, h3, h4, h5]
    constructor
    · intro h idx h0 h1
      have := (key idx.toNat).mp (h idx.toNat (by omega))
      rwa [Int.toNat_of_nonneg h0] at this
    · intro h idx hidx
      exact (key idx).mpr (h idx (by omega) (by omega)))

instance instDecidableSized {α : Type} (p : BulletsPool α) : Decidable (Sized p) := by
  unfold Sized; infer_instance

instance instDecidablePartitioned {α : Type} (p : BulletsPool α) :
    Decidable (Partitioned p) := by
  unfold Partitioned; infer_instance

instance instDecidableCounted {α : Type} (p : BulletsPool α) : Decidable (Counted p) := by
  unfold Counted; infer_instance

instance instDecidableWellFormed {α : Type} (p : BulletsPool α) : Decidable (WellFormed p) := by
  unfold WellFormed; infer_instance

/-! ## Concrete pools -/

/-- Hooks of a bullet type without data of its own. -/
def plainHooks : Hooks Unit Unit := ⟨id, id, id, fun d _ _ => d⟩

/-- The pool `_init` leaves for `pool_size` 4 and `starting_shape_index` 0. -/
def freshPool : BulletsPool Unit :=
  ⟨true, 0, 4, 4, 0, [⟨0, 0, ()⟩, ⟨0, 1, ()⟩, ⟨0, 2, ()⟩, ⟨0, 3, ()⟩], [0, 1, 2, 3]⟩

/-- The pool `freshPool` after one `obtain_bullet`. -/
def firstPool : BulletsPool Unit :=
  ⟨true, 0, 4, 3, 1, [⟨0, 0, ()⟩, ⟨0, 1, ()⟩, ⟨0, 2, ()⟩, ⟨0, 3, ()⟩], [0, 1, 2, 3]⟩

/-- The pool `freshPool` after four `obtain_bullet`. -/
def fullPool : BulletsPool Unit :=
  ⟨true, 0, 4, 0, 4, [⟨0, 0, ()⟩, ⟨0, 1, ()⟩, ⟨0, 2, ()⟩, ⟨0, 3, ()⟩], [0, 1, 2, 3]⟩

/-- The pool `fullPool` after the release of the handle `(2, 0)`. -/
def releasedPool : BulletsPool Unit :=
  ⟨true, 0, 4, 1, 3, [⟨1, 2, ()⟩, ⟨0, 1, ()⟩, ⟨0, 0, ()⟩, ⟨0, 3, ()⟩], [2, 1, 0, 3]⟩

/-- A pool of size 2 with both slots active. -/
def pairPool : BulletsPool Unit := ⟨true, 0, 2, 0, 2, [⟨0, 0, ()⟩, ⟨0, 1, ()⟩], [0, 1]⟩

/-- A pool of size 3 with all slots active. -/
def triplePool : BulletsPool Unit :=
  ⟨true, 0, 3, 0, 3, [⟨0, 0, ()⟩, ⟨0, 1, ()⟩, ⟨0, 2, ()⟩], [0, 1, 2]⟩

/-- The pool `_init` leaves for `pool_size` 0. -/
def emptyPool : BulletsPool Unit := ⟨true, 0, 0, 0, 0, [], []⟩

/-- The pool `_init` leaves for `pool_size` 2 with collisions disabled, when a new bullet
has `shape_index` `-1` and the fresh array `shapes_to_indices` holds zeros. -/
def looseInitPool : BulletsPool Unit := ⟨false, 0, 2, 2, 0, [⟨0, -1, ()⟩, ⟨0, -1, ()⟩], [0, 0]⟩

/-- The pool `_init` leaves for `pool_size` 2 and `starting_shape_index` 2147483646: its
stable indices are 2147483646 and 2147483647, the largest int32. -/
def edgePool : BulletsPool Unit :=
  ⟨true, 2147483646, 2, 2, 0, [⟨0, 2147483646, ()⟩, ⟨0, 2147483647, ()⟩], [0, 1]⟩

/-- The pool `edgePool` after one `obtain_bullet`. -/
def edgeFirstPool : BulletsPool Unit :=
  ⟨true, 2147483646, 2, 1, 1, [⟨0, 2147483646, ()⟩, ⟨0, 2147483647, ()⟩], [0, 1]⟩

/-- The pool of one slot with stable index `s`, the slot in the free part with cycle
`c`: for `c` 0 it is the pool `_init` leaves for `pool_size` 1 and
`starting_shape_index` `s`. -/
def idlePool (s c : Int) : BulletsPool Unit := ⟨true, s, 1, 1, 0, [⟨c, s, ()⟩], [0]⟩

/-- The pool of one slot with stable index `s`, the slot active with cycle `c`. -/
def busyPool (s c : Int) : BulletsPool Unit := ⟨true, s, 1, 0, 1, [⟨c, s, ()⟩], [0]⟩

/-- The calls that release the bullet of stable index `s` by its current handle and
obtain it again, `n` times in a row, the first handle being `(s, c)`. -/
def churn (s : Int) : Nat → Int → List (Call Unit Unit)
  | 0, _ => []
  | n + 1, c => Call.release_bullet ⟨s, c⟩ :: Call.obtain_bullet :: churn s n (add32 c 1)

/-! ## The int32 sum -/

/-- A sum with a non-negative int32 summand can only wrap downwards. -/
theorem add32_le (a : Int) {b : Int} (hb : 0 ≤ b) : add32 a b ≤ a + b := by
  unfold add32 fits32 wrap32
  split
  · omega
  · exact le_refl _

/-- A sum that stays at or below the largest int32 is the integer sum. -/
theorem add32_eq (a : Int) {b : Int} (hb : 0 ≤ b) (h : a + b ≤ 2147483647) :
    add32 a b = a + b := by
  unfold add32 fits32 wrap32
  split
  · omega
  · rfl

/-- The counter moves at every increment. -/
theorem add32_one_ne (c : Int) : add32 c 1 ≠ c := by
  unfold add32 fits32 wrap32
  split
  · omega
  · omega

/-- Below the largest int32 the increment is the integer increment. -/
theorem add32_one_of_lt {c : Int} (h : c < 2147483647) : add32 c 1 = c + 1 := by
  unfold add32 fits32 wrap32
  split
  · omega
  · rfl

/-- The increment of the counter by cases: the largest int32 is followed by the
smallest. -/
theorem add32_one_eq (c : Int) :
    add32 c 1 = if c = 2147483647 then -2147483648 else c + 1 := by
  unfold add32 fits32 wrap32
  split <;> split <;> omega

/-- On int32 values the increment is the increment modulo `2 ^ 32`. -/
theorem add32_one_wrap32 (x : Int) : add32 (wrap32 x) 1 = wrap32 (x + 1) := by
  unfold add32 fits32 wrap32
  split
  · omega
  · omega

/-! ## One slot released and obtained over and over -/

theorem run_cons {α ν : Type} (k : Hooks α ν) (p : BulletsPool α) (c : Call α ν)
    (cs : List (Call α ν)) :
    run k p (c :: cs) = (c.apply k p).bind fun q => run k q cs := rfl

/-- What `_init` leaves for `pool_size` 1, when a new bullet has cycle 0. -/
theorem _init_idlePool (s : Int) :
    _init plainHooks true s 1 (fun _ => ⟨0, -1, ()⟩) (fun _ => 0) = some (idlePool s 0) := by
  simp [_init, idlePool, plainHooks, List.range_succ]

/-- Calls on the pool `_init` leaves for `pool_size` 1. -/
theorem _init_run (s : Int) (cs : List (Call Unit Unit)) :
    ((_init plainHooks true s 1 (fun _ => ⟨0, -1, ()⟩) (fun _ => 0)).bind fun p =>
      run plainHooks p cs) = run plainHooks (idlePool s 0) cs := by
  rw [_init_idlePool]
  rfl

/-- The release of the bullet of the one-slot pool by its handle. -/
theorem release_busyPool {s : Int} (hs : s < add32 s 1) (c : Int) :
    release_bullet plainHooks (busyPool s c) ⟨s, c⟩ = some (true, idlePool s (add32 c 1)) := by
  simp [release_bullet, busyPool, idlePool, hs, getAt, _release_bullet, _swap, plainHooks]

/-- The `obtain_bullet` on the one-slot pool with its slot free. -/
theorem obtain_idlePool (s c : Int) :
    obtain_bullet plainHooks (idlePool s c) = some (⟨s, c⟩, busyPool s c) := by
  simp [obtain_bullet, activate, busyPool, idlePool, getAt, plainHooks]

/-- After `n` rounds of release and obtain the cycle of the one slot has advanced by `n`
modulo `2 ^ 32`. -/
theorem run_churn {s : Int} (hs : s < add32 s 1) (n : Nat) : ∀ c : Int, fits32 c →
    run plainHooks (busyPool s c) (churn s n c) = some (busyPool s (wrap32 (c + n))) := by
  induction n with
  | zero =>
    intro c hc
    have : wrap32 (c + ((0 : Nat) : Int)) = c := by
      unfold fits32 at hc; unfold wrap32; omega
    rw [this]; rfl
  | succ n ih =>
    intro c hc
    have h1 : add32 c 1 = wrap32 (c + 1) := by
      unfold add32; rw [if_pos ⟨hc, by decide⟩]
    have h2 : fits32 (wrap32 (c + 1)) := by
      unfold fits32 wrap32; omega
    have h3 : wrap32 (wrap32 (c + 1) + (n : Int)) = wrap32 (c + ((n + 1 : Nat) : Int)) := by
      unfold wrap32; push_cast; omega
    rw [churn, run_cons]
    simp only [Call.apply, release_busyPool hs, obtain_idlePool, Option.map_some',
      Option.some_bind, run_cons, h1]
    rw [ih _ h2, h3]

/-- An `obtain_bullet` on the one-slot pool with its slot free, followed by `n` rounds of
release and obtain. -/
theorem run_obtain_churn {s : Int} (hs : s < add32 s 1) (n : Nat) (c : Int)
    (hc : fits32 c) :
    run plainHooks (idlePool s c) (Call.obtain_bullet :: churn s n c)
      = some (busyPool s (wrap32 (c + n))) := by
  rw [run_cons]
  simp only [Call.apply, obtain_idlePool, Option.map_some', Option.some_bind]
  exact run_churn hs n c hc

/-! ## Array accesses -/

theorem getAt_eq_some {β : Type} {xs : List β} {i : Int} {v : β} :
    getAt xs i = some v ↔ 0 ≤ i ∧ xs[i.toNat]? = some v := by
  unfold getAt
  split <;> simp [*]

theorem getAt_bounds {β : Type} {xs : List β} {i : Int} {v : β} (h : getAt xs i = some v) :
    0 ≤ i ∧ i < xs.length := by
  obtain ⟨h0, h1⟩ := getAt_eq_some.mp h
  obtain ⟨hlt, -⟩ := List.getElem?_eq_some.mp h1
  omega

theorem getAt_of_bounds {β : Type} (xs : List β) {i : Int} (h0 : 0 ≤ i) (h1 : i < xs.length) :
    ∃ v, getAt xs i = some v := by
  have hlt : i.toNat < xs.length := by omega
  exact ⟨xs[i.toNat], getAt_eq_some.mpr ⟨h0, List.getElem?_eq_getElem hlt⟩⟩

theorem getAt_set {β : Type} (xs : List β) {i j : Int} (v : β) (hj : 0 ≤ j) :
    getAt (xs.set j.toNat v) i =
      if i = j then (if i < xs.length then some v else none) else getAt xs i := by
  unfold getAt
  by_cases hi : 0 ≤ i
  · simp only [hi, if_true, List.getElem?_set]
    by_cases hij : i = j
    · subst hij
      simp only [if_true]
      by_cases hl : i < xs.length
      · have : i.toNat < xs.length := by omega
        simp [hl, this]
      · have : ¬ i.toNat < xs.length := by omega
        simp [hl, this]
    · have : j.toNat ≠ i.toNat := by omega
      simp [hij, this]
  · have : i ≠ j := by omega
    simp [hi, this]

theorem _swap_eq_some {β : Type} {xs ys : List β} {i j : Int} (h : _swap xs i j = some ys) :
    ∃ a b, getAt xs i = some a ∧ getAt xs j = some b ∧
      ys = (xs.set i.toNat b).set j.toNat a := by
  unfold _swap at h
  split at h
  · rename_i a b ha hb
    exact ⟨a, b, ha, hb, by simpa using h.symm⟩
  · simp at h

theorem _swap_of_some {β : Type} {xs : List β} {i j : Int} {a b : β}
    (ha : getAt xs i = some a) (hb : getAt xs j = some b) :
    _swap xs i j = some ((xs.set i.toNat b).set j.toNat a) := by
  unfold _swap
  simp [ha, hb]

theorem getAt_swap {β : Type} (xs : List β) {i j : Int} {a b : β}
    (ha : getAt xs i = some a) (hb : getAt xs j = some b) (k : Int) :
    getAt ((xs.set i.toNat b).set j.toNat a) k =
      if k = j then some a else if k = i then some b else getAt xs k := by
  have hi := getAt_bounds ha
  have hj := getAt_bounds hb
  rw [getAt_set _ _ hj.1, getAt_set _ _ hi.1]
  simp only [List.length_set]
  by_cases hkj : k = j
  · subst hkj; simp [hj.2]
  · by_cases hki : k = i
    · subst hki; simp [hkj, hi.2]
    · simp [hkj, hki]

/-! ## The indirection table is a bijection -/

/-- Distinct stable indices resolve to distinct positions. -/
theorem Indirection.injective {α : Type} {p : BulletsPool α} (h : Indirection p)
    {a b pos : Int} (ha0 : 0 ≤ a) (ha1 : a < p.pool_size) (hb0 : 0 ≤ b) (hb1 : b < p.pool_size)
    (hpa : getAt p.shapes_to_indices a = some pos) (hpb : getAt p.shapes_to_indices b = some pos) :
    a = b := by
  obtain ⟨pa, ba, h1, -, -, h2, h3⟩ := h a ha0 ha1
  obtain ⟨pb, bb, h4, -, -, h5, h6⟩ := h b hb0 hb1
  rw [hpa] at h1; rw [hpb] at h4
  cases h1; cases h4
  rw [h2] at h5; cases h5
  omega

/-- Every position is the image of a stable index: the indirection table is onto. -/
theorem Indirection.surjective {α : Type} {p : BulletsPool α} (h : Indirection p)
    {q : Int} (hq0 : 0 ≤ q) (hq1 : q < p.pool_size) :
    ∃ idx bullet, 0 ≤ idx ∧ idx < p.pool_size ∧ getAt p.shapes_to_indices idx = some q ∧
      getAt p.bullets q = some bullet ∧ bullet.shape_index = p.starting_shape_index + idx := by
  have hpos : ∀ idx : Fin p.pool_size.toNat,
      (((getAt p.shapes_to_indices (idx.val : Int)).getD 0).toNat) < p.pool_size.toNat := by
    intro idx
    have := idx.isLt
    obtain ⟨pos, _, h1, h2, h3, -⟩ := h idx.val (by omega) (by omega)
    rw [h1]; simp only [Option.getD_some]; omega
  let g : Fin p.pool_size.toNat → Fin p.pool_size.toNat := fun idx => ⟨_, hpos idx⟩
  have ginj : Function.Injective g := by
    intro a b hab
    have hab' : ((getAt p.shapes_to_indices (a.val : Int)).getD 0).toNat
        = ((getAt p.shapes_to_indices (b.val : Int)).getD 0).toNat := congrArg Fin.val hab
    have ha := a.isLt
    have hb := b.isLt
    obtain ⟨pa, _, h1, h2, -, -⟩ := h a.val (by omega) (by omega)
    obtain ⟨pb, _, h4, h5, -, -⟩ := h b.val (by omega) (by omega)
    rw [h1, h4] at hab'
    simp only [Option.getD_some] at hab'
    have hpp : pa = pb := by omega
    subst hpp
    have := h.injective (by omega) (by omega) (by omega) (by omega) h1 h4
    exact Fin.ext (by omega)
  have gsurj : Function.Surjective g := Finite.injective_iff_surjective.mp ginj
  obtain ⟨idx, hidx⟩ := gsurj ⟨q.toNat, by omega⟩
  have hv : ((getAt p.shapes_to_indices (idx.val : Int)).getD 0).toNat = q.toNat :=
    congrArg Fin.val hidx
  have hi := idx.isLt
  obtain ⟨pos, bullet, h1, h2, h3, h4, h5⟩ := h idx.val (by omega) (by omega)
  rw [h1] at hv
  simp only [Option.getD_some] at hv
  have : pos = q := by omega
  subst this
  exact ⟨idx.val, bullet, by omega, by omega, h1, h4, h5⟩

/-! ## Releasing a position -/

/-- The effect of `_release_bullet` at an active position of a well-formed pool, cell by
cell. -/
theorem _release_bullet_cells {α ν : Type} (k : Hooks α ν) {p : BulletsPool α}
    (hs : Sized p) (hi : Indirection p) {i : Int} (ha : 0 ≤ p.available_bullets)
    (h1 : p.available_bullets ≤ i) (h2 : i < p.pool_size) :
    ∃ q b c, getAt p.bullets i = some b ∧ getAt p.bullets p.available_bullets = some c ∧
      _release_bullet k p i = some q ∧
      q.collisions_enabled = p.collisions_enabled ∧
      q.starting_shape_index = p.starting_shape_index ∧ q.pool_size = p.pool_size ∧
      q.available_bullets = p.available_bullets + 1 ∧
      q.active_bullets = p.active_bullets - 1 ∧
      q.bullets.length = p.bullets.length ∧
      q.shapes_to_indices.length = p.shapes_to_indices.length ∧
      (∀ pos, getAt q.bullets pos =
        if pos = p.available_bullets then some (released k b)
        else if pos = i then some c else getAt p.bullets pos) ∧
      (∀ idx, getAt q.shapes_to_indices idx =
        if idx = b.shape_index - p.starting_shape_index then some p.available_bullets
        else if idx = c.shape_index - p.starting_shape_index then some i
        else getAt p.shapes_to_indices idx) := by
  obtain ⟨hN, hbl, hsl⟩ := hs
  obtain ⟨e, b, he0, he1, hse, hb, hbs⟩ := hi.surjective (by omega) h2
  obtain ⟨f, c, hf0, hf1, hsf, hc, hcs⟩ := hi.surjective ha (by omega)
  have hi0 : 0 ≤ i := by omega
  have hfirst : getAt (p.bullets.set i.toNat (released k b)) p.available_bullets
      = some (if p.available_bullets = i then released k b else c) := by
    rw [getAt_set _ _ hi0]
    by_cases hEq : p.available_bullets = i
    · have : i < (p.bullets.length : Int) := by omega
      simp [hEq, this]
    · simp [hEq, hc]
  have hself : getAt (p.bullets.set i.toNat (released k b)) i = some (released k b) := by
    rw [getAt_set _ _ hi0]
    have : i < (p.bullets.length : Int) := by omega
    simp [this]
  have hfs : (if p.available_bullets = i then released k b else c).shape_index
      - p.starting_shape_index = f := by
    by_cases hEq : p.available_bullets = i
    · rw [hEq] at hc; rw [hb] at hc; cases hc
      simp [hEq, released]; omega
    · simp [hEq]; omega
  have hbe : b.shape_index - p.starting_shape_index = e := by omega
  refine ⟨{ p with
      bullets := ((p.bullets.set i.toNat (released k b)).set i.toNat
        (if p.available_bullets = i then released k b else c)).set
          p.available_bullets.toNat (released k b)
      shapes_to_indices := (p.shapes_to_indices.set e.toNat p.available_bullets).set f.toNat i
      available_bullets := p.available_bullets + 1
      active_bullets := p.active_bullets - 1 }, b, c, hb, hc, ?_, ?_⟩
  · unfold _release_bullet
    simp only [hb]
    show (match getAt (p.bullets.set i.toNat (released k b)) p.available_bullets with
      | none => none
      | some first => _) = _
    simp only [hfirst, hfs, hbe]
    rw [_swap_of_some hse hsf, _swap_of_some hself hfirst]
  · refine ⟨rfl, rfl, rfl, rfl, rfl, by simp, by simp, ?_, ?_⟩
    · intro pos
      show getAt (((p.bullets.set i.toNat (released k b)).set i.toNat _).set
        p.available_bullets.toNat _) pos = _
      rw [getAt_swap _ hself hfirst]
      by_cases hp : pos = p.available_bullets
      · simp [hp]
      · by_cases hpi : pos = i
        · subst hpi
          have : ¬ p.available_bullets = pos := fun h => hp h.symm
          simp [hp, this]
        · simp [hp, hpi, getAt_set _ _ hi0]
    · intro idx
      show getAt ((p.shapes_to_indices.set e.toNat _).set f.toNat _) idx = _
      rw [getAt_swap _ hse hsf, hbe]
      have hcf : c.shape_index - p.starting_shape_index = f := by omega
      rw [hcf]
      by_cases hif : idx = f
      · subst hif
        by_cases hie : idx = e
        · subst hie
          rw [hse] at hsf; cases hsf
          simp
        · simp [hie]
      · simp [hif]

theorem is_bullet_valid_iff_live {α : Type} (p : BulletsPool α) (h : BulletID) :
    is_bullet_valid p h = some true ↔ Live p h := by
  unfold is_bullet_valid Live
  constructor
  · intro hv
    split at hv
    · rename_i hr
      split at hv
      · simp at hv
      · rename_i pos hpos
        split at hv
        · rename_i hp
          split at hv
          · simp at hv
          · rename_i bullet hb
            simp only [Option.some.injEq, decide_eq_true_eq] at hv
            exact ⟨pos, bullet, hr.1, hr.2, hpos, hp.1, hp.2, hb, hv⟩
        · simp at hv
    · simp at hv
  · rintro ⟨pos, bullet, h1, h2, h3, h4, h5, h6, h7⟩
    simp [h1, h2, h3, h4, h5, h6, h7]

theorem _release_bullet_wf {α ν : Type} (k : Hooks α ν) {p q : BulletsPool α}
    (hs : Sized p) (hi : Indirection p) {i : Int} (ha : 0 ≤ p.available_bullets)
    (h1 : p.available_bullets ≤ i) (h2 : i < p.pool_size)
    (hq : _release_bullet k p i = some q) : Sized q ∧ Indirection q := by
  obtain ⟨q', b, c, hb, hc, hq', -, hbase, hN, hav, -, hbl, hsl, hcb, hcs⟩ :=
    _release_bullet_cells k hs hi ha h1 h2
  rw [hq] at hq'; cases hq'
  refine ⟨⟨by rw [hN]; exact hs.1, by rw [hbl, hN]; exact hs.2.1,
    by rw [hsl, hN]; exact hs.2.2⟩, ?_⟩
  intro idx h0 hlt
  rw [hN] at hlt
  obtain ⟨pos, x, hx1, hx2, hx3, hx4, hx5⟩ := hi idx h0 hlt
  obtain ⟨e, b', _, _, hse, hb', hbs⟩ := hi.surjective (by omega) h2
  rw [hb] at hb'; cases hb'
  obtain ⟨f, c', _, _, hsf, hc', hcs'⟩ := hi.surjective ha (by omega : p.available_bullets < _)
  rw [hc] at hc'; cases hc'
  rw [hN, hbase]
  by_cases he : idx = b.shape_index - p.starting_shape_index
  · refine ⟨p.available_bullets, released k b, ?_, ha, by omega, ?_, ?_⟩
    · rw [hcs, if_pos he]
    · rw [hcb, if_pos rfl]
    · show b.shape_index = _; omega
  · by_cases hf : idx = c.shape_index - p.starting_shape_index
    · have hne : i ≠ p.available_bullets := by
        intro hEq
        rw [hEq] at hb; rw [hb] at hc; cases hc; exact he hf
      refine ⟨i, c, ?_, by omega, h2, ?_, by omega⟩
      · rw [hcs, if_neg he, if_pos hf]
      · rw [hcb, if_neg hne, if_pos rfl]
    · have hp1 : pos ≠ p.available_bullets := by
        intro hEq
        rw [hEq] at hx4; rw [hc] at hx4; cases hx4; omega
      have hp2 : pos ≠ i := by
        intro hEq
        rw [hEq] at hx4; rw [hb] at hx4; cases hx4; omega
      refine ⟨pos, x, ?_, hx2, hx3, ?_, hx5⟩
      · rw [hcs, if_neg he, if_neg hf, hx1]
      · rw [hcb, if_neg hp1, if_neg hp2, hx4]

/-- The fields `_release_bullet` never touches, and the two counters, whatever the pool. -/
theorem _release_bullet_frame {α ν : Type} (k : Hooks α ν) {p q : BulletsPool α} {i : Int}
    (hq : _release_bullet k p i = some q) :
    q.collisions_enabled = p.collisions_enabled ∧
      q.starting_shape_index = p.starting_shape_index ∧ q.pool_size = p.pool_size ∧
      q.available_bullets = p.available_bullets + 1 ∧
      q.active_bullets = p.active_bullets - 1 := by
  unfold _release_bullet at hq
  split at hq
  · simp at hq
  · simp only at hq
    split at hq
    · simp at hq
    · split at hq
      · simp at hq
      · split at hq
        · simp at hq
        · cases hq
          exact ⟨rfl, rfl, rfl, rfl, rfl⟩

/-! ## Pools with the same slots -/

theorem SameSlots.sized {α : Type} {p q : BulletsPool α} (h : SameSlots p q) (hs : Sized p) :
    Sized q := by
  obtain ⟨-, -, hN, hsi, hbl, -⟩ := h
  obtain ⟨h0, h1, h2⟩ := hs
  exact ⟨by rw [hN]; exact h0, by rw [hbl, hN]; exact h1, by rw [hsi, hN]; exact h2⟩

theorem SameSlots.indirection {α : Type} {p q : BulletsPool α} (h : SameSlots p q)
    (hi : Indirection p) : Indirection q := by
  obtain ⟨-, hbase, hN, hsi, -, hcell⟩ := h
  intro idx h0 h1
  rw [hN] at h1
  obtain ⟨pos, x, hx1, hx2, hx3, hx4, hx5⟩ := hi idx h0 h1
  obtain ⟨y, hy1, -, hy3⟩ := hcell pos x hx4
  exact ⟨pos, y, by rw [hsi]; exact hx1, hx2, by rw [hN]; exact hx3, hy1,
    by rw [hy3, hbase]; exact hx5⟩

theorem SameSlots.live {α : Type} {p q : BulletsPool α} (h : SameSlots p q)
    (ha : q.available_bullets ≤ p.available_bullets) {id : BulletID} (hl : Live p id) :
    Live q id := by
  obtain ⟨-, hbase, hN, hsi, -, hcell⟩ := h
  obtain ⟨pos, x, h1, h2, h3, h4, h5, h6, h7⟩ := hl
  obtain ⟨y, hy1, hy2, -⟩ := hcell pos x h6
  exact ⟨pos, y, by rw [hbase]; exact h1, by rw [hbase, hN]; exact h2,
    by rw [hsi, hbase]; exact h3, by omega, by rw [hN]; exact h5, hy1, by rw [hy2]; exact h7⟩

theorem SameSlots.stale {α : Type} {p q : BulletsPool α} (h : SameSlots p q)
    {id : BulletID} (hl : Stale p id) : Stale q id := by
  obtain ⟨-, hbase, hN, hsi, -, hcell⟩ := h
  obtain ⟨pos, x, h1, h2, h3, h6, h7⟩ := hl
  obtain ⟨y, hy1, hy2, -⟩ := hcell pos x h6
  exact ⟨pos, y, by rw [hbase]; exact h1, by rw [hbase, hN]; exact h2,
    by rw [hsi, hbase]; exact h3, hy1, by rw [hy2]; exact h7⟩

/-- Rewriting the data of the bullet at one position keeps the slots. -/
theorem sameSlots_set {α : Type} (p : BulletsPool α) {i : Int} {b : Bullet α} (d : α)
    (hb : getAt p.bullets i = some b) (av ac : Int) :
    SameSlots p
      { collisions_enabled := p.collisions_enabled
        starting_shape_index := p.starting_shape_index
        pool_size := p.pool_size
        available_bullets := av
        active_bullets := ac
        bullets := p.bullets.set i.toNat { b with data := d }
        shapes_to_indices := p.shapes_to_indices } := by
  refine ⟨rfl, rfl, rfl, rfl, by simp, ?_⟩
  intro pos x hx
  have hi := getAt_bounds hb
  show ∃ y, getAt (p.bullets.set i.toNat _) pos = some y ∧ _
  rw [getAt_set _ _ hi.1]
  by_cases hp : pos = i
  · subst hp
    rw [hb] at hx; cases hx
    simp [hi.2]
  · simp [hp, hx]

theorem sameSlots_store {α : Type} (p : BulletsPool α) {i : Int} {b : Bullet α} (d : α)
    (hb : getAt p.bullets i = some b) : SameSlots p (store p i { b with data := d }) :=
  sameSlots_set p d hb p.available_bullets p.active_bullets

/-- The shared body of `obtain_bullet` and `spawn_bullet`, spelled out. -/
theorem activate_eq_some {α : Type} {prepare : α → α} {p q : BulletsPool α} {b : Bullet α}
    (h : activate prepare p = some (b, q)) :
    getAt p.bullets (p.available_bullets - 1) = some b ∧
      q.available_bullets = p.available_bullets - 1 ∧
      q.active_bullets = p.active_bullets + 1 ∧ SameSlots p q ∧
      q = { p with
        available_bullets := p.available_bullets - 1
        active_bullets := p.active_bullets + 1
        bullets := p.bullets.set (p.available_bullets - 1).toNat
          { b with data := prepare b.data } } := by
  unfold activate at h
  simp only at h
  split at h
  · simp at h
  · rename_i x hx
    simp only [Option.some.injEq, Prod.mk.injEq] at h
    obtain ⟨h1, h2⟩ := h
    subst h1; subst h2
    exact ⟨hx, rfl, rfl, sameSlots_set p _ hx _ _, rfl⟩

theorem activate_total {α : Type} (prepare : α → α) {p : BulletsPool α} (hs : Sized p)
    (h0 : 0 < p.available_bullets) (h1 : p.available_bullets ≤ p.pool_size) :
    ∃ b q, activate prepare p = some (b, q) := by
  obtain ⟨b, hb⟩ := getAt_of_bounds p.bullets (i := p.available_bullets - 1)
    (by omega) (by have := hs.2.1; omega)
  unfold activate
  simp only [hb]
  exact ⟨_, _, rfl⟩

/-! ## Releasing a position: where the slots go -/

/-- In a well-formed pool the slot a stable index resolves to carries that index. -/
theorem Indirection.shape_eq {α : Type} {p : BulletsPool α} (hi : Indirection p)
    {idx pos : Int} {x : Bullet α} (h0 : 0 ≤ idx) (h1 : idx < p.pool_size)
    (hpos : getAt p.shapes_to_indices idx = some pos) (hx : getAt p.bullets pos = some x) :
    x.shape_index = p.starting_shape_index + idx ∧ 0 ≤ pos ∧ pos < p.pool_size := by
  obtain ⟨pos', x', h2, h3, h4, h5, h6⟩ := hi idx h0 h1
  rw [hpos] at h2; cases h2
  rw [hx] at h5; cases h5
  exact ⟨h6, h3, h4⟩

/-- In a well-formed pool the index table sends the stable index of a slot back to the
position of the slot. -/
theorem Indirection.position_eq {α : Type} {p : BulletsPool α} (hi : Indirection p)
    {pos : Int} {x : Bullet α} (h0 : 0 ≤ pos) (h1 : pos < p.pool_size)
    (hx : getAt p.bullets pos = some x) :
    0 ≤ x.shape_index - p.starting_shape_index ∧
      x.shape_index - p.starting_shape_index < p.pool_size ∧
      getAt p.shapes_to_indices (x.shape_index - p.starting_shape_index) = some pos := by
  obtain ⟨idx, x', h2, h3, h4, h5, h6⟩ := hi.surjective h0 h1
  rw [hx] at h5; cases h5
  have : x.shape_index - p.starting_shape_index = idx := by omega
  rw [this]
  exact ⟨h2, h3, h4⟩

/-- Where `_release_bullet` leaves the slot of every stable index: the released slot
moves to position `available_bullets` with its generation advanced; every other slot is
kept as it is, and stays in the active part if it was there. -/
theorem _release_bullet_resolve {α ν : Type} (k : Hooks α ν) {p q : BulletsPool α}
    (hs : Sized p) (hi : Indirection p) {i : Int} (ha : 0 ≤ p.available_bullets)
    (h1 : p.available_bullets ≤ i) (h2 : i < p.pool_size)
    (hq : _release_bullet k p i = some q)
    {idx pos : Int} {x : Bullet α} (h0 : 0 ≤ idx) (hN : idx < p.pool_size)
    (hpos : getAt p.shapes_to_indices idx = some pos) (hx : getAt p.bullets pos = some x) :
    (pos = i ∧ getAt q.shapes_to_indices idx = some p.available_bullets ∧
        getAt q.bullets p.available_bullets = some (released k x)) ∨
      (pos ≠ i ∧ ∃ pos', getAt q.shapes_to_indices idx = some pos' ∧
        getAt q.bullets pos' = some x ∧ 0 ≤ pos' ∧ pos' < p.pool_size ∧
        (p.available_bullets ≤ pos → p.available_bullets + 1 ≤ pos') ∧
        (pos < p.available_bullets → pos' = pos)) := by
  obtain ⟨q', b, c, hb, hc, hq', -, -, -, -, -, -, -, hcb, hcs⟩ :=
    _release_bullet_cells k hs hi ha h1 h2
  rw [hq] at hq'; cases hq'
  obtain ⟨hxs, hp0, hp1⟩ := hi.shape_eq h0 hN hpos hx
  obtain ⟨-, -, hbe⟩ := hi.position_eq (by omega) h2 hb
  obtain ⟨-, -, hcf⟩ := hi.position_eq ha (by omega) hc
  by_cases hpi : pos = i
  · left
    subst hpi
    rw [hx] at hb; cases hb
    have he : idx = x.shape_index - p.starting_shape_index := by omega
    exact ⟨rfl, by rw [hcs, if_pos he], by rw [hcb, if_pos rfl]⟩
  · right
    refine ⟨hpi, ?_⟩
    have he : idx ≠ b.shape_index - p.starting_shape_index := by
      intro he
      rw [← he, hpos] at hbe; cases hbe; exact hpi rfl
    by_cases hf : idx = c.shape_index - p.starting_shape_index
    · rw [← hf, hpos] at hcf; cases hcf
      rw [hx] at hc; cases hc
      have hne : i ≠ p.available_bullets := fun h => hpi h.symm
      refine ⟨i, by rw [hcs, if_neg he, if_pos hf], by rw [hcb, if_neg hne, if_pos rfl],
        by omega, h2, fun _ => by omega, fun h => by omega⟩
    · have hpa : pos ≠ p.available_bullets := by
        intro hEq
        rw [hEq] at hx; rw [hx] at hc; cases hc
        omega
      refine ⟨pos, by rw [hcs, if_neg he, if_neg hf, hpos],
        by rw [hcb, if_neg hpa, if_neg hpi, hx], hp0, hp1, fun _ => by omega, fun _ => rfl⟩

/-- A live handle is inside the integer range of the stable indices. -/
theorem Live.lt_sum {α : Type} {p : BulletsPool α} {id : BulletID} (hl : Live p id)
    (hN : 0 ≤ p.pool_size) :
    p.starting_shape_index ≤ id.index ∧ id.index < p.starting_shape_index + p.pool_size := by
  obtain ⟨_, _, l1, l2, -⟩ := hl
  have := add32_le p.starting_shape_index hN
  exact ⟨l1, by omega⟩

/-- Releasing a slot other than the one a live handle names keeps the handle live. -/
theorem _release_bullet_live {α ν : Type} (k : Hooks α ν) {p q : BulletsPool α}
    (hs : Sized p) (hi : Indirection p) {i : Int} (ha : 0 ≤ p.available_bullets)
    (h1 : p.available_bullets ≤ i) (h2 : i < p.pool_size)
    (hq : _release_bullet k p i = some q) {b : Bullet α} (hb : getAt p.bullets i = some b)
    {id : BulletID} (hne : b.shape_index ≠ id.index) (hl : Live p id) : Live q id := by
  have hr := hl.lt_sum hs.1
  obtain ⟨pos, x, l1, l2, l3, l4, l5, l6, l7⟩ := hl
  obtain ⟨-, hbase, hN, hav, -⟩ := _release_bullet_frame k hq
  obtain ⟨hxs, -, -⟩ := hi.shape_eq (by omega) (by omega) l3 l6
  rcases _release_bullet_resolve k hs hi ha h1 h2 hq (by omega) (by omega) l3 l6 with
    ⟨hpi, -, -⟩ | ⟨-, pos', r1, r2, r3, r4, r5, -⟩
  · subst hpi
    rw [hb] at l6; cases l6
    exact absurd (by omega) hne
  · exact ⟨pos', x, by omega, by rw [hbase, hN]; exact l2, by rw [hbase]; exact r1,
      by have := r5 l4; omega, by omega, r2, l7⟩

/-- A slot that has moved past the generation of a handle stays past it when a position
is released, unless the release makes the counter of that very slot wrap. -/
theorem _release_bullet_stale {α ν : Type} (k : Hooks α ν) {p q : BulletsPool α}
    (hs : Sized p) (hi : Indirection p) {i : Int} (ha : 0 ≤ p.available_bullets)
    (h1 : p.available_bullets ≤ i) (h2 : i < p.pool_size)
    (hq : _release_bullet k p i = some q) {id : BulletID} (hl : Stale p id)
    (hroom : ∀ x, getAt p.bullets i = some x → x.shape_index = id.index →
      x.cycle < 2147483647) : Stale q id := by
  obtain ⟨pos, x, l1, l2, l3, l6, l7⟩ := hl
  obtain ⟨-, hbase, hN, hav, -⟩ := _release_bullet_frame k hq
  obtain ⟨hxs, -, -⟩ := hi.shape_eq (by omega) (by omega) l3 l6
  rcases _release_bullet_resolve k hs hi ha h1 h2 hq (by omega) (by omega) l3 l6 with
    ⟨hpi, r1, r2⟩ | ⟨-, pos', r1, r2, -⟩
  · subst hpi
    have hx := hroom x l6 (by omega)
    exact ⟨_, _, by omega, by omega, by rw [hbase]; exact r1, r2,
      by show _ < add32 x.cycle 1; rw [add32_one_of_lt hx]; omega⟩
  · exact ⟨pos', x, by omega, by omega, by rw [hbase]; exact r1, r2, l7⟩

/-! ## The loop of `_process` -/

/-- The proof rule of the loop of `_process`: a property `I n t` of the loop counter and
the tick that survives both ways through the body holds when the loop is left, at a
counter `m` with `m - 1 < available_bullets`. -/
theorem process_loop_rule {α ν : Type} (k : Hooks α ν) (step : Bullet α → α × Bool)
    (I : Nat → Tick α → Prop)
    (hkeep : ∀ (n : Nat) (t : Tick α) (b : Bullet α), I (n + 1) t →
      t.pool.available_bullets ≤ n → getAt t.pool.bullets n = some b → (step b).2 = false →
      I n ⟨store t.pool n { b with data := (step b).1 }, t.amount_variation,
        t.calls ++ [⟨n, t.pool.available_bullets, b.shape_index, false⟩]⟩)
    (hfree : ∀ (n : Nat) (t : Tick α) (b : Bullet α) (q : BulletsPool α), I (n + 1) t →
      t.pool.available_bullets ≤ n → getAt t.pool.bullets n = some b → (step b).2 = true →
      _release_bullet k (store t.pool n { b with data := (step b).1 }) n = some q →
      I n ⟨q, t.amount_variation - 1,
        t.calls ++ [⟨n, t.pool.available_bullets, b.shape_index, true⟩]⟩) :
    ∀ (n : Nat) (t t' : Tick α), I n t → process_loop k step n t = some t' →
      ∃ m : Nat, m ≤ n ∧ I m t' ∧ (m : Int) - 1 < t'.pool.available_bullets := by
  intro n
  induction n with
  | zero =>
    intro t t' hI h
    unfold process_loop at h
    split at h
    · simp at h
    · rename_i hc
      cases h
      exact ⟨0, le_refl _, hI, by simpa using hc⟩
  | succ n ih =>
    intro t t' hI h
    unfold process_loop at h
    simp only at h
    split at h
    · rename_i hc
      split at h
      · simp at h
      · rename_i b hb
        split at h
        · rename_i hexp
          split at h
          · simp at h
          · rename_i q hq
            rw [hexp] at h
            obtain ⟨m, hm, hIm, hex⟩ := ih _ t' (hfree n t b q hI hc hb hexp hq) h
            exact ⟨m, by omega, hIm, hex⟩
        · rename_i hexp
          have hexp' : (step b).2 = false := by simpa using hexp
          rw [hexp'] at h
          obtain ⟨m, hm, hIm, hex⟩ := ih _ t' (hkeep n t b hI hc hb hexp') h
          exact ⟨m, by omega, hIm, hex⟩
    · rename_i hc
      cases h
      exact ⟨n + 1, le_refl _, hI, by push_cast; omega⟩

/-- In a well-formed pool the loop of `_process` runs to its end: every access it makes
is inside the arrays. -/
theorem process_loop_total {α ν : Type} (k : Hooks α ν) (step : Bullet α → α × Bool) :
    ∀ (n : Nat) (t : Tick α), Sized t.pool → Indirection t.pool →
      0 ≤ t.pool.available_bullets → (n : Int) ≤ t.pool.pool_size →
      ∃ t', process_loop k step n t = some t' := by
  intro n
  induction n with
  | zero =>
    intro t _ _ ha _
    unfold process_loop
    have : ¬ ((-1 : Int) ≥ t.pool.available_bullets) := by omega
    simp [this]
  | succ n ih =>
    intro t hs hi ha hn
    unfold process_loop
    simp only
    push_cast at hn
    split
    · rename_i hc
      obtain ⟨b, hb⟩ := getAt_of_bounds t.pool.bullets (i := (n : Int))
        (by omega) (by have := hs.2.1; omega)
      simp only [hb]
      have hsame := sameSlots_store t.pool (step b).1 hb
      have hs1 := hsame.sized hs
      have hi1 := hsame.indirection hi
      split
      · obtain ⟨q, _, _, _, _, hq, -, -, hN, hav, -⟩ :=
          _release_bullet_cells k hs1 hi1 (i := (n : Int)) (by exact ha) (by exact hc)
            (by show (n : Int) < t.pool.pool_size; omega)
        rw [hq]
        have hwf := _release_bullet_wf k hs1 hi1 (i := (n : Int)) (by exact ha) (by exact hc)
            (by show (n : Int) < t.pool.pool_size; omega) hq
        exact ih _ hwf.1 hwf.2 (by show 0 ≤ q.available_bullets; rw [hav]; show 0 ≤ t.pool.available_bullets + 1; omega)
          (by show (n : Int) ≤ q.pool_size; rw [hN]; show (n : Int) ≤ t.pool.pool_size; omega)
      · exact ih _ hs1 hi1 ha (by show (n : Int) ≤ t.pool.pool_size; omega)
    · exact ⟨t, rfl⟩

/-! ## Handles -/

/-- The two ways `release_bullet` can return: a refusal that leaves the pool as it is, or
a release of the position a live handle resolves to. -/
theorem release_bullet_cases {α ν : Type} (k : Hooks α ν) {p q : BulletsPool α}
    {id : BulletID} {r : Bool} (h : release_bullet k p id = some (r, q)) :
    (r = false ∧ q = p) ∨
      (r = true ∧ ∃ pos b, p.starting_shape_index ≤ id.index ∧
        id.index < add32 p.starting_shape_index p.pool_size ∧
        getAt p.shapes_to_indices (id.index - p.starting_shape_index) = some pos ∧
        p.available_bullets ≤ pos ∧ pos < p.pool_size ∧ getAt p.bullets pos = some b ∧
        id.cycle = b.cycle ∧ _release_bullet k p pos = some q) := by
  unfold release_bullet at h
  split at h
  · rename_i hr
    split at h
    · simp at h
    · rename_i pos hpos
      split at h
      · rename_i hp
        split at h
        · simp at h
        · rename_i b hb
          split at h
          · rename_i hcy
            split at h
            · simp at h
            · rename_i q' hq'
              simp only [Option.some.injEq, Prod.mk.injEq] at h
              obtain ⟨h1, h2⟩ := h
              subst h1; subst h2
              exact Or.inr ⟨rfl, pos, b, hr.1, hr.2, hpos, hp.1, hp.2, hb, hcy, hq'⟩
          · simp only [Option.some.injEq, Prod.mk.injEq] at h
            exact Or.inl ⟨h.1.symm, h.2.symm⟩
      · simp only [Option.some.injEq, Prod.mk.injEq] at h
        exact Or.inl ⟨h.1.symm, h.2.symm⟩
  · simp only [Option.some.injEq, Prod.mk.injEq] at h
    exact Or.inl ⟨h.1.symm, h.2.symm⟩

/-- On a live handle `release_bullet` goes through to `_release_bullet`. -/
theorem release_bullet_of_live {α ν : Type} (k : Hooks α ν) {p : BulletsPool α}
    {id : BulletID} (hl : Live p id) :
    ∃ pos b, getAt p.shapes_to_indices (id.index - p.starting_shape_index) = some pos ∧
      p.available_bullets ≤ pos ∧ pos < p.pool_size ∧ getAt p.bullets pos = some b ∧
      id.cycle = b.cycle ∧
      release_bullet k p id = (_release_bullet k p pos).map fun q => (true, q) := by
  obtain ⟨pos, b, h1, h2, h3, h4, h5, h6, h7⟩ := hl
  refine ⟨pos, b, h3, h4, h5, h6, h7, ?_⟩
  unfold release_bullet
  simp only [h1, h2, h3, h4, h5, h6, h7, and_self, if_true]
  cases _release_bullet k p pos <;> rfl

/-- In a well-formed pool `is_bullet_valid` reads inside the arrays. -/
theorem is_bullet_valid_total {α : Type} {p : BulletsPool α} (hN : 0 ≤ p.pool_size)
    (hi : Indirection p) (id : BulletID) : ∃ r, is_bullet_valid p id = some r := by
  unfold is_bullet_valid
  split
  · rename_i hr
    have hle := add32_le p.starting_shape_index hN
    obtain ⟨pos, b, h1, -, -, h4, -⟩ := hi (id.index - p.starting_shape_index)
      (by omega) (by omega)
    simp only [h1, h4]
    split
    · exact ⟨_, rfl⟩
    · exact ⟨_, rfl⟩
  · exact ⟨_, rfl⟩

/-- In a well-formed pool a handle that is not live is reported invalid. -/
theorem is_bullet_valid_of_not_live {α : Type} {p : BulletsPool α} (hN : 0 ≤ p.pool_size)
    (hi : Indirection p) {id : BulletID} (hl : ¬ Live p id) :
    is_bullet_valid p id = some false := by
  obtain ⟨r, hr⟩ := is_bullet_valid_total hN hi id
  cases r with
  | false => exact hr
  | true => exact absurd ((is_bullet_valid_iff_live p id).mp hr) hl

/-- In a well-formed pool `release_bullet` refuses every handle that is not live and
leaves the pool as it is. -/
theorem release_bullet_of_not_live {α ν : Type} (k : Hooks α ν) {p : BulletsPool α}
    (hN : 0 ≤ p.pool_size) (hi : Indirection p) {id : BulletID} (hl : ¬ Live p id) :
    release_bullet k p id = some (false, p) := by
  unfold release_bullet
  split
  · rename_i hr
    have hle := add32_le p.starting_shape_index hN
    obtain ⟨pos, b, h1, -, -, h4, -⟩ := hi (id.index - p.starting_shape_index)
      (by omega) (by omega)
    simp only [h1, h4]
    split
    · rename_i hp
      split
      · rename_i hcy
        exact absurd ⟨pos, b, hr.1, hr.2, h1, hp.1, hp.2, h4, hcy⟩ hl
      · rfl
    · rfl
  · rfl

/-- In a well-formed pool `get_bullet_from_shape` reads inside the arrays. -/
theorem get_bullet_from_shape_total {α : Type} {p : BulletsPool α}
    (hN : 0 ≤ p.pool_size) (hi : Indirection p) (s : Int) :
    ∃ r, get_bullet_from_shape p s = some r := by
  unfold get_bullet_from_shape
  split
  · rename_i hr
    have hle := add32_le p.starting_shape_index hN
    obtain ⟨pos, b, h1, -, -, h4, -⟩ := hi (s - p.starting_shape_index) (by omega) (by omega)
    simp only [h1, h4]
    split
    · exact ⟨_, rfl⟩
    · exact ⟨_, rfl⟩
  · exact ⟨_, rfl⟩

/-- A handle whose slot holds another cycle is not live in a pool with the same slots. -/
theorem SameSlots.not_live_of_cycle {α : Type} {p q : BulletsPool α} (h : SameSlots p q)
    {id : BulletID} {pos : Int} {b : Bullet α}
    (h3 : getAt p.shapes_to_indices (id.index - p.starting_shape_index) = some pos)
    (h6 : getAt p.bullets pos = some b) (hne : b.cycle ≠ id.cycle) : ¬ Live q id := by
  obtain ⟨-, hbase, -, hsi, -, hcell⟩ := h
  rintro ⟨pos', x, -, -, l3, -, -, l6, l7⟩
  rw [hbase, hsi, h3] at l3
  cases l3
  obtain ⟨y, hy, hyc, -⟩ := hcell _ _ h6
  rw [hy] at l6
  cases l6
  exact hne (by omega)

/-- A stale handle is not live. -/
theorem Stale.not_live {α : Type} {p : BulletsPool α} {id : BulletID} (hs : Stale p id) :
    ¬ Live p id := by
  rintro ⟨pos, b, -, -, h3, -, -, h6, h7⟩
  obtain ⟨pos', b', -, -, g3, g6, g7⟩ := hs
  rw [h3] at g3; cases g3
  rw [h6] at g6; cases g6
  omega

/-- With a non-negative `pool_size` both branches of `_process` are the one loop. -/
theorem process_tick_eq {α ν : Type} (k : Hooks α ν) (step : Bullet α → α × Bool)
    {p : BulletsPool α} (h : 0 ≤ p.pool_size) :
    process_tick k step p = process_loop k step p.pool_size.toNat ⟨p, 0, []⟩ := by
  unfold process_tick
  simp [h]

/-! ## Ticks on well-formed pools -/

/-- The write the loop of `_process` makes after a step keeps a pool well-formed, and
leaves the stepped bullet, with its new data, where it was. -/
theorem store_step_wf {α : Type} {p : BulletsPool α} (hw : WellFormed p) {i : Int}
    {b : Bullet α} (hb : getAt p.bullets i = some b) (d : α) :
    WellFormed (store p i { b with data := d }) ∧
      getAt (store p i { b with data := d }).bullets i = some { b with data := d } ∧
      ∀ pos, pos ≠ i → getAt (store p i { b with data := d }).bullets pos = getAt p.bullets pos := by
  have hsame := sameSlots_store p d hb
  have hib := getAt_bounds hb
  refine ⟨⟨hsame.sized hw.1, hw.2.1, hsame.indirection hw.2.2⟩, ?_, ?_⟩
  · show getAt (p.bullets.set i.toNat _) i = _
    rw [getAt_set _ _ hib.1]
    simp [hib.2]
  · intro pos hp
    show getAt (p.bullets.set i.toNat _) pos = _
    rw [getAt_set _ _ hib.1]
    simp [hp]

/-- The proof rule of the loop of `_process` for well-formed pools: the loop runs to its
end, the pool stays well-formed, and a property `J` that survives both ways through the
body holds when the loop is left. -/
theorem process_loop_wf_rule {α ν : Type} (k : Hooks α ν) (step : Bullet α → α × Bool)
    (J : Nat → Tick α → Prop)
    (hkeep : ∀ (n : Nat) (t : Tick α) (b : Bullet α), WellFormed t.pool →
      ((n : Int) + 1 ≤ t.pool.pool_size) → J (n + 1) t →
      t.pool.available_bullets ≤ n → getAt t.pool.bullets n = some b → (step b).2 = false →
      J n ⟨store t.pool n { b with data := (step b).1 }, t.amount_variation,
        t.calls ++ [⟨n, t.pool.available_bullets, b.shape_index, false⟩]⟩)
    (hfree : ∀ (n : Nat) (t : Tick α) (b : Bullet α) (q : BulletsPool α), WellFormed t.pool →
      ((n : Int) + 1 ≤ t.pool.pool_size) → J (n + 1) t →
      t.pool.available_bullets ≤ n → getAt t.pool.bullets n = some b → (step b).2 = true →
      _release_bullet k (store t.pool n { b with data := (step b).1 }) n = some q →
      J n ⟨q, t.amount_variation - 1,
        t.calls ++ [⟨n, t.pool.available_bullets, b.shape_index, true⟩]⟩)
    (n : Nat) (t : Tick α) (hw : WellFormed t.pool) (hn : (n : Int) ≤ t.pool.pool_size)
    (hJ : J n t) :
    ∃ (t' : Tick α) (m : Nat), process_loop k step n t = some t' ∧ m ≤ n ∧
      WellFormed t'.pool ∧ J m t' ∧ (m : Int) - 1 < t'.pool.available_bullets ∧
      t'.pool.pool_size = t.pool.pool_size ∧
      t'.pool.starting_shape_index = t.pool.starting_shape_index ∧
      t'.pool.collisions_enabled = t.pool.collisions_enabled := by
  obtain ⟨t', ht'⟩ := process_loop_total k step n t hw.1 hw.2.2 hw.2.1.1 hn
  have key := process_loop_rule k step
    (fun n s => WellFormed s.pool ∧ (n : Int) ≤ s.pool.pool_size ∧ J n s ∧
      s.pool.pool_size = t.pool.pool_size ∧
      s.pool.starting_shape_index = t.pool.starting_shape_index ∧
      s.pool.collisions_enabled = t.pool.collisions_enabled)
    (by
      rintro n s b ⟨sw, sn, sJ, f1, f2, f3⟩ hc hb hexp
      push_cast at sn
      exact ⟨(store_step_wf sw hb _).1, by show (n : Int) ≤ s.pool.pool_size; omega,
        hkeep n s b sw sn sJ hc hb hexp, f1, f2, f3⟩)
    (by
      rintro n s b q ⟨sw, sn, sJ, f1, f2, f3⟩ hc hb hexp hq
      push_cast at sn
      obtain ⟨w1, -, -⟩ := store_step_wf sw hb (step b).1
      obtain ⟨g1, g2, g3, g4, -⟩ := _release_bullet_frame k hq
      have hwq := _release_bullet_wf k w1.1 w1.2.2 (i := (n : Int)) sw.2.1.1 hc
        (by show (n : Int) < s.pool.pool_size; omega) hq
      have hav : q.available_bullets = s.pool.available_bullets + 1 := g4
      have hN : q.pool_size = s.pool.pool_size := g3
      have hc' : s.pool.available_bullets ≤ n := hc
      have hpart : Partitioned q := by
        have := sw.2.1.1
        exact ⟨by rw [hav]; omega, by rw [hav, hN]; omega⟩
      refine ⟨⟨hwq.1, hpart, hwq.2⟩, by show (n : Int) ≤ q.pool_size; omega,
        hfree n s b q sw sn sJ hc hb hexp hq, by rw [← f1]; exact hN, by rw [← f2]; exact g2,
        by rw [← f3]; exact g1⟩)
    n t t' ⟨hw, hn, hJ, rfl, rfl, rfl⟩ ht'
  obtain ⟨m, hm, ⟨mw, -, mJ, f1, f2, f3⟩, hex⟩ := key
  exact ⟨t', m, ht', hm, mw, mJ, hex, f1, f2, f3⟩

/-- A tick on a well-formed pool runs to its end and leaves a well-formed pool. -/
theorem process_tick_wf {α ν : Type} (k : Hooks α ν) (step : Bullet α → α × Bool)
    {p : BulletsPool α} (hw : WellFormed p) :
    ∃ t, process_tick k step p = some t ∧ WellFormed t.pool ∧
      t.pool.pool_size = p.pool_size ∧
      t.pool.starting_shape_index = p.starting_shape_index ∧
      t.pool.collisions_enabled = p.collisions_enabled := by
  obtain ⟨t, m, ht, -, tw, -, -, f1, f2, f3⟩ := process_loop_wf_rule k step (fun _ _ => True)
    (fun _ _ _ _ _ _ _ _ _ => trivial) (fun _ _ _ _ _ _ _ _ _ _ _ => trivial)
    p.pool_size.toNat ⟨p, 0, []⟩ hw (by have := hw.1.1; show ((p.pool_size.toNat : Nat) : Int) ≤ p.pool_size; omega) trivial
  exact ⟨t, by rw [process_tick_eq k step hw.1.1]; exact ht, tw, f1, f2, f3⟩

/-- A live handle survives a tick in which no step on its bullet reports expiry. -/
theorem process_tick_live {α ν : Type} (k : Hooks α ν) (step : Bullet α → α × Bool)
    {p : BulletsPool α} (hw : WellFormed p) {id : BulletID} (hl : Live p id) {t : Tick α}
    (ht : process_tick k step p = some t)
    (hsp : ∀ c ∈ t.calls, c.shape_index = id.index → c.expired = false) : Live t.pool id := by
  obtain ⟨t', m, ht', -, -, hJ, -⟩ := process_loop_wf_rule k step
    (fun _ s => (∀ c ∈ s.calls, c.shape_index = id.index → c.expired = false) → Live s.pool id)
    (by
      intro n s b sw _ sJ _ hb _ hcalls
      have hl' := sJ (fun c hc => hcalls c (List.mem_append_left _ hc))
      exact (sameSlots_store s.pool (step b).1 hb).live (le_refl _) hl')
    (by
      intro n s b q sw sn sJ hc hb _ hq hcalls
      have hl' := sJ (fun c hc => hcalls c (List.mem_append_left _ hc))
      have hne : b.shape_index ≠ id.index := by
        intro hEq
        have := hcalls ⟨n, s.pool.available_bullets, b.shape_index, true⟩
          (List.mem_append_right _ (List.mem_singleton.mpr rfl)) hEq
        simp at this
      obtain ⟨w1, w2, -⟩ := store_step_wf sw hb (step b).1
      exact _release_bullet_live k w1.1 w1.2.2 (i := (n : Int)) sw.2.1.1 hc
        (by show (n : Int) < s.pool.pool_size; omega) hq w2 hne
        ((sameSlots_store s.pool (step b).1 hb).live (le_refl _) hl'))
    p.pool_size.toNat ⟨p, 0, []⟩ hw
    (by have := hw.1.1; show ((p.pool_size.toNat : Nat) : Int) ≤ p.pool_size; omega)
    (fun _ => hl)
  rw [process_tick_eq k step hw.1.1, ht'] at ht
  cases ht
  exact hJ hsp

/-- A stale handle stays stale through a tick in which no step on its slot reports
expiry. -/
theorem process_tick_stale_spared {α ν : Type} (k : Hooks α ν) (step : Bullet α → α × Bool)
    {p : BulletsPool α} (hw : WellFormed p) {id : BulletID} (hl : Stale p id) {t : Tick α}
    (ht : process_tick k step p = some t)
    (hsp : ∀ c ∈ t.calls, c.shape_index = id.index → c.expired = false) :
    Stale t.pool id := by
  obtain ⟨t', m, ht', -, -, hJ, -⟩ := process_loop_wf_rule k step
    (fun _ s => (∀ c ∈ s.calls, c.shape_index = id.index → c.expired = false) →
      Stale s.pool id)
    (by
      intro n s b sw _ sJ _ hb _ hcalls
      have hl' := sJ (fun c hc => hcalls c (List.mem_append_left _ hc))
      exact (sameSlots_store s.pool (step b).1 hb).stale hl')
    (by
      intro n s b q sw sn sJ hc hb _ hq hcalls
      have hl' := sJ (fun c hc => hcalls c (List.mem_append_left _ hc))
      have hne : b.shape_index ≠ id.index := by
        intro hEq
        have := hcalls ⟨n, s.pool.available_bullets, b.shape_index, true⟩
          (List.mem_append_right _ (List.mem_singleton.mpr rfl)) hEq
        simp at this
      obtain ⟨w1, w2, -⟩ := store_step_wf sw hb (step b).1
      refine _release_bullet_stale k w1.1 w1.2.2 (i := (n : Int)) sw.2.1.1 hc
        (by show (n : Int) < s.pool.pool_size; omega) hq
        ((sameSlots_store s.pool (step b).1 hb).stale hl') ?_
      intro x hx hxs
      rw [w2] at hx
      cases hx
      exact absurd hxs hne)
    p.pool_size.toNat ⟨p, 0, []⟩ hw
    (by have := hw.1.1; show ((p.pool_size.toNat : Nat) : Int) ≤ p.pool_size; omega)
    (fun _ => hl)
  rw [process_tick_eq k step hw.1.1, ht'] at ht
  cases ht
  exact hJ hsp

/-- A stale handle stays stale through a tick that finds the cycle of its slot below the
largest int32: the tick releases a slot at most once. -/
theorem process_tick_stale_room {α ν : Type} (k : Hooks α ν) (step : Bullet α → α × Bool)
    {p : BulletsPool α} (hw : WellFormed p) {id : BulletID} (hl : Stale p id)
    (hroom : CycleRoom p id) {t : Tick α} (ht : process_tick k step p = some t) :
    Stale t.pool id := by
  obtain ⟨t', m, ht', -, -, hJ, -⟩ := process_loop_wf_rule k step
    (fun _ s => Stale s.pool id ∧
      ∀ pos x, s.pool.available_bullets ≤ pos → getAt s.pool.bullets pos = some x →
        x.shape_index = id.index → x.cycle < 2147483647)
    (by
      rintro n s b sw _ ⟨sJ, sR⟩ hc hb _
      obtain ⟨-, w2, w3⟩ := store_step_wf sw hb (step b).1
      refine ⟨(sameSlots_store s.pool (step b).1 hb).stale sJ, ?_⟩
      intro pos x hp hx hxs
      by_cases hpn : pos = (n : Int)
      · subst hpn
        rw [w2] at hx
        cases hx
        exact sR _ b hp hb hxs
      · rw [w3 pos hpn] at hx
        exact sR pos x hp hx hxs)
    (by
      rintro n s b q sw sn ⟨sJ, sR⟩ hc hb _ hq
      obtain ⟨w1, w2, w3⟩ := store_step_wf sw hb (step b).1
      obtain ⟨q', b', c', hb', hc', hq', -, -, -, hav, -, -, -, hcb, -⟩ :=
        _release_bullet_cells k w1.1 w1.2.2 (i := (n : Int)) sw.2.1.1 hc
          (by show (n : Int) < s.pool.pool_size; omega)
      rw [hq] at hq'; cases hq'
      have hav' : q.available_bullets = s.pool.available_bullets + 1 := hav
      have hc1 : s.pool.available_bullets ≤ (n : Int) := hc
      refine ⟨_release_bullet_stale k w1.1 w1.2.2 (i := (n : Int)) sw.2.1.1 hc
        (by show (n : Int) < s.pool.pool_size; omega) hq
        ((sameSlots_store s.pool (step b).1 hb).stale sJ) ?_, ?_⟩
      · intro x hx hxs
        rw [w2] at hx
        cases hx
        exact sR _ b hc1 hb hxs
      · intro pos x hp hx hxs
        have hp' : s.pool.available_bullets + 1 ≤ pos := by rw [← hav']; exact hp
        have hpa : pos ≠ s.pool.available_bullets := by omega
        rw [hcb, if_neg (by exact hpa)] at hx
        by_cases hpn : pos = (n : Int)
        · rw [if_pos hpn] at hx
          have hx' : c' = x := Option.some.inj hx
          rw [← hx'] at hxs ⊢
          have hna : s.pool.available_bullets ≠ (n : Int) := by omega
          have hc2 : getAt s.pool.bullets s.pool.available_bullets = some c' := by
            rw [← w3 _ hna]; exact hc'
          exact sR _ c' (le_refl _) hc2 hxs
        · rw [if_neg hpn, w3 pos hpn] at hx
          exact sR pos x (by omega) hx hxs)
    p.pool_size.toNat ⟨p, 0, []⟩ hw
    (by have := hw.1.1; show ((p.pool_size.toNat : Nat) : Int) ≤ p.pool_size; omega)
    ⟨hl, by
      intro pos x hp hx hxs
      have hx0 : getAt p.bullets pos = some x := hx
      have hb := getAt_bounds hx0
      have := hw.1.2.1
      obtain ⟨-, -, e⟩ := hw.2.2.position_eq hb.1 (by omega) hx0
      rw [hxs] at e
      exact hroom pos x e hx⟩
  rw [process_tick_eq k step hw.1.1, ht'] at ht
  cases ht
  exact hJ.1

/-- In a well-formed pool two slots with the same stable index are the same slot. -/
theorem Indirection.position_unique {α : Type} {p : BulletsPool α} (hs : Sized p)
    (hi : Indirection p) {pos pos' : Int} {x y : Bullet α}
    (hx : getAt p.bullets pos = some x) (hy : getAt p.bullets pos' = some y)
    (hxy : x.shape_index = y.shape_index) : pos = pos' := by
  have bx := getAt_bounds hx
  have hby := getAt_bounds hy
  obtain ⟨-, hbl, -⟩ := hs
  obtain ⟨-, -, h1⟩ := hi.position_eq bx.1 (by omega) hx
  obtain ⟨-, -, h2⟩ := hi.position_eq hby.1 (by omega) hy
  rw [hxy, h2] at h1
  cases h1; rfl

/-- Appending the stable index of a bullet not stepped yet keeps the record free of
repetitions. -/
theorem nodup_snoc_call {calls : List StepCall} {c : StepCall}
    (hn : (calls.map StepCall.shape_index).Nodup)
    (hc : c.shape_index ∉ calls.map StepCall.shape_index) :
    ((calls ++ [c]).map StepCall.shape_index).Nodup := by
  rw [List.map_append, List.nodup_append]
  refine ⟨hn, by simp, ?_⟩
  intro a ha hb
  simp only [List.map_cons, List.map_nil, List.mem_singleton] at hb
  subst hb
  exact hc ha

theorem not_mem_snoc_call {calls : List StepCall} {c : StepCall} {s : Int}
    (h1 : s ∉ calls.map StepCall.shape_index) (h2 : s ≠ c.shape_index) :
    s ∉ (calls ++ [c]).map StepCall.shape_index := by
  rw [List.map_append, List.mem_append]
  rintro (h | h)
  · exact h1 h
  · simp only [List.map_cons, List.map_nil, List.mem_singleton] at h
    exact h2 h

/-- In one tick on a well-formed pool no stable index is stepped twice. -/
theorem process_tick_nodup {α ν : Type} (k : Hooks α ν) (step : Bullet α → α × Bool)
    {p : BulletsPool α} (hw : WellFormed p) :
    ∃ t, process_tick k step p = some t ∧ (t.calls.map StepCall.shape_index).Nodup := by
  obtain ⟨t', m, ht', -, -, hJ, -⟩ := process_loop_wf_rule k step
    (fun n s => (s.calls.map StepCall.shape_index).Nodup ∧
      ∀ pos x, s.pool.available_bullets ≤ pos → pos < (n : Int) →
        getAt s.pool.bullets pos = some x → x.shape_index ∉ s.calls.map StepCall.shape_index)
    (by
      rintro n s b sw sn ⟨hnd, hfresh⟩ hc hb -
      obtain ⟨w1, w2, w3⟩ := store_step_wf sw hb (step b).1
      refine ⟨nodup_snoc_call hnd (hfresh n b hc (by push_cast; omega) hb), ?_⟩
      intro pos x hp1 hp2 hx
      have hpn : pos ≠ (n : Int) := by omega
      rw [w3 pos hpn] at hx
      refine not_mem_snoc_call (hfresh pos x hp1 (by push_cast; omega) hx) ?_
      intro hEq
      exact hpn (Indirection.position_unique sw.1 sw.2.2 hx hb hEq))
    (by
      rintro n s b q sw sn ⟨hnd, hfresh⟩ hc hb - hq
      obtain ⟨w1, w2, w3⟩ := store_step_wf sw hb (step b).1
      obtain ⟨q', b', c', hb', -, hq', -, -, -, hav, -, -, -, hcb, -⟩ :=
        _release_bullet_cells k w1.1 w1.2.2 (i := (n : Int)) sw.2.1.1 hc
          (by show (n : Int) < s.pool.pool_size; omega)
      rw [hq] at hq'; cases hq'
      refine ⟨nodup_snoc_call hnd (hfresh n b hc (by push_cast; omega) hb), ?_⟩
      intro pos x hp1 hp2 hx
      have hav' : q.available_bullets = s.pool.available_bullets + 1 := hav
      have hp1' : s.pool.available_bullets + 1 ≤ pos := by rw [← hav']; exact hp1
      have hpn : pos ≠ (n : Int) := by omega
      have hpa : pos ≠ s.pool.available_bullets := by omega
      have hcb' := hcb pos
      rw [if_neg (by exact hpa), if_neg hpn, w3 pos hpn] at hcb'
      rw [hcb'] at hx
      refine not_mem_snoc_call (hfresh pos x (by omega) (by push_cast; omega) hx) ?_
      intro hEq
      exact hpn (Indirection.position_unique sw.1 sw.2.2 hx hb hEq))
    p.pool_size.toNat ⟨p, 0, []⟩ hw
    (by have := hw.1.1; show ((p.pool_size.toNat : Nat) : Int) ≤ p.pool_size; omega)
    ⟨by simp, by simp⟩
  exact ⟨t', by rw [process_tick_eq k step hw.1.1]; exact ht', hJ.1⟩

/-- The counters through a tick, whatever the arrays hold: while the tick runs inside the
arrays, `available_bullets + active_bullets` is kept and `available_bullets` stays within
`[0, pool_size]`. -/
theorem process_tick_counters {α ν : Type} (k : Hooks α ν) (step : Bullet α → α × Bool)
    {p : BulletsPool α} {t : Tick α} (hp : Partitioned p)
    (ht : process_tick k step p = some t) :
    t.pool.pool_size = p.pool_size ∧ Partitioned t.pool ∧
      t.pool.available_bullets + t.pool.active_bullets =
        p.available_bullets + p.active_bullets := by
  have hN : 0 ≤ p.pool_size := le_trans hp.1 hp.2
  rw [process_tick_eq k step hN] at ht
  obtain ⟨m, -, ⟨h1, h2, h3, -⟩, -⟩ := process_loop_rule k step
    (fun n s => s.pool.pool_size = p.pool_size ∧ Partitioned s.pool ∧
      s.pool.available_bullets + s.pool.active_bullets =
        p.available_bullets + p.active_bullets ∧ (n : Int) ≤ s.pool.pool_size)
    (by
      rintro n s b ⟨g1, g2, g3, g4⟩ hc hb -
      push_cast at g4
      exact ⟨g1, g2, g3, by show (n : Int) ≤ s.pool.pool_size; omega⟩)
    (by
      rintro n s b q ⟨g1, g2, g3, g4⟩ hc hb - hq
      push_cast at g4
      obtain ⟨-, -, f3, f4, f5⟩ := _release_bullet_frame k hq
      have f3' : q.pool_size = s.pool.pool_size := f3
      have f4' : q.available_bullets = s.pool.available_bullets + 1 := f4
      have f5' : q.active_bullets = s.pool.active_bullets - 1 := f5
      have := g2.1
      exact ⟨by rw [← g1]; exact f3', ⟨by rw [f4']; omega, by rw [f4', f3']; omega⟩,
        by rw [← g3, f4', f5']; ring, by rw [f3']; omega⟩)
    p.pool_size.toNat ⟨p, 0, []⟩ t
    ⟨rfl, hp, rfl, by show ((p.pool_size.toNat : Nat) : Int) ≤ p.pool_size; omega⟩ ht
  exact ⟨h1, h2, h3⟩

/-! ## Calls on well-formed pools -/

/-- The two ways `obtain_bullet` can return. -/
theorem obtain_bullet_cases {α ν : Type} (k : Hooks α ν) {p q : BulletsPool α}
    {id : BulletID} (h : obtain_bullet k p = some (id, q)) :
    (p.available_bullets ≤ 0 ∧ id = ⟨-1, -1⟩ ∧ q = p) ∨
      (0 < p.available_bullets ∧ ∃ b, activate k.enable_bullet p = some (b, q) ∧
        id = ⟨b.shape_index, b.cycle⟩) := by
  unfold obtain_bullet at h
  split at h
  · rename_i hpos
    split at h
    · simp at h
    · rename_i b q' hact
      simp only [Option.some.injEq, Prod.mk.injEq] at h
      obtain ⟨h1, h2⟩ := h
      subst h1; subst h2
      exact Or.inr ⟨hpos, b, hact, rfl⟩
  · rename_i hpos
    simp only [Option.some.injEq, Prod.mk.injEq] at h
    exact Or.inl ⟨by omega, h.1.symm, h.2.symm⟩

/-- The two ways `spawn_bullet` can return. -/
theorem spawn_bullet_cases {α ν : Type} (k : Hooks α ν) {p q : BulletsPool α}
    {properties : List (String × ν)} (h : spawn_bullet k p properties = some q) :
    (p.available_bullets ≤ 0 ∧ q = p) ∨
      (0 < p.available_bullets ∧ ∃ b,
        activate (fun d => k.enable_bullet (set_properties k properties d)) p = some (b, q)) := by
  unfold spawn_bullet at h
  split at h
  · rename_i hpos
    split at h
    · simp at h
    · rename_i b q' hact
      simp only [Option.some.injEq] at h
      subst h
      exact Or.inr ⟨hpos, b, hact⟩
  · rename_i hpos
    simp only [Option.some.injEq] at h
    exact Or.inl ⟨by omega, h.symm⟩

/-- Activating a slot of a well-formed pool leaves a well-formed pool. -/
theorem activate_wf {α : Type} {prepare : α → α} {p q : BulletsPool α} {b : Bullet α}
    (hw : WellFormed p) (h0 : 0 < p.available_bullets)
    (h : activate prepare p = some (b, q)) : WellFormed q := by
  obtain ⟨-, hav, -, hsame, -⟩ := activate_eq_some h
  have := hw.2.1.2
  exact ⟨hsame.sized hw.1, ⟨by rw [hav]; omega, by rw [hav, hsame.2.2.1]; omega⟩,
    hsame.indirection hw.2.2⟩

/-- In a well-formed pool every call runs inside the arrays and leaves a well-formed
pool of the same size over the same stable indices. -/
theorem Call.apply_wf {α ν : Type} (k : Hooks α ν) {p : BulletsPool α} (hw : WellFormed p)
    (c : Call α ν) :
    ∃ q, c.apply k p = some q ∧ WellFormed q ∧ q.pool_size = p.pool_size ∧
      q.starting_shape_index = p.starting_shape_index := by
  cases c with
  | obtain_bullet =>
    by_cases h0 : 0 < p.available_bullets
    · obtain ⟨b, q, hact⟩ := activate_total k.enable_bullet hw.1 h0 hw.2.1.2
      have hsame := (activate_eq_some hact).2.2.2.1
      refine ⟨q, ?_, activate_wf hw h0 hact, hsame.2.2.1, hsame.2.1⟩
      simp [Call.apply, NativeBullets.obtain_bullet, h0, hact]
    · exact ⟨p, by simp [Call.apply, NativeBullets.obtain_bullet, h0], hw, rfl, rfl⟩
  | spawn_bullet properties =>
    by_cases h0 : 0 < p.available_bullets
    · obtain ⟨b, q, hact⟩ := activate_total
        (fun d => k.enable_bullet (set_properties k properties d)) hw.1 h0 hw.2.1.2
      have hsame := (activate_eq_some hact).2.2.2.1
      refine ⟨q, ?_, activate_wf hw h0 hact, hsame.2.2.1, hsame.2.1⟩
      simp [Call.apply, NativeBullets.spawn_bullet, h0, hact]
    · exact ⟨p, by simp [Call.apply, NativeBullets.spawn_bullet, h0], hw, rfl, rfl⟩
  | release_bullet id =>
    by_cases hl : Live p id
    · obtain ⟨pos, b, -, h4, h5, -, -, hrel⟩ := release_bullet_of_live k hl
      obtain ⟨q, _, _, _, _, hq, -, hbase, hN, hav, -⟩ :=
        _release_bullet_cells k hw.1 hw.2.2 hw.2.1.1 h4 h5
      have hwq := _release_bullet_wf k hw.1 hw.2.2 hw.2.1.1 h4 h5 hq
      have := hw.2.1.1
      refine ⟨q, ?_, ⟨hwq.1, ⟨by rw [hav]; omega, by rw [hav, hN]; omega⟩, hwq.2⟩, hN, hbase⟩
      simp [Call.apply, hrel, hq]
    · exact ⟨p, by simp [Call.apply, release_bullet_of_not_live k hw.1.1 hw.2.2 hl], hw, rfl, rfl⟩
  | is_bullet_valid id =>
    obtain ⟨r, hr⟩ := is_bullet_valid_total hw.1.1 hw.2.2 id
    exact ⟨p, by simp [Call.apply, hr], hw, rfl, rfl⟩
  | get_bullet_from_shape s =>
    obtain ⟨r, hr⟩ := get_bullet_from_shape_total hw.1.1 hw.2.2 s
    exact ⟨p, by simp [Call.apply, hr], hw, rfl, rfl⟩
  | process step =>
    obtain ⟨t, ht, tw, f1, f2, -⟩ := process_tick_wf k step hw
    exact ⟨t.pool, by simp [Call.apply, _process, ht], tw, f1, f2⟩

/-- In a well-formed pool every finite sequence of calls runs inside the arrays and
leaves a well-formed pool. -/
theorem run_wf {α ν : Type} (k : Hooks α ν) (calls : List (Call α ν)) :
    ∀ {p : BulletsPool α}, WellFormed p →
      ∃ q, run k p calls = some q ∧ WellFormed q ∧ q.pool_size = p.pool_size ∧
        q.starting_shape_index = p.starting_shape_index := by
  induction calls with
  | nil => intro p hw; exact ⟨p, rfl, hw, rfl, rfl⟩
  | cons c cs ih =>
    intro p hw
    obtain ⟨q, hq, qw, f1, f2⟩ := Call.apply_wf k hw c
    obtain ⟨r, hr, rw', g1, g2⟩ := ih qw
    exact ⟨r, by simp [run, hq, hr], rw', by rw [g1, f1], by rw [g2, f2]⟩

/-! ## Handles through calls -/

/-- A call that spares a live handle keeps it live. -/
theorem Call.apply_live {α ν : Type} (k : Hooks α ν) {p q : BulletsPool α}
    (hw : WellFormed p) {h : BulletID} (hl : Live p h) {c : Call α ν}
    (hsp : c.spares k h p) (hq : c.apply k p = some q) : Live q h := by
  cases c with
  | obtain_bullet =>
    simp only [Call.apply, Option.map_eq_some', Prod.exists, exists_eq_right] at hq
    obtain ⟨id, hq⟩ := hq
    rcases obtain_bullet_cases k hq with ⟨-, -, rfl⟩ | ⟨-, b, hact, -⟩
    · exact hl
    · obtain ⟨-, hav, -, hsame, -⟩ := activate_eq_some hact
      exact hsame.live (by omega) hl
  | spawn_bullet properties =>
    simp only [Call.apply] at hq
    rcases spawn_bullet_cases k hq with ⟨-, rfl⟩ | ⟨-, b, hact⟩
    · exact hl
    · obtain ⟨-, hav, -, hsame, -⟩ := activate_eq_some hact
      exact hsame.live (by omega) hl
  | release_bullet id =>
    simp only [Call.apply, Option.map_eq_some', Prod.exists, exists_eq_right] at hq
    obtain ⟨r, hq⟩ := hq
    rcases release_bullet_cases k hq with ⟨-, rfl⟩ | ⟨-, pos, b, h1, h2, h3, h4, h5, h6, h7, hrel⟩
    · exact hl
    · have hne : b.shape_index ≠ h.index := by
        intro hEq
        have hle := add32_le p.starting_shape_index hw.1.1
        obtain ⟨hbs, -, -⟩ := hw.2.2.shape_eq (by omega) (by omega) h3 h6
        have hidx : id.index = h.index := by omega
        obtain ⟨pos', b', -, -, l3, -, -, l6, l7⟩ := hl
        rw [← hidx, h3] at l3; cases l3
        rw [h6] at l6; cases l6
        apply hsp
        cases id; cases h
        simp only [BulletID.mk.injEq]
        exact ⟨hidx, by simp only at h7 l7; omega⟩
      exact _release_bullet_live k hw.1 hw.2.2 hw.2.1.1 h4 h5 hrel h6 hne hl
  | is_bullet_valid id =>
    simp only [Call.apply, Option.map_eq_some'] at hq
    obtain ⟨-, -, rfl⟩ := hq
    exact hl
  | get_bullet_from_shape s =>
    simp only [Call.apply, Option.map_eq_some'] at hq
    obtain ⟨-, -, rfl⟩ := hq
    exact hl
  | process step =>
    simp only [Call.apply, _process, Option.map_eq_some', Option.map_map] at hq
    obtain ⟨t, ht, rfl⟩ := hq
    exact process_tick_live k step hw hl ht (hsp t ht)

/-- A stale handle stays stale through every call that does not make the counter of its
slot wrap. -/
theorem Call.apply_stale {α ν : Type} (k : Hooks α ν) {p q : BulletsPool α}
    (hw : WellFormed p) {h : BulletID} (hl : Stale p h) {c : Call α ν}
    (hnw : c.no_wrap k h p) (hq : c.apply k p = some q) : Stale q h := by
  cases c with
  | obtain_bullet =>
    simp only [Call.apply, Option.map_eq_some', Prod.exists, exists_eq_right] at hq
    obtain ⟨id, hq⟩ := hq
    rcases obtain_bullet_cases k hq with ⟨-, -, rfl⟩ | ⟨-, b, hact, -⟩
    · exact hl
    · exact (activate_eq_some hact).2.2.2.1.stale hl
  | spawn_bullet properties =>
    simp only [Call.apply] at hq
    rcases spawn_bullet_cases k hq with ⟨-, rfl⟩ | ⟨-, b, hact⟩
    · exact hl
    · exact (activate_eq_some hact).2.2.2.1.stale hl
  | release_bullet id =>
    simp only [Call.apply, Option.map_eq_some', Prod.exists, exists_eq_right] at hq
    obtain ⟨r, hq⟩ := hq
    rcases release_bullet_cases k hq with ⟨-, rfl⟩ | ⟨-, pos, b, h1, h2, h3, h4, h5, h6, h7, hrel⟩
    · exact hl
    · refine _release_bullet_stale k hw.1 hw.2.2 hw.2.1.1 h4 h5 hrel hl ?_
      intro x hx hxs
      rw [h6] at hx
      have hx' : b = x := Option.some.inj hx
      rw [← hx'] at hxs ⊢
      have hle := add32_le p.starting_shape_index hw.1.1
      obtain ⟨hbs, -, -⟩ := hw.2.2.shape_eq (by omega) (by omega) h3 h6
      have hv : NativeBullets.is_bullet_valid p id = some true :=
        (is_bullet_valid_iff_live p id).mpr ⟨pos, b, h1, h2, h3, h4, h5, h6, h7⟩
      have := hnw (by omega) hv
      omega
  | is_bullet_valid id =>
    simp only [Call.apply, Option.map_eq_some'] at hq
    obtain ⟨-, -, rfl⟩ := hq
    exact hl
  | get_bullet_from_shape s =>
    simp only [Call.apply, Option.map_eq_some'] at hq
    obtain ⟨-, -, rfl⟩ := hq
    exact hl
  | process step =>
    simp only [Call.apply, _process, Option.map_eq_some', Option.map_map] at hq
    obtain ⟨t, ht, rfl⟩ := hq
    rcases hnw t ht with hroom | hsp
    · exact process_tick_stale_room k step hw hl hroom ht
    · exact process_tick_stale_spared k step hw hl ht hsp

/-- A live handle stays valid through every sequence of calls that spare it. -/
theorem run_live {α ν : Type} (k : Hooks α ν) {h : BulletID} (calls : List (Call α ν)) :
    ∀ {p : BulletsPool α}, WellFormed p → Live p h → Spares k h p calls →
      ∃ q, run k p calls = some q ∧ WellFormed q ∧ Live q h := by
  induction calls with
  | nil => intro p hw hl _; exact ⟨p, rfl, hw, hl⟩
  | cons c cs ih =>
    intro p hw hl hsp
    obtain ⟨q, hq, qw, -, -⟩ := Call.apply_wf k hw c
    obtain ⟨r, hr, rw', rl⟩ := ih qw (Call.apply_live k hw hl hsp.1 hq) (hsp.2 q hq)
    exact ⟨r, by simp [run, hq, hr], rw', rl⟩

/-- A stale handle stays stale through every sequence of calls that does not make the
counter of its slot wrap. -/
theorem run_stale {α ν : Type} (k : Hooks α ν) {h : BulletID} (calls : List (Call α ν)) :
    ∀ {p : BulletsPool α}, WellFormed p → Stale p h → NoWrap k h p calls →
      ∃ q, run k p calls = some q ∧ WellFormed q ∧ Stale q h := by
  induction calls with
  | nil => intro p hw hl _; exact ⟨p, rfl, hw, hl⟩
  | cons c cs ih =>
    intro p hw hl hnw
    obtain ⟨q, hq, qw, -, -⟩ := Call.apply_wf k hw c
    obtain ⟨r, hr, rw', rl⟩ := ih qw (Call.apply_stale k hw hl hnw.1 hq) (hnw.2 q hq)
    exact ⟨r, by simp [run, hq, hr], rw', rl⟩

/-- The handle `obtain_bullet` returns from a well-formed pool whose range of stable
indices ends within the int32 values is live in the pool it leaves. -/
theorem obtain_bullet_live {α : Type} {p q : BulletsPool α}
    (hw : WellFormed p) (hr : p.starting_shape_index + p.pool_size ≤ 2147483647)
    {b : Bullet α} {prepare : α → α}
    (hact : activate prepare p = some (b, q)) : Live q ⟨b.shape_index, b.cycle⟩ := by
  obtain ⟨hb, hav, -, hsame, -⟩ := activate_eq_some hact
  have hb' := getAt_bounds hb
  have hN := hw.2.1.2
  obtain ⟨e0, e1, e2⟩ := hw.2.2.position_eq hb'.1 (by omega) hb
  obtain ⟨-, hbase, hsz, hsi, -, hcell⟩ := hsame
  obtain ⟨y, hy1, hy2, -⟩ := hcell _ _ hb
  have hsum : add32 q.starting_shape_index q.pool_size
      = p.starting_shape_index + p.pool_size := by
    rw [hbase, hsz]; exact add32_eq _ hw.1.1 hr
  exact ⟨p.available_bullets - 1, y, by show q.starting_shape_index ≤ b.shape_index; omega,
    by show b.shape_index < add32 q.starting_shape_index q.pool_size; omega,
    by rw [hsi, hbase]; exact e2, by omega, by omega, hy1, hy2.symm⟩

/-- Claim C1 as amended, handle lifetime.  In a well-formed pool whose range of stable
indices ends within the int32 values, `starting_shape_index + pool_size <= 2147483647`,
a handle `h` with `h.index != -1` returned by `obtain_bullet` is valid in the pool
`obtain_bullet` leaves, and after every finite sequence of further calls it is still
valid, as long as each call spares `h`: `obtain_bullet`, `spawn_bullet`,
`is_bullet_valid`, `get_bullet_from_shape`, `release_bullet` on a handle other than `h`,
and ticks of `_process` in which no step on the bullet of `h` reports expiry.  The
sequence runs to its end. -/
theorem obtained_handle_stays_valid {α ν : Type} (k : Hooks α ν) {p q : BulletsPool α}
    {h : BulletID} (hw : WellFormed p)
    (hr : p.starting_shape_index + p.pool_size ≤ 2147483647)
    (hob : obtain_bullet k p = some (h, q)) (hne : h.index ≠ -1) :
    is_bullet_valid q h = some true ∧
      ∀ calls : List (Call α ν), Spares k h q calls →
        ∃ r, run k q calls = some r ∧ is_bullet_valid r h = some true := by
  rcases obtain_bullet_cases k hob with ⟨-, rfl, -⟩ | ⟨h0, b, hact, rfl⟩
  · exact absurd rfl hne
  · have hl := obtain_bullet_live hw hr hact
    have qw := activate_wf hw h0 hact
    refine ⟨(is_bullet_valid_iff_live q _).mpr hl, ?_⟩
    intro calls hsp
    obtain ⟨r, hr, -, rl⟩ := run_live k calls qw hl hsp
    exact ⟨r, hr, (is_bullet_valid_iff_live r _).mpr rl⟩

/-- After a successful `release_bullet(h)` the slot of `h` sits at the old
`available_bullets` and its cycle is the int32 successor of `h.cycle`. -/
theorem released_slot {α ν : Type} (k : Hooks α ν) {p q : BulletsPool α}
    {h : BulletID} (hw : WellFormed p) (hrel : release_bullet k p h = some (true, q)) :
    p.starting_shape_index ≤ h.index ∧ h.index < p.starting_shape_index + p.pool_size ∧
      q.starting_shape_index = p.starting_shape_index ∧ q.pool_size = p.pool_size ∧
      ∃ b, getAt q.shapes_to_indices (h.index - p.starting_shape_index)
          = some p.available_bullets ∧
        getAt q.bullets p.available_bullets = some b ∧ b.cycle = add32 h.cycle 1 := by
  rcases release_bullet_cases k hrel with ⟨hf, -⟩ | ⟨-, pos, b, h1, h2, h3, h4, h5, h6, h7, hq⟩
  · cases hf
  · have hle := add32_le p.starting_shape_index hw.1.1
    obtain ⟨-, hbase, hN, hav, -⟩ := _release_bullet_frame k hq
    rcases _release_bullet_resolve k hw.1 hw.2.2 hw.2.1.1 h4 h5 hq (by omega) (by omega)
      h3 h6 with ⟨-, r1, r2⟩ | ⟨hc, -⟩
    · exact ⟨h1, by omega, hbase, hN, _, r1, r2, by show add32 b.cycle 1 = _; rw [h7]⟩
    · exact absurd rfl hc

/-- After a successful `release_bullet(h)` the handle `h` is not live: the cycle of its
slot has changed. -/
theorem released_not_live {α ν : Type} (k : Hooks α ν) {p q : BulletsPool α}
    {h : BulletID} (hw : WellFormed p) (hrel : release_bullet k p h = some (true, q)) :
    ¬ Live q h := by
  obtain ⟨-, -, hbase, -, b, r1, r2, r3⟩ := released_slot k hw hrel
  rintro ⟨pos, x, -, -, l3, -, -, l6, l7⟩
  rw [hbase, r1] at l3
  cases l3
  rw [r2] at l6
  cases l6
  exact add32_one_ne h.cycle (by rw [← r3, ← l7])

/-- After a successful `release_bullet(h)` with `h.cycle` below the largest int32 the
slot of `h` has a cycle strictly greater than `h.cycle`. -/
theorem released_stale_aux {α ν : Type} (k : Hooks α ν) {p q : BulletsPool α}
    {h : BulletID} (hw : WellFormed p) (hrel : release_bullet k p h = some (true, q))
    (hc : h.cycle < 2147483647) : Stale q h := by
  obtain ⟨h1, h2, hbase, hN, b, r1, r2, r3⟩ := released_slot k hw hrel
  exact ⟨_, b, by omega, by omega, by rw [hbase]; exact r1, r2,
    by rw [r3, add32_one_of_lt hc]; omega⟩

/-- Claim C2 as amended, use after release is detected until the counter wraps.  In a
well-formed pool, once `release_bullet(h)` has returned true, `is_bullet_valid(h)` is
false in the pool it leaves and another `release_bullet(h)` returns false and leaves the
pool as it is.  If moreover `h.cycle` is below the largest int32, the same holds after
every finite sequence of further calls that does not make the counter of the slot wrap
(every release of the slot, by `release_bullet` or by a tick, finds its cycle below the
largest int32), and the slot `h` resolves to has a cycle strictly greater than `h.cycle`
all along. -/
theorem released_handle_stays_invalid {α ν : Type} (k : Hooks α ν) {p q : BulletsPool α}
    {h : BulletID} (hw : WellFormed p) (hrel : release_bullet k p h = some (true, q)) :
    is_bullet_valid q h = some false ∧ release_bullet k q h = some (false, q) ∧
      (h.cycle < 2147483647 →
        ∀ calls : List (Call α ν), NoWrap k h q calls →
          ∃ r, run k q calls = some r ∧ is_bullet_valid r h = some false ∧ Stale r h ∧
            release_bullet k r h = some (false, r)) := by
  have hnl := released_not_live k hw hrel
  obtain ⟨q', hq', qw, -, -⟩ := Call.apply_wf k hw (Call.release_bullet h)
  simp only [Call.apply, hrel, Option.map_some', Option.some.injEq] at hq'
  subst hq'
  refine ⟨is_bullet_valid_of_not_live qw.1.1 qw.2.2 hnl,
    release_bullet_of_not_live k qw.1.1 qw.2.2 hnl, ?_⟩
  intro hc calls hnw
  have hst := released_stale_aux k hw hrel hc
  obtain ⟨r, hr, rw', rl⟩ := run_stale k calls qw hst hnw
  exact ⟨r, hr, is_bullet_valid_of_not_live rw'.1.1 rw'.2.2 rl.not_live, rl,
    release_bullet_of_not_live k rw'.1.1 rw'.2.2 rl.not_live⟩

/-! ## Refused releases and the counters -/

/-- Claim C3, a failed release is a complete no-op.  For a handle that is already
released (its slot lies in the free part), or whose cycle differs from the cycle of its
slot, or whose index lies outside `[starting_shape_index, starting_shape_index +
pool_size)`, `release_bullet` returns false and the pool it leaves is the pool it was
given: both counters, `shapes_to_indices`, the order of `bullets`, and every cycle,
stable index and data. -/
theorem failed_release_is_noop {α ν : Type} (k : Hooks α ν) (p : BulletsPool α)
    (h : BulletID) (hbad : AlreadyReleased p h ∨ CycleMismatch p h ∨ OutOfRange p h) :
    release_bullet k p h = some (false, p) := by
  unfold release_bullet
  rcases hbad with ⟨pos, h1, h2⟩ | ⟨pos, b, h1, h2, h3⟩ | h1
  · split
    · simp only [h1]
      rw [if_neg (by omega)]
    · rfl
  · split
    · simp only [h1]
      split
      · simp only [h2]
        rw [if_neg h3]
      · rfl
    · rfl
  · unfold OutOfRange at h1
    rw [if_neg (by omega)]

/-- With a non-negative `pool_size` an index outside the integer interval
`[starting_shape_index, starting_shape_index + pool_size)` fails the range test. -/
theorem outOfRange_of_outside {α : Type} {p : BulletsPool α} (hN : 0 ≤ p.pool_size)
    {h : BulletID}
    (hr : h.index < p.starting_shape_index ∨
      p.starting_shape_index + p.pool_size ≤ h.index) : OutOfRange p h := by
  have hle := add32_le p.starting_shape_index hN
  unfold OutOfRange
  omega

/-- In a well-formed pool the three reasons of refusal are all there is: a handle that
is not live is already released, mismatched or out of range. -/
theorem not_live_cases {α : Type} {p : BulletsPool α} (hN : 0 ≤ p.pool_size)
    (hi : Indirection p) {h : BulletID}
    (hl : ¬ Live p h) : AlreadyReleased p h ∨ CycleMismatch p h ∨ OutOfRange p h := by
  have hle := add32_le p.starting_shape_index hN
  by_cases hr : p.starting_shape_index ≤ h.index ∧
      h.index < add32 p.starting_shape_index p.pool_size
  · obtain ⟨pos, b, h1, h2, h3, h4, -⟩ := hi (h.index - p.starting_shape_index)
      (by omega) (by omega)
    by_cases hp : pos < p.available_bullets
    · exact Or.inl ⟨pos, h1, hp⟩
    · refine Or.inr (Or.inl ⟨pos, b, h1, h4, ?_⟩)
      intro hc
      exact hl ⟨pos, b, hr.1, hr.2, h1, by omega, h3, h4, hc⟩
  · exact Or.inr (Or.inr (by unfold OutOfRange; omega))

/-- The counters through one call, whatever the arrays hold: if the call runs inside the
arrays, the sum of the counters is kept and `available_bullets` stays in
`[0, pool_size]`. -/
theorem Call.apply_counters {α ν : Type} (k : Hooks α ν) {p q : BulletsPool α}
    (hp : Partitioned p) {c : Call α ν} (hq : c.apply k p = some q) :
    q.pool_size = p.pool_size ∧ Partitioned q ∧
      q.available_bullets + q.active_bullets = p.available_bullets + p.active_bullets := by
  have hp1 := hp.1
  have hp2 := hp.2
  cases c with
  | obtain_bullet =>
    simp only [Call.apply, Option.map_eq_some', Prod.exists, exists_eq_right] at hq
    obtain ⟨id, hq⟩ := hq
    rcases obtain_bullet_cases k hq with ⟨-, -, rfl⟩ | ⟨h0, b, hact, -⟩
    · exact ⟨rfl, hp, rfl⟩
    · obtain ⟨-, hav, hac, hsame, -⟩ := activate_eq_some hact
      have hN := hsame.2.2.1
      exact ⟨hN, ⟨by omega, by omega⟩, by omega⟩
  | spawn_bullet properties =>
    simp only [Call.apply] at hq
    rcases spawn_bullet_cases k hq with ⟨-, rfl⟩ | ⟨h0, b, hact⟩
    · exact ⟨rfl, hp, rfl⟩
    · obtain ⟨-, hav, hac, hsame, -⟩ := activate_eq_some hact
      have hN := hsame.2.2.1
      exact ⟨hN, ⟨by omega, by omega⟩, by omega⟩
  | release_bullet id =>
    simp only [Call.apply, Option.map_eq_some', Prod.exists, exists_eq_right] at hq
    obtain ⟨r, hq⟩ := hq
    rcases release_bullet_cases k hq with ⟨-, rfl⟩ | ⟨-, pos, b, -, -, -, h4, h5, -, -, hrel⟩
    · exact ⟨rfl, hp, rfl⟩
    · obtain ⟨-, -, hN, hav, hac⟩ := _release_bullet_frame k hrel
      exact ⟨hN, ⟨by omega, by omega⟩, by omega⟩
  | is_bullet_valid id =>
    simp only [Call.apply, Option.map_eq_some'] at hq
    obtain ⟨-, -, rfl⟩ := hq
    exact ⟨rfl, hp, rfl⟩
  | get_bullet_from_shape s =>
    simp only [Call.apply, Option.map_eq_some'] at hq
    obtain ⟨-, -, rfl⟩ := hq
    exact ⟨rfl, hp, rfl⟩
  | process step =>
    simp only [Call.apply, _process, Option.map_eq_some', Option.map_map] at hq
    obtain ⟨t, ht, rfl⟩ := hq
    exact process_tick_counters k step hp ht

/-- The counters through a finite sequence of calls. -/
theorem run_counters {α ν : Type} (k : Hooks α ν) (calls : List (Call α ν)) :
    ∀ {p q : BulletsPool α}, Partitioned p → run k p calls = some q →
      q.pool_size = p.pool_size ∧ Partitioned q ∧
        q.available_bullets + q.active_bullets = p.available_bullets + p.active_bullets := by
  induction calls with
  | nil =>
    intro p q hp hq
    simp only [run, Option.some.injEq] at hq
    subst hq
    exact ⟨rfl, hp, rfl⟩
  | cons c cs ih =>
    intro p q hp hq
    simp only [run, Option.bind_eq_some] at hq
    obtain ⟨m, hm, hq⟩ := hq
    obtain ⟨f1, f2, f3⟩ := Call.apply_counters k hp hm
    obtain ⟨g1, g2, g3⟩ := ih f2 hq
    exact ⟨by rw [g1, f1], g2, by rw [g3, f3]⟩

/-- With collisions enabled `_init` leaves a well-formed pool. -/
theorem _init_wf {α ν : Type} (k : Hooks α ν) (base N : Int) (fresh : Nat → Bullet α)
    (uninit : Nat → Int) {p : BulletsPool α} (hp : _init k true base N fresh uninit = some p) :
    WellFormed p := by
  unfold _init at hp
  split at hp
  · simp at hp
  · rename_i hN
    simp only [Option.some.injEq] at hp
    subst hp
    refine ⟨⟨by show 0 ≤ N; omega, by simp; omega, by simp; omega⟩,
      ⟨by show 0 ≤ N; omega, le_refl _⟩, ?_⟩
    intro idx h0 h1
    have h1' : idx < N := h1
    have hlt : idx.toNat < N.toNat := by omega
    refine ⟨idx, ⟨(fresh idx.toNat).cycle, base + (idx.toNat : Int),
      k.init_bullet (fresh idx.toNat).data⟩, ?_, h0, h1, ?_, ?_⟩
    · rw [getAt_eq_some]
      refine ⟨h0, ?_⟩
      simp [List.getElem?_map, List.getElem?_range hlt, Int.toNat_of_nonneg h0]
    · rw [getAt_eq_some]
      refine ⟨h0, ?_⟩
      simp [List.getElem?_map, List.getElem?_range hlt]
    · show base + ((idx.toNat : Nat) : Int) = base + idx
      rw [Int.toNat_of_nonneg h0]

/-! ## The indirection invariant -/

/-- When `_release_bullet` runs inside the arrays, its position and `available_bullets`
are not negative. -/
theorem _release_bullet_bounds {α ν : Type} (k : Hooks α ν) {p q : BulletsPool α} {i : Int}
    (hq : _release_bullet k p i = some q) : 0 ≤ i ∧ 0 ≤ p.available_bullets := by
  unfold _release_bullet at hq
  split at hq
  · simp at hq
  · rename_i b hb
    simp only at hq
    split at hq
    · simp at hq
    · rename_i c hc
      exact ⟨(getAt_bounds hb).1, (getAt_bounds hc).1⟩

/-- The indirection predicate through a tick, with no assumption on `available_bullets`. -/
theorem process_tick_indirection {α ν : Type} (k : Hooks α ν) (step : Bullet α → α × Bool)
    {p : BulletsPool α} (hs : Sized p) (hi : Indirection p) {t : Tick α}
    (ht : process_tick k step p = some t) : Sized t.pool ∧ Indirection t.pool := by
  rw [process_tick_eq k step hs.1] at ht
  obtain ⟨m, -, ⟨h1, h2, -⟩, -⟩ := process_loop_rule k step
    (fun n s => Sized s.pool ∧ Indirection s.pool ∧ (n : Int) ≤ s.pool.pool_size)
    (by
      rintro n s b ⟨g1, g2, g3⟩ hc hb -
      push_cast at g3
      have hsame := sameSlots_store s.pool (step b).1 hb
      exact ⟨hsame.sized g1, hsame.indirection g2, by show (n : Int) ≤ s.pool.pool_size; omega⟩)
    (by
      rintro n s b q ⟨g1, g2, g3⟩ hc hb - hq
      push_cast at g3
      have hsame := sameSlots_store s.pool (step b).1 hb
      obtain ⟨-, -, f3, -⟩ := _release_bullet_frame k hq
      have f3' : q.pool_size = s.pool.pool_size := f3
      have hwq := _release_bullet_wf k (hsame.sized g1) (hsame.indirection g2) (i := (n : Int))
        (_release_bullet_bounds k hq).2 hc (by show (n : Int) < s.pool.pool_size; omega) hq
      exact ⟨hwq.1, hwq.2, by rw [f3']; omega⟩)
    p.pool_size.toNat ⟨p, 0, []⟩ t
    ⟨hs, hi, by have := hs.1; show ((p.pool_size.toNat : Nat) : Int) ≤ p.pool_size; omega⟩ ht
  exact ⟨h1, h2⟩

/-- Claim C5, the indirection invariant.  Let `shapes_to_indices[idx]`, for every `idx` in
`[0, pool_size)`, be a position in `[0, pool_size)` whose slot has
`shape_index == starting_shape_index + idx`, in a pool whose arrays have `pool_size` cells.
Then `shapes_to_indices` is one-to-one and onto `[0, pool_size)`, no two slots share a
stable index, and the predicate holds again after `obtain_bullet`,
`spawn_bullet`, `release_bullet` with any handle, `is_bullet_valid`,
`get_bullet_from_shape`, `_process` with any step function, and `_release_bullet` at any
active position.  With `0 <= available_bullets <= pool_size` each of them runs to its
end. -/
theorem indirection_preserved {α ν : Type} (k : Hooks α ν) {p : BulletsPool α}
    (hs : Sized p) (hi : Indirection p) :
    (∀ a b pos, 0 ≤ a → a < p.pool_size → 0 ≤ b → b < p.pool_size →
        getAt p.shapes_to_indices a = some pos → getAt p.shapes_to_indices b = some pos →
        a = b) ∧
      (∀ pos, 0 ≤ pos → pos < p.pool_size →
        ∃ idx, 0 ≤ idx ∧ idx < p.pool_size ∧ getAt p.shapes_to_indices idx = some pos) ∧
      (∀ pos pos' x y, getAt p.bullets pos = some x → getAt p.bullets pos' = some y →
        x.shape_index = y.shape_index → pos = pos') ∧
      (∀ (c : Call α ν) q, c.apply k p = some q → Sized q ∧ Indirection q) ∧
      (∀ i q, p.available_bullets ≤ i → i < p.pool_size → _release_bullet k p i = some q →
        Sized q ∧ Indirection q) ∧
      (Partitioned p → (∀ c : Call α ν, ∃ q, c.apply k p = some q) ∧
        ∀ i, p.available_bullets ≤ i → i < p.pool_size → ∃ q, _release_bullet k p i = some q) := by
  refine ⟨fun a b pos a0 a1 b0 b1 ha hb => hi.injective a0 a1 b0 b1 ha hb, ?_,
    fun pos pos' x y hx hy hxy => Indirection.position_unique hs hi hx hy hxy, ?_, ?_, ?_⟩
  · intro pos h0 h1
    obtain ⟨idx, _, g0, g1, g2, -⟩ := hi.surjective h0 h1
    exact ⟨idx, g0, g1, g2⟩
  · intro c q hq
    cases c with
    | obtain_bullet =>
      simp only [Call.apply, Option.map_eq_some', Prod.exists, exists_eq_right] at hq
      obtain ⟨id, hq⟩ := hq
      rcases obtain_bullet_cases k hq with ⟨-, -, rfl⟩ | ⟨-, b, hact, -⟩
      · exact ⟨hs, hi⟩
      · have hsame := (activate_eq_some hact).2.2.2.1
        exact ⟨hsame.sized hs, hsame.indirection hi⟩
    | spawn_bullet properties =>
      simp only [Call.apply] at hq
      rcases spawn_bullet_cases k hq with ⟨-, rfl⟩ | ⟨-, b, hact⟩
      · exact ⟨hs, hi⟩
      · have hsame := (activate_eq_some hact).2.2.2.1
        exact ⟨hsame.sized hs, hsame.indirection hi⟩
    | release_bullet id =>
      simp only [Call.apply, Option.map_eq_some', Prod.exists, exists_eq_right] at hq
      obtain ⟨r, hq⟩ := hq
      rcases release_bullet_cases k hq with ⟨-, rfl⟩ | ⟨-, pos, b, -, -, -, h4, h5, -, -, hrel⟩
      · exact ⟨hs, hi⟩
      · exact _release_bullet_wf k hs hi (_release_bullet_bounds k hrel).2 h4 h5 hrel
    | is_bullet_valid id =>
      simp only [Call.apply, Option.map_eq_some'] at hq
      obtain ⟨-, -, rfl⟩ := hq
      exact ⟨hs, hi⟩
    | get_bullet_from_shape s =>
      simp only [Call.apply, Option.map_eq_some'] at hq
      obtain ⟨-, -, rfl⟩ := hq
      exact ⟨hs, hi⟩
    | process step =>
      simp only [Call.apply, _process, Option.map_eq_some', Option.map_map] at hq
      obtain ⟨t, ht, rfl⟩ := hq
      exact process_tick_indirection k step hs hi ht
  · intro i q h1 h2 hq
    exact _release_bullet_wf k hs hi (_release_bullet_bounds k hq).2 h1 h2 hq
  · intro hp
    refine ⟨fun c => ?_, fun i h1 h2 => ?_⟩
    · obtain ⟨q, hq, -⟩ := Call.apply_wf k ⟨hs, hp, hi⟩ c
      exact ⟨q, hq⟩
    · obtain ⟨q, _, _, _, _, hq, -⟩ := _release_bullet_cells k hs hi hp.1 h1 h2
      exact ⟨q, hq⟩

/-- Claim C4, the counter invariant.  For `pool_size` `N > 0`, `_init` yields a pool, and
after every finite sequence of `obtain_bullet`, `release_bullet` (any handle),
`spawn_bullet`, `_process`, `is_bullet_valid` and `get_bullet_from_shape` calls that runs
inside the arrays, `available_bullets + active_bullets == N` and
`0 <= available_bullets <= N`.  With collisions enabled every such sequence does run
inside the arrays. -/
theorem counters_invariant {α ν : Type} (k : Hooks α ν) (collisions_enabled : Bool)
    (starting_shape_index N : Int) (fresh : Nat → Bullet α) (uninit : Nat → Int)
    (hN : 0 < N) :
    ∃ p, _init k collisions_enabled starting_shape_index N fresh uninit = some p ∧
      (∀ (calls : List (Call α ν)) q, run k p calls = some q →
        q.available_bullets + q.active_bullets = N ∧ 0 ≤ q.available_bullets ∧
          q.available_bullets ≤ N) ∧
      (collisions_enabled = true → ∀ calls : List (Call α ν), ∃ q, run k p calls = some q) := by
  have hinit : ∃ p, _init k collisions_enabled starting_shape_index N fresh uninit = some p ∧
      p.pool_size = N ∧ p.available_bullets = N ∧ p.active_bullets = 0 := by
    unfold _init
    rw [if_neg (by omega)]
    exact ⟨_, rfl, rfl, rfl, rfl⟩
  obtain ⟨p, hp, h1, h2, h3⟩ := hinit
  refine ⟨p, hp, ?_, ?_⟩
  · intro calls q hq
    obtain ⟨f1, f2, f3⟩ := run_counters k calls (p := p)
      ⟨by rw [h2]; omega, by rw [h1, h2]⟩ hq
    exact ⟨by rw [f3, h2, h3]; ring, f2.1, by rw [← h1, ← f1]; exact f2.2⟩
  · intro hce calls
    subst hce
    obtain ⟨q, hq, -⟩ := run_wf k calls (_init_wf k starting_shape_index N fresh uninit hp)
    exact ⟨q, hq⟩

/-! ## Ticks, reuse and exhaustion -/

/-- Claim C8, at most one step per bullet and tick.  A tick of `_process` on a well-formed
pool, with any step function, runs to its end, and the stable indices of the bullets it
stepped, in the order of the steps, have no repetition. -/
theorem step_at_most_once {α ν : Type} (k : Hooks α ν) (step : Bullet α → α × Bool)
    {p : BulletsPool α} (hw : WellFormed p) :
    ∃ t, process_tick k step p = some t ∧ (t.calls.map StepCall.shape_index).Nodup ∧
      _process k step p = some (t.amount_variation, t.pool) := by
  obtain ⟨t, ht, hnd⟩ := process_tick_nodup k step hw
  exact ⟨t, ht, hnd, by simp [_process, ht]⟩

/-- Claim C9 as amended, the slot freed last is the slot handed out next.  In a
well-formed pool, for a valid handle `h`, `release_bullet(h)` returns true, the
`obtain_bullet` that follows returns the handle of index `h.index` whose cycle is the
int32 successor of `h.cycle`, that is `h.cycle + 1` unless `h.cycle` is 2147483647, where
it is -2147483648; `h` is invalid after the release and after the obtain. -/
theorem release_then_obtain {α ν : Type} (k : Hooks α ν) {p : BulletsPool α} {h : BulletID}
    (hw : WellFormed p) (hv : is_bullet_valid p h = some true) :
    ∃ q r, release_bullet k p h = some (true, q) ∧
      q.available_bullets = p.available_bullets + 1 ∧
      q.active_bullets = p.active_bullets - 1 ∧
      obtain_bullet k q = some
        (⟨h.index, if h.cycle = 2147483647 then -2147483648 else h.cycle + 1⟩, r) ∧
      is_bullet_valid q h = some false ∧ is_bullet_valid r h = some false := by
  have hl := (is_bullet_valid_iff_live p h).mp hv
  obtain ⟨pos, b, h3, h4, h5, h6, h7, hrel⟩ := release_bullet_of_live k hl
  obtain ⟨l1, l2⟩ := hl.lt_sum hw.1.1
  obtain ⟨q, b', c, hb', -, hq, -, hbase, hN, hav, hac, -, -, hcb, -⟩ :=
    _release_bullet_cells k hw.1 hw.2.2 hw.2.1.1 h4 h5
  rw [h6] at hb'; cases hb'
  have hrel' : release_bullet k p h = some (true, q) := by rw [hrel, hq]; rfl
  obtain ⟨hbs, -, -⟩ := hw.2.2.shape_eq (by omega) (by omega) h3 h6
  obtain ⟨-, -, -, -, x, r1, r2, r3⟩ := released_slot k hw hrel'
  have hnl := released_not_live k hw hrel'
  have hwq := _release_bullet_wf k hw.1 hw.2.2 hw.2.1.1 h4 h5 hq
  have hp0 := hw.2.1.1
  have qw : WellFormed q := ⟨hwq.1, ⟨by rw [hav]; omega, by rw [hav, hN]; omega⟩, hwq.2⟩
  have hget : getAt q.bullets (q.available_bullets - 1) = some (released k b) := by
    rw [hcb, if_pos (by omega)]
  have hact : activate k.enable_bullet q = some (released k b,
      { q with
        available_bullets := q.available_bullets - 1
        active_bullets := q.active_bullets + 1
        bullets := q.bullets.set (q.available_bullets - 1).toNat
          { released k b with data := k.enable_bullet (released k b).data } }) := by
    unfold activate
    simp only [hget]
  have hsame := (activate_eq_some hact).2.2.2.1
  have hxc : x.cycle ≠ h.cycle := by rw [r3]; exact add32_one_ne h.cycle
  refine ⟨q, _, hrel', hav, hac, ?_, is_bullet_valid_of_not_live qw.1.1 qw.2.2 hnl,
    is_bullet_valid_of_not_live (hsame.sized qw.1).1 (hsame.indirection qw.2.2)
      (hsame.not_live_of_cycle (by rw [hbase]; exact r1) r2 hxc)⟩
  unfold obtain_bullet
  rw [if_pos (by omega), hact]
  have e1 : b.shape_index = h.index := by omega
  have e2 : add32 b.cycle 1 = if h.cycle = 2147483647 then -2147483648 else h.cycle + 1 := by
    rw [← h7]; exact add32_one_eq h.cycle
  simp only [e1, e2]

/-- Claim C10 as amended, capacity exhaustion.  In every pool with
`available_bullets == 0`, `obtain_bullet` returns the sentinel `BulletID(-1, -1)` and
leaves the pool as it is.  `is_bullet_valid` of the sentinel is false whenever `-1` fails
the range test of the pool, as it does for every `starting_shape_index >= 0`, and, in a
well-formed pool, whenever the slot of stable index `-1` does not have cycle `-1`. -/
theorem exhausted_obtain_returns_sentinel {α ν : Type} (k : Hooks α ν) (p : BulletsPool α)
    (h0 : p.available_bullets = 0) :
    obtain_bullet k p = some (⟨-1, -1⟩, p) ∧
      (OutOfRange p ⟨-1, -1⟩ → is_bullet_valid p ⟨-1, -1⟩ = some false) ∧
      (0 ≤ p.starting_shape_index → is_bullet_valid p ⟨-1, -1⟩ = some false) ∧
      (WellFormed p →
        (∀ pos b, getAt p.shapes_to_indices (-1 - p.starting_shape_index) = some pos →
          getAt p.bullets pos = some b → b.cycle ≠ -1) →
        is_bullet_valid p ⟨-1, -1⟩ = some false) := by
  refine ⟨?_, ?_, ?_, ?_⟩
  · unfold obtain_bullet
    rw [if_neg (by omega)]
  · intro hr
    have hr' : (-1 : Int) < p.starting_shape_index ∨
        add32 p.starting_shape_index p.pool_size ≤ -1 := hr
    unfold is_bullet_valid
    rw [if_neg (by show ¬ (p.starting_shape_index ≤ -1 ∧
      (-1 : Int) < add32 p.starting_shape_index p.pool_size); omega)]
  · intro hb
    unfold is_bullet_valid
    rw [if_neg (by show ¬ (p.starting_shape_index ≤ -1 ∧
      (-1 : Int) < add32 p.starting_shape_index p.pool_size); omega)]
  · intro hw hc
    apply is_bullet_valid_of_not_live hw.1.1 hw.2.2
    rintro ⟨pos, b, -, -, l3, -, -, l6, l7⟩
    exact hc pos b l3 l6 l7.symm

/-- The claim C10 as stated fails: the sentinel can be the handle of a bullet.  The pool
`_init` leaves for `starting_shape_index` `-1` and `pool_size` 1, whose bullet starts
with cycle 0, reaches by an `obtain_bullet` and 4294967295 rounds of `release_bullet` and
`obtain_bullet` the state in which the bullet of stable index `-1` is active with cycle
`-1`.  There `available_bullets` is 0, `obtain_bullet` returns the sentinel and leaves
the pool as it is, and `is_bullet_valid` of the sentinel is true. -/
theorem sentinel_valid_counterexample :
    ((_init plainHooks true (-1) 1 (fun _ => ⟨0, -1, ()⟩) (fun _ => 0)).bind fun p =>
        run plainHooks p (Call.obtain_bullet :: churn (-1) 4294967295 0))
        = some (busyPool (-1) (-1)) ∧
      (busyPool (-1) (-1)).available_bullets = 0 ∧ WellFormed (busyPool (-1) (-1)) ∧
      Counted (busyPool (-1) (-1)) ∧
      obtain_bullet plainHooks (busyPool (-1) (-1))
        = some (⟨-1, -1⟩, busyPool (-1) (-1)) ∧
      is_bullet_valid (busyPool (-1) (-1)) ⟨-1, -1⟩ = some true :=
  ⟨(_init_run (-1) _).trans
      ((run_obtain_churn (by decide) 4294967295 0 (by decide)).trans
        (congrArg (fun c => some (busyPool (-1) c))
          (show wrap32 (0 + ((4294967295 : Nat) : Int)) = -1 from by decide))),
    by decide, by decide, by decide, by decide, by decide⟩

/-- The fifth `obtain_bullet` of the scenario with `pool_size` 4: the sentinel, the pool
unchanged, and the sentinel invalid. -/
theorem exhausted_obtain_returns_sentinel_witness :
    fullPool.available_bullets = 0 ∧
      (obtain_bullet plainHooks fullPool = some (⟨-1, -1⟩, fullPool) ∧
        (OutOfRange fullPool ⟨-1, -1⟩ → is_bullet_valid fullPool ⟨-1, -1⟩ = some false) ∧
        (0 ≤ fullPool.starting_shape_index →
          is_bullet_valid fullPool ⟨-1, -1⟩ = some false) ∧
        (WellFormed fullPool →
          (∀ pos b, getAt fullPool.shapes_to_indices (-1 - fullPool.starting_shape_index)
              = some pos →
            getAt fullPool.bullets pos = some b → b.cycle ≠ -1) →
          is_bullet_valid fullPool ⟨-1, -1⟩ = some false)) :=
  ⟨by decide, exhausted_obtain_returns_sentinel plainHooks fullPool (by decide)⟩

/-- Claim C6 fails on the code.  With `pool_size` 2, both slots active and a step function
that reports expiry for every bullet, one `_process` call steps the bullet at position 1
only: it returns `-1` and leaves `active_bullets == 1`, `available_bullets == 1`. -/
theorem process_total_expiry_leaves_one :
    ((_init plainHooks true 0 2 (fun _ => ⟨0, -1, ()⟩) (fun _ => 0)).bind fun p =>
        run plainHooks p [Call.obtain_bullet, Call.obtain_bullet]) = some pairPool ∧
      WellFormed pairPool ∧ pairPool.active_bullets = 2 ∧
      _process plainHooks (fun b => (b.data, true)) pairPool =
        some (-1, ⟨true, 0, 2, 1, 1, [⟨1, 1, ()⟩, ⟨0, 0, ()⟩], [1, 0]⟩) := by
  decide

/-- Claim C7 fails on the code.  With `pool_size` 3, all slots active and a step function
under which only the bullet of stable index 2 expires, one `_process` call steps the
bullets of stable index 2 and 1; the bullet of stable index 0, active at position 0 when
the call starts and moved to position 2 by the release, is not stepped. -/
theorem process_skips_swapped_bullet :
    WellFormed triplePool ∧ triplePool.available_bullets = 0 ∧
      getAt triplePool.bullets 0 = some ⟨0, 0, ()⟩ ∧
      process_tick plainHooks (fun b => (b.data, decide (b.shape_index = 2))) triplePool =
        some ⟨⟨true, 0, 3, 1, 2, [⟨1, 2, ()⟩, ⟨0, 1, ()⟩, ⟨0, 0, ()⟩], [2, 1, 0]⟩, -1,
          [⟨2, 0, 2, true⟩, ⟨1, 1, 1, false⟩]⟩ := by
  decide

/-! ## Instances of the results on the concrete pools -/

/-- The claim C1 as stated fails where the range of stable indices ends beyond the int32
values.  `_init` with `starting_shape_index` 2147483646 and `pool_size` 2 leaves a
well-formed pool with the stable indices 2147483646 and 2147483647; its first
`obtain_bullet` returns the handle `(2147483647, 0)`, whose index is not `-1`, and
`is_bullet_valid` of that handle is false at once: the bound
`starting_shape_index + pool_size` of the range test has wrapped to -2147483648. -/
theorem obtained_handle_rejected_counterexample :
    _init plainHooks true 2147483646 2 (fun _ => ⟨0, -1, ()⟩) (fun _ => 0) = some edgePool ∧
      WellFormed edgePool ∧
      obtain_bullet plainHooks edgePool = some (⟨2147483647, 0⟩, edgeFirstPool) ∧
      (⟨2147483647, 0⟩ : BulletID).index ≠ -1 ∧
      add32 edgeFirstPool.starting_shape_index edgeFirstPool.pool_size = -2147483648 ∧
      is_bullet_valid edgeFirstPool ⟨2147483647, 0⟩ = some false := by
  decide

/-- A witness of claim C1: the first `obtain_bullet` on the fresh pool of size 4. -/
theorem obtained_handle_stays_valid_witness :
    WellFormed freshPool ∧
      freshPool.starting_shape_index + freshPool.pool_size ≤ 2147483647 ∧
      obtain_bullet plainHooks freshPool = some (⟨3, 0⟩, firstPool) ∧
      (⟨3, 0⟩ : BulletID).index ≠ -1 ∧
      (is_bullet_valid firstPool ⟨3, 0⟩ = some true ∧
        ∀ calls : List (Call Unit Unit), Spares plainHooks ⟨3, 0⟩ firstPool calls →
          ∃ r, run plainHooks firstPool calls = some r ∧
            is_bullet_valid r ⟨3, 0⟩ = some true) :=
  ⟨by decide, by decide, by decide, by decide,
    obtained_handle_stays_valid plainHooks (p := freshPool) (by decide) (by decide)
      (by decide) (by decide)⟩

/-- The claim C2 as stated fails: the counter of a slot wraps.  In the pool `_init`
leaves for `pool_size` 1, with its bullet obtained, `release_bullet` of the handle
`(0, 0)` returns true; an `obtain_bullet` and 4294967295 rounds of `release_bullet` and
`obtain_bullet` later the slot has cycle 0 again and `is_bullet_valid` of `(0, 0)` is
true. -/
theorem released_handle_valid_again_counterexample :
    ((_init plainHooks true 0 1 (fun _ => ⟨0, -1, ()⟩) (fun _ => 0)).bind fun p =>
        run plainHooks p [Call.obtain_bullet]) = some (busyPool 0 0) ∧
      WellFormed (busyPool 0 0) ∧
      release_bullet plainHooks (busyPool 0 0) ⟨0, 0⟩ = some (true, idlePool 0 1) ∧
      is_bullet_valid (idlePool 0 1) ⟨0, 0⟩ = some false ∧
      run plainHooks (idlePool 0 1) (Call.obtain_bullet :: churn 0 4294967295 1)
        = some (busyPool 0 0) ∧
      is_bullet_valid (busyPool 0 0) ⟨0, 0⟩ = some true :=
  ⟨by decide, by decide, by decide, by decide,
    (run_obtain_churn (by decide) 4294967295 1 (by decide)).trans
      (congrArg (fun c => some (busyPool 0 c))
        (show wrap32 (1 + ((4294967295 : Nat) : Int)) = 0 from by decide)),
    by decide⟩

/-- A witness of claim C2: the release of the second handle obtained from the pool of
size 4.  The sequence that obtains the slot again and releases it by its new handle
`(2, 1)` does not make the counter wrap. -/
theorem released_handle_stays_invalid_witness :
    WellFormed fullPool ∧
      release_bullet plainHooks fullPool ⟨2, 0⟩ = some (true, releasedPool) ∧
      (is_bullet_valid releasedPool ⟨2, 0⟩ = some false ∧
        release_bullet plainHooks releasedPool ⟨2, 0⟩ = some (false, releasedPool) ∧
        ((⟨2, 0⟩ : BulletID).cycle < 2147483647 →
          ∀ calls : List (Call Unit Unit), NoWrap plainHooks ⟨2, 0⟩ releasedPool calls →
            ∃ r, run plainHooks releasedPool calls = some r ∧
              is_bullet_valid r ⟨2, 0⟩ = some false ∧ Stale r ⟨2, 0⟩ ∧
              release_bullet plainHooks r ⟨2, 0⟩ = some (false, r))) ∧
      NoWrap plainHooks ⟨2, 0⟩ releasedPool
        [Call.obtain_bullet, Call.release_bullet ⟨2, 1⟩] :=
  ⟨by decide, by decide,
    released_handle_stays_invalid plainHooks (p := fullPool) (by decide) (by decide),
    ⟨trivial, fun _ _ => ⟨fun _ _ => by decide, fun _ _ => trivial⟩⟩⟩

/-- A witness of claim C3: releasing a second time the handle released already. -/
theorem failed_release_is_noop_witness :
    (AlreadyReleased releasedPool ⟨2, 0⟩ ∨ CycleMismatch releasedPool ⟨2, 0⟩ ∨
        OutOfRange releasedPool ⟨2, 0⟩) ∧
      release_bullet plainHooks releasedPool ⟨2, 0⟩ = some (false, releasedPool) :=
  ⟨Or.inl ⟨0, by decide, by decide⟩,
    failed_release_is_noop plainHooks releasedPool ⟨2, 0⟩
      (Or.inl ⟨0, by decide, by decide⟩)⟩

/-- A witness of claim C4: the pool of size 4 over the stable indices from 0. -/
theorem counters_invariant_witness :
    (0 : Int) < 4 ∧
      ∃ p, _init plainHooks true 0 4 (fun _ => ⟨0, -1, ()⟩) (fun _ => 0) = some p ∧
        (∀ (calls : List (Call Unit Unit)) q, run plainHooks p calls = some q →
          q.available_bullets + q.active_bullets = 4 ∧ 0 ≤ q.available_bullets ∧
            q.available_bullets ≤ 4) ∧
        (true = true → ∀ calls : List (Call Unit Unit), ∃ q, run plainHooks p calls = some q) :=
  ⟨by decide,
    counters_invariant plainHooks true 0 4 (fun _ => ⟨0, -1, ()⟩) (fun _ => 0) (by decide)⟩

/-- A witness of claim C5: the pool of size 4 with every slot active. -/
theorem indirection_preserved_witness :
    Sized fullPool ∧ Indirection fullPool ∧
      ((∀ a b pos, 0 ≤ a → a < fullPool.pool_size → 0 ≤ b → b < fullPool.pool_size →
          getAt fullPool.shapes_to_indices a = some pos →
          getAt fullPool.shapes_to_indices b = some pos → a = b) ∧
        (∀ pos, 0 ≤ pos → pos < fullPool.pool_size →
          ∃ idx, 0 ≤ idx ∧ idx < fullPool.pool_size ∧
            getAt fullPool.shapes_to_indices idx = some pos) ∧
        (∀ pos pos' x y, getAt fullPool.bullets pos = some x →
          getAt fullPool.bullets pos' = some y → x.shape_index = y.shape_index → pos = pos') ∧
        (∀ (c : Call Unit Unit) q, c.apply plainHooks fullPool = some q →
          Sized q ∧ Indirection q) ∧
        (∀ i q, fullPool.available_bullets ≤ i → i < fullPool.pool_size →
          _release_bullet plainHooks fullPool i = some q → Sized q ∧ Indirection q) ∧
        (Partitioned fullPool →
          (∀ c : Call Unit Unit, ∃ q, c.apply plainHooks fullPool = some q) ∧
          ∀ i, fullPool.available_bullets ≤ i → i < fullPool.pool_size →
            ∃ q, _release_bullet plainHooks fullPool i = some q)) :=
  ⟨by decide, by decide, indirection_preserved plainHooks (by decide) (by decide)⟩

/-- A witness of claim C8: a tick on the pool of size 3 in which one bullet expires. -/
theorem step_at_most_once_witness :
    WellFormed triplePool ∧
      ∃ t, process_tick plainHooks (fun b => (b.data, decide (b.shape_index = 2))) triplePool
          = some t ∧
        (t.calls.map StepCall.shape_index).Nodup ∧
        _process plainHooks (fun b => (b.data, decide (b.shape_index = 2))) triplePool
          = some (t.amount_variation, t.pool) :=
  ⟨by decide, step_at_most_once plainHooks _ (by decide)⟩

/-- A witness of claim C9, the scenario of the specification: `pool_size` 4, base 0, four
obtains, then the second handle obtained is released, which leaves
`available_bullets == 1` and `active_bullets == 3`, and the next obtain returns its index
with the cycle advanced by one. -/
theorem release_then_obtain_witness :
    run plainHooks freshPool [Call.obtain_bullet, Call.obtain_bullet, Call.obtain_bullet,
        Call.obtain_bullet] = some fullPool ∧
      release_bullet plainHooks fullPool ⟨2, 0⟩ = some (true, releasedPool) ∧
      releasedPool.available_bullets = 1 ∧ releasedPool.active_bullets = 3 ∧
      (obtain_bullet plainHooks releasedPool).map Prod.fst = some ⟨2, 1⟩ ∧
      WellFormed fullPool ∧ is_bullet_valid fullPool ⟨2, 0⟩ = some true ∧
      ∃ q r, release_bullet plainHooks fullPool ⟨2, 0⟩ = some (true, q) ∧
        q.available_bullets = fullPool.available_bullets + 1 ∧
        q.active_bullets = fullPool.active_bullets - 1 ∧
        obtain_bullet plainHooks q = some (⟨(⟨2, 0⟩ : BulletID).index,
          if (⟨2, 0⟩ : BulletID).cycle = 2147483647 then -2147483648
          else (⟨2, 0⟩ : BulletID).cycle + 1⟩, r) ∧
        is_bullet_valid q ⟨2, 0⟩ = some false ∧ is_bullet_valid r ⟨2, 0⟩ = some false :=
  ⟨by decide, by decide, by decide, by decide, by decide, by decide, by decide,
    release_then_obtain plainHooks (by decide) (by decide)⟩

/-- The claim C9 as stated fails at the largest cycle.  The pool `_init` leaves for
`pool_size` 1 reaches, by an `obtain_bullet` and 2147483647 rounds of `release_bullet`
and `obtain_bullet`, the state in which its bullet is active with cycle 2147483647.  The
handle `(0, 2147483647)` is valid there, `release_bullet` of it returns true, and the
`obtain_bullet` that follows returns `(0, -2147483648)`, not `(0, 2147483647 + 1)`. -/
theorem release_then_obtain_wraps_counterexample :
    ((_init plainHooks true 0 1 (fun _ => ⟨0, -1, ()⟩) (fun _ => 0)).bind fun p =>
        run plainHooks p (Call.obtain_bullet :: churn 0 2147483647 0))
        = some (busyPool 0 2147483647) ∧
      WellFormed (busyPool 0 2147483647) ∧
      is_bullet_valid (busyPool 0 2147483647) ⟨0, 2147483647⟩ = some true ∧
      release_bullet plainHooks (busyPool 0 2147483647) ⟨0, 2147483647⟩
        = some (true, idlePool 0 (-2147483648)) ∧
      obtain_bullet plainHooks (idlePool 0 (-2147483648))
        = some (⟨0, -2147483648⟩, busyPool 0 (-2147483648)) ∧
      (⟨0, -2147483648⟩ : BulletID) ≠ ⟨0, 2147483647 + 1⟩ :=
  ⟨(_init_run 0 _).trans ((run_obtain_churn (by decide) 2147483647 0 (by decide)).trans
      (congrArg (fun c => some (busyPool 0 c))
        (show wrap32 (0 + ((2147483647 : Nat) : Int)) = 2147483647 from by decide))),
    by decide, by decide, by decide, by decide, by decide⟩


/-! ## Postconditions of obtain and release, lookup and validity -/

/-- The effect of the shared body of `obtain_bullet` and `spawn_bullet`, cell by cell:
only the two counters move and only the data of the slot at `available_bullets - 1` is
rewritten. -/
theorem activate_cells {α : Type} {prepare : α → α} {p q : BulletsPool α} {b : Bullet α}
    (h : activate prepare p = some (b, q)) :
    q.collisions_enabled = p.collisions_enabled ∧
      q.starting_shape_index = p.starting_shape_index ∧ q.pool_size = p.pool_size ∧
      q.shapes_to_indices = p.shapes_to_indices ∧ q.bullets.length = p.bullets.length ∧
      ∀ pos, getAt q.bullets pos =
        if pos = p.available_bullets - 1 then some { b with data := prepare b.data }
        else getAt p.bullets pos := by
  obtain ⟨hb, -, -, -, hq⟩ := activate_eq_some h
  have hbd := getAt_bounds hb
  subst hq
  refine ⟨rfl, rfl, rfl, rfl, by simp, ?_⟩
  intro pos
  show getAt (p.bullets.set (p.available_bullets - 1).toNat _) pos = _
  rw [getAt_set _ _ hbd.1]
  by_cases hp : pos = p.available_bullets - 1
  · subst hp
    simp [hbd.2]
  · simp [hp]

/-- Claim C11, the postcondition of `obtain_bullet`.  In a pool whose arrays have
`pool_size` cells, with `0 < available_bullets <= pool_size`, `obtain_bullet` returns
`(shape_index, cycle)` of the slot at position `available_bullets - 1`, decrements
`available_bullets`, increments `active_bullets`, and leaves `shapes_to_indices`, the
order of the slots and every cycle and stable index as they were: the only cell rewritten
is the data of the slot handed out, by `_enable_bullet`. -/
theorem obtain_bullet_postcondition {α ν : Type} (k : Hooks α ν) {p : BulletsPool α}
    (h0 : 0 < p.available_bullets) (hs : Sized p) (hN : p.available_bullets ≤ p.pool_size) :
    ∃ b q, getAt p.bullets (p.available_bullets - 1) = some b ∧
      obtain_bullet k p = some (⟨b.shape_index, b.cycle⟩, q) ∧
      q.available_bullets = p.available_bullets - 1 ∧
      q.active_bullets = p.active_bullets + 1 ∧
      q.collisions_enabled = p.collisions_enabled ∧
      q.starting_shape_index = p.starting_shape_index ∧ q.pool_size = p.pool_size ∧
      q.shapes_to_indices = p.shapes_to_indices ∧ q.bullets.length = p.bullets.length ∧
      (∀ pos, getAt q.bullets pos =
        if pos = p.available_bullets - 1 then some { b with data := k.enable_bullet b.data }
        else getAt p.bullets pos) ∧
      (∀ pos x, getAt p.bullets pos = some x →
        ∃ y, getAt q.bullets pos = some y ∧ y.cycle = x.cycle ∧
          y.shape_index = x.shape_index) := by
  obtain ⟨b, q, hact⟩ := activate_total k.enable_bullet hs h0 hN
  obtain ⟨hb, hav, hac, hsame, -⟩ := activate_eq_some hact
  obtain ⟨c1, c2, c3, c4, c5, c6⟩ := activate_cells hact
  refine ⟨b, q, hb, ?_, hav, hac, c1, c2, c3, c4, c5, c6, hsame.2.2.2.2.2⟩
  unfold obtain_bullet
  rw [if_pos h0, hact]

/-- Claim C12 as amended, the postcondition of `release_bullet`.  In a well-formed pool,
for a valid handle `h` resolving to position `pos`, with `a` the value of
`available_bullets`: `release_bullet(h)` returns true; the released slot has as its cycle
the int32 successor of `h.cycle`, that is `h.cycle + 1` unless `h.cycle` is 2147483647,
where it is -2147483648, and sits at position `a`; the slot formerly at `a` sits at `pos`; every other position holds the
slot it held, with its cycle; `shapes_to_indices` sends `h.index` to `a` and the stable
index of the slot formerly at `a` to `pos` and is unchanged elsewhere;
`available_bullets` is `a + 1` and `active_bullets` is one less. -/
theorem release_bullet_postcondition {α ν : Type} (k : Hooks α ν) {p : BulletsPool α}
    {h : BulletID} (hw : WellFormed p) (hv : is_bullet_valid p h = some true) :
    ∃ pos b c q,
      getAt p.shapes_to_indices (h.index - p.starting_shape_index) = some pos ∧
      getAt p.bullets pos = some b ∧ getAt p.bullets p.available_bullets = some c ∧
      b.shape_index = h.index ∧ b.cycle = h.cycle ∧
      release_bullet k p h = some (true, q) ∧
      getAt q.bullets p.available_bullets =
        some { b with
          cycle := (if h.cycle = 2147483647 then -2147483648 else h.cycle + 1)
          data := k.disable_bullet b.data } ∧
      (pos ≠ p.available_bullets → getAt q.bullets pos = some c) ∧
      (∀ i, i ≠ p.available_bullets → i ≠ pos → getAt q.bullets i = getAt p.bullets i) ∧
      getAt q.shapes_to_indices (h.index - p.starting_shape_index)
        = some p.available_bullets ∧
      (pos ≠ p.available_bullets →
        getAt q.shapes_to_indices (c.shape_index - p.starting_shape_index) = some pos) ∧
      (∀ idx, idx ≠ h.index - p.starting_shape_index →
        idx ≠ c.shape_index - p.starting_shape_index →
        getAt q.shapes_to_indices idx = getAt p.shapes_to_indices idx) ∧
      q.available_bullets = p.available_bullets + 1 ∧
      q.active_bullets = p.active_bullets - 1 ∧
      q.collisions_enabled = p.collisions_enabled ∧
      q.starting_shape_index = p.starting_shape_index ∧ q.pool_size = p.pool_size := by
  have hl := (is_bullet_valid_iff_live p h).mp hv
  obtain ⟨l1, l2⟩ := hl.lt_sum hw.1.1
  obtain ⟨pos, b, h3, h4, h5, h6, h7, hrel⟩ := release_bullet_of_live k hl
  obtain ⟨q, b', c, hb', hc, hq, f1, f2, f3, f4, f5, -, -, hcb, hcs⟩ :=
    _release_bullet_cells k hw.1 hw.2.2 hw.2.1.1 h4 h5
  rw [h6] at hb'; cases hb'
  obtain ⟨hbs, -, -⟩ := hw.2.2.shape_eq (by omega) (by omega) h3 h6
  have hbi : b.shape_index = h.index := by omega
  have hidx : b.shape_index - p.starting_shape_index = h.index - p.starting_shape_index := by
    omega
  refine ⟨pos, b, c, q, h3, h6, hc, hbi, h7.symm, by rw [hrel, hq]; rfl, ?_, ?_, ?_, ?_, ?_,
    ?_, f4, f5, f1, f2, f3⟩
  · rw [hcb, if_pos rfl, ← add32_one_eq h.cycle, h7]
  · intro hne
    rw [hcb, if_neg hne, if_pos rfl]
  · intro i hi1 hi2
    rw [hcb, if_neg hi1, if_neg hi2]
  · rw [hcs, if_pos hidx.symm]
  · intro hne
    have hce : c.shape_index - p.starting_shape_index ≠
        b.shape_index - p.starting_shape_index := by
      intro hEq
      have := Indirection.position_unique hw.1 hw.2.2 hc h6 (by omega)
      exact hne this.symm
    rw [hcs, if_neg hce, if_pos rfl]
  · intro idx hi1 hi2
    rw [hcs, if_neg (by rw [hidx]; exact hi1), if_neg hi2]

/-- Claim C13 as amended, lookup by stable index.  In a well-formed pool whose range of
stable indices ends within the int32 values,
`starting_shape_index + pool_size <= 2147483647`, `get_bullet_from_shape(s)`
returns the sentinel `BulletID(-1, -1)` when `s` lies outside `[starting_shape_index,
starting_shape_index + pool_size)` or the slot holding `s` lies in the free part;
otherwise the slot holding `s` is active and the call returns the handle made of `s` and
the cycle of that slot, which `is_bullet_valid` accepts. -/
theorem get_bullet_from_shape_spec {α : Type} {p : BulletsPool α} (hw : WellFormed p)
    (hfit : p.starting_shape_index + p.pool_size ≤ 2147483647) (s : Int) :
    ((s < p.starting_shape_index ∨ p.starting_shape_index + p.pool_size ≤ s ∨
          ∃ pos, getAt p.shapes_to_indices (s - p.starting_shape_index) = some pos ∧
            pos < p.available_bullets) →
        get_bullet_from_shape p s = some ⟨-1, -1⟩) ∧
      (¬ (s < p.starting_shape_index ∨ p.starting_shape_index + p.pool_size ≤ s ∨
          ∃ pos, getAt p.shapes_to_indices (s - p.starting_shape_index) = some pos ∧
            pos < p.available_bullets) →
        ∃ pos b, getAt p.shapes_to_indices (s - p.starting_shape_index) = some pos ∧
          p.available_bullets ≤ pos ∧ pos < p.pool_size ∧ getAt p.bullets pos = some b ∧
          b.shape_index = s ∧ get_bullet_from_shape p s = some ⟨s, b.cycle⟩ ∧
          is_bullet_valid p ⟨s, b.cycle⟩ = some true) := by
  have hsum := add32_eq p.starting_shape_index hw.1.1 hfit
  constructor
  · intro hcase
    unfold get_bullet_from_shape
    split
    · rename_i hr
      rw [hsum] at hr
      rcases hcase with h1 | h1 | ⟨pos, h1, h2⟩
      · omega
      · omega
      · simp only [h1]
        rw [if_neg (by omega)]
    · rfl
  · intro hcase
    have hr : p.starting_shape_index ≤ s ∧ s < p.starting_shape_index + p.pool_size := by
      constructor
      · by_contra hc
        exact hcase (Or.inl (by omega))
      · by_contra hc
        exact hcase (Or.inr (Or.inl (by omega)))
    obtain ⟨pos, b, h1, h2, h3, h4, h5⟩ := hw.2.2 (s - p.starting_shape_index)
      (by omega) (by omega)
    have hav : p.available_bullets ≤ pos := by
      by_contra hc
      exact hcase (Or.inr (Or.inr ⟨pos, h1, by omega⟩))
    refine ⟨pos, b, h1, hav, h3, h4, by omega, ?_, ?_⟩
    · unfold get_bullet_from_shape
      rw [hsum, if_pos hr]
      simp only [h1]
      rw [if_pos hav]
      simp only [h4]
    · exact (is_bullet_valid_iff_live p _).mpr
        ⟨pos, b, hr.1, by rw [hsum]; exact hr.2, h1, hav, h3, h4, rfl⟩

/-- In a well-formed pool whose range of stable indices ends within the int32 values a
handle is live exactly when some active position holds a slot with the stable index and
the cycle of the handle. -/
theorem live_iff_active_slot {α : Type} {p : BulletsPool α} (hw : WellFormed p)
    (hfit : p.starting_shape_index + p.pool_size ≤ 2147483647) (h : BulletID) :
    Live p h ↔ ∃ pos b, p.available_bullets ≤ pos ∧ pos < p.pool_size ∧
      getAt p.bullets pos = some b ∧ b.shape_index = h.index ∧ b.cycle = h.cycle := by
  have hsum := add32_eq p.starting_shape_index hw.1.1 hfit
  constructor
  · rintro ⟨pos, b, l1, l2, l3, l4, l5, l6, l7⟩
    obtain ⟨hbs, -, -⟩ := hw.2.2.shape_eq (by omega) (by omega) l3 l6
    exact ⟨pos, b, l4, l5, l6, by omega, l7.symm⟩
  · rintro ⟨pos, b, h1, h2, h3, h4, h5⟩
    have h0 := hw.2.1.1
    obtain ⟨e0, e1, e2⟩ := hw.2.2.position_eq (by omega) h2 h3
    rw [h4] at e0 e1 e2
    exact ⟨pos, b, by omega, by omega, e2, h1, h2, h3, h5.symm⟩

/-- Claim C14 as amended, the characterisation of validity.  In a well-formed pool whose
range of stable indices ends within the int32 values,
`starting_shape_index + pool_size <= 2147483647`,
`is_bullet_valid(h)` is true if and only if some position `pos` with
`available_bullets <= pos < pool_size` holds a slot with `shape_index == h.index` and
`cycle == h.cycle`, and false otherwise; the call leaves the pool as it is. -/
theorem is_bullet_valid_characterisation {α ν : Type} (k : Hooks α ν) {p : BulletsPool α}
    (hw : WellFormed p) (hfit : p.starting_shape_index + p.pool_size ≤ 2147483647)
    (h : BulletID) :
    (is_bullet_valid p h = some true ↔
        ∃ pos b, p.available_bullets ≤ pos ∧ pos < p.pool_size ∧
          getAt p.bullets pos = some b ∧ b.shape_index = h.index ∧ b.cycle = h.cycle) ∧
      (is_bullet_valid p h = some false ↔
        ¬ ∃ pos b, p.available_bullets ≤ pos ∧ pos < p.pool_size ∧
          getAt p.bullets pos = some b ∧ b.shape_index = h.index ∧ b.cycle = h.cycle) ∧
      (Call.is_bullet_valid h : Call α ν).apply k p = some p := by
  have hiff := (is_bullet_valid_iff_live p h).trans (live_iff_active_slot hw hfit h)
  obtain ⟨r, hr⟩ := is_bullet_valid_total hw.1.1 hw.2.2 h
  refine ⟨hiff, ?_, by simp [Call.apply, hr]⟩
  constructor
  · intro hf hex
    rw [hiff.mpr hex] at hf
    cases hf
  · intro hne
    cases r with
    | false => exact hr
    | true => exact absurd (hiff.mp hr) hne

/-! ## What a tick returns and touches -/

/-- What a tick on a well-formed pool returns: `amount_variation` is the change of
`active_bullets` and minus the number of steps that reported expiry. -/
theorem process_tick_amount {α ν : Type} (k : Hooks α ν) (step : Bullet α → α × Bool)
    {p : BulletsPool α} (hw : WellFormed p) :
    ∃ t, process_tick k step p = some t ∧
      t.amount_variation = t.pool.active_bullets - p.active_bullets ∧
      t.amount_variation = -((t.calls.countP fun c => c.expired : Nat) : Int) := by
  obtain ⟨t', m, ht', -, -, hJ, -⟩ := process_loop_wf_rule k step
    (fun _ s => s.amount_variation = s.pool.active_bullets - p.active_bullets ∧
      s.amount_variation = -((s.calls.countP fun c => c.expired : Nat) : Int))
    (by
      rintro n s b - - ⟨g1, g2⟩ - - -
      refine ⟨g1, ?_⟩
      show s.amount_variation = _
      rw [g2, List.countP_append]
      simp)
    (by
      rintro n s b q - - ⟨g1, g2⟩ - - - hq
      obtain ⟨-, -, -, -, f5⟩ := _release_bullet_frame k hq
      have f5' : q.active_bullets = s.pool.active_bullets - 1 := f5
      refine ⟨by show s.amount_variation - 1 = q.active_bullets - p.active_bullets; omega, ?_⟩
      show s.amount_variation - 1 = _
      rw [g2, List.countP_append]
      simp
      ring)
    p.pool_size.toNat ⟨p, 0, []⟩ hw
    (by have := hw.1.1; show ((p.pool_size.toNat : Nat) : Int) ≤ p.pool_size; omega)
    ⟨by simp, by simp⟩
  exact ⟨t', by rw [process_tick_eq k step hw.1.1]; exact ht', hJ.1, hJ.2⟩

/-- Claim C17, the value a tick returns.  On a well-formed pool, with any step function,
`_process` returns `active_bullets` after the call minus `active_bullets` before it; the
value is at most 0 and is minus the number of steps of the call that reported expiry. -/
theorem process_return_value {α ν : Type} (k : Hooks α ν) (step : Bullet α → α × Bool)
    {p : BulletsPool α} (hw : WellFormed p) :
    ∃ t, process_tick k step p = some t ∧
      _process k step p = some (t.amount_variation, t.pool) ∧
      t.amount_variation = t.pool.active_bullets - p.active_bullets ∧
      t.amount_variation ≤ 0 ∧
      t.amount_variation = -((t.calls.countP fun c => c.expired : Nat) : Int) := by
  obtain ⟨t, ht, h1, h2⟩ := process_tick_amount k step hw
  exact ⟨t, ht, by simp [_process, ht], h1, by rw [h2]; omega, h2⟩

/-- A tick on a well-formed pool steps only positions of the active part and leaves the
free part it started with alone. -/
theorem process_tick_active_only {α ν : Type} (k : Hooks α ν) (step : Bullet α → α × Bool)
    {p : BulletsPool α} (hw : WellFormed p) :
    ∃ t, process_tick k step p = some t ∧
      (∀ c ∈ t.calls, p.available_bullets ≤ c.available ∧ c.available ≤ c.position ∧
        c.position < p.pool_size) ∧
      (∀ pos, pos < p.available_bullets → getAt t.pool.bullets pos = getAt p.bullets pos) ∧
      (∀ idx pos, getAt p.shapes_to_indices idx = some pos → pos < p.available_bullets →
        getAt t.pool.shapes_to_indices idx = some pos) := by
  obtain ⟨t', m, ht', -, -, hJ, -⟩ := process_loop_wf_rule k step
    (fun _ s => s.pool.pool_size = p.pool_size ∧
      p.available_bullets ≤ s.pool.available_bullets ∧
      (∀ c ∈ s.calls, p.available_bullets ≤ c.available ∧ c.available ≤ c.position ∧
        c.position < p.pool_size) ∧
      (∀ pos, pos < p.available_bullets → getAt s.pool.bullets pos = getAt p.bullets pos) ∧
      (∀ idx pos, getAt p.shapes_to_indices idx = some pos → pos < p.available_bullets →
        getAt s.pool.shapes_to_indices idx = some pos))
    (by
      rintro n s b sw sn ⟨g1, g2, g3, g4, g5⟩ hc hb -
      obtain ⟨-, -, w3⟩ := store_step_wf sw hb (step b).1
      refine ⟨g1, g2, ?_, ?_, g5⟩
      · intro c hcm
        rcases List.mem_append.mp hcm with hcm | hcm
        · exact g3 c hcm
        · rw [List.mem_singleton.mp hcm]
          exact ⟨g2, hc, by show (n : Int) < p.pool_size; omega⟩
      · intro pos hpos
        rw [← g4 pos hpos]
        exact w3 pos (by omega))
    (by
      rintro n s b q sw sn ⟨g1, g2, g3, g4, g5⟩ hc hb - hq
      obtain ⟨w1, w2, w3⟩ := store_step_wf sw hb (step b).1
      obtain ⟨q', b', c', hb', hc', hq', -, -, hN, hav, -, -, -, hcb, hcs⟩ :=
        _release_bullet_cells k w1.1 w1.2.2 (i := (n : Int)) sw.2.1.1 hc
          (by show (n : Int) < s.pool.pool_size; omega)
      rw [hq] at hq'; cases hq'
      have hav' : q.available_bullets = s.pool.available_bullets + 1 := hav
      have hN' : q.pool_size = s.pool.pool_size := hN
      have hn1 : (n : Int) < s.pool.pool_size := by omega
      obtain ⟨-, -, e1⟩ := w1.2.2.position_eq (show (0 : Int) ≤ (n : Int) by omega) hn1 hb'
      obtain ⟨-, -, e2⟩ := w1.2.2.position_eq
        (show 0 ≤ s.pool.available_bullets from sw.2.1.1)
        (show s.pool.available_bullets < s.pool.pool_size by omega) hc'
      have hc' : s.pool.available_bullets ≤ (n : Int) := hc
      refine ⟨by rw [hN', g1], by show p.available_bullets ≤ q.available_bullets; omega,
        ?_, ?_, ?_⟩
      · intro c hcm
        rcases List.mem_append.mp hcm with hcm | hcm
        · exact g3 c hcm
        · rw [List.mem_singleton.mp hcm]
          exact ⟨g2, hc, by show (n : Int) < p.pool_size; omega⟩
      · intro pos hpos
        rw [← g4 pos hpos, hcb]
        have hp1 : pos ≠ s.pool.available_bullets := by omega
        have hp2 : pos ≠ (n : Int) := by omega
        rw [if_neg (by exact hp1), if_neg hp2]
        exact w3 pos hp2
      · intro idx pos hidx hpos
        have hs := g5 idx pos hidx hpos
        have hs1 : getAt (store s.pool n { b with data := (step b).1 }).shapes_to_indices idx
            = some pos := hs
        rw [hcs]
        have hi1 : idx ≠ b'.shape_index -
            (store s.pool n { b with data := (step b).1 }).starting_shape_index := by
          intro hEq
          rw [← hEq, hs1] at e1
          cases e1
          omega
        have hi2 : idx ≠ c'.shape_index -
            (store s.pool n { b with data := (step b).1 }).starting_shape_index := by
          intro hEq
          rw [← hEq, hs1] at e2
          cases e2
          omega
        rw [if_neg hi1, if_neg hi2]
        exact hs1)
    p.pool_size.toNat ⟨p, 0, []⟩ hw
    (by have := hw.1.1; show ((p.pool_size.toNat : Nat) : Int) ≤ p.pool_size; omega)
    ⟨rfl, le_refl _, by simp, fun _ _ => rfl, fun _ _ h _ => h⟩
  exact ⟨t', by rw [process_tick_eq k step hw.1.1]; exact ht', hJ.2.2.1, hJ.2.2.2.1,
    hJ.2.2.2.2⟩

/-- Claim C18, a tick touches only the active part.  On a well-formed pool, with any step
function, every step of `_process` is made on a slot at a position
`>= available_bullets` at the moment of the step, no stable index is stepped twice (so no
bullet is stepped after its release in the same tick), and the slots at the positions
`[0, available_bullets)` of the pool the call started on keep their position, cycle,
stable index and data, and their entry of `shapes_to_indices`. -/
theorem process_touches_active_only {α ν : Type} (k : Hooks α ν)
    (step : Bullet α → α × Bool) {p : BulletsPool α} (hw : WellFormed p) :
    ∃ t, process_tick k step p = some t ∧
      _process k step p = some (t.amount_variation, t.pool) ∧
      (∀ c ∈ t.calls, p.available_bullets ≤ c.available ∧ c.available ≤ c.position ∧
        c.position < p.pool_size) ∧
      t.calls.Pairwise (fun c d => c.shape_index ≠ d.shape_index) ∧
      p.available_bullets ≤ t.pool.available_bullets ∧
      (∀ pos, pos < p.available_bullets → getAt t.pool.bullets pos = getAt p.bullets pos) ∧
      (∀ idx pos, getAt p.shapes_to_indices idx = some pos → pos < p.available_bullets →
        getAt t.pool.shapes_to_indices idx = some pos) := by
  obtain ⟨t, ht, h1, h2, h3⟩ := process_tick_active_only k step hw
  obtain ⟨t', ht', hnd⟩ := process_tick_nodup k step hw
  rw [ht] at ht'; cases ht'
  obtain ⟨f1, f2, f3⟩ := process_tick_counters k step hw.2.1 ht
  obtain ⟨_, ht2, g1, g2⟩ := process_tick_amount k step hw
  rw [ht] at ht2; cases ht2
  refine ⟨t, ht, by simp [_process, ht], h1, ?_, ?_, h2, h3⟩
  · exact (List.pairwise_map (f := StepCall.shape_index) (R := fun a b => a ≠ b)).mp hnd
  · have : t.amount_variation ≤ 0 := by rw [g2]; omega
    omega

/-! ## Spawning -/

/-- Rewriting the data of a slot does not show in the skeleton of the array. -/
theorem map_set_data {α : Type} (bs : List (Bullet α)) {i : Int} {b : Bullet α} (d : α)
    (hb : getAt bs i = some b) :
    (bs.set i.toNat { b with data := d }).map (fun x => (x.cycle, x.shape_index)) =
      bs.map (fun x => (x.cycle, x.shape_index)) := by
  obtain ⟨h0, h1⟩ := getAt_eq_some.mp hb
  obtain ⟨hlt, heq⟩ := List.getElem?_eq_some.mp h1
  rw [List.map_set]
  apply List.ext_getElem?
  intro j
  rw [List.getElem?_set]
  by_cases hj : i.toNat = j
  · subst hj
    simp [h1, hlt, heq]
  · simp [hj]

/-- Whatever the hook does to the data, the shared body of `obtain_bullet` and
`spawn_bullet` leaves the same skeleton, or indexes outside the array either way. -/
theorem activate_skeleton {α : Type} (prepare prepare' : α → α) (p : BulletsPool α) :
    (activate prepare p).map (fun r => skeleton r.2) =
      (activate prepare' p).map (fun r => skeleton r.2) := by
  unfold activate
  simp only
  cases hb : getAt p.bullets (p.available_bullets - 1) with
  | none => rfl
  | some b =>
    simp only [Option.map_some', skeleton, map_set_data _ _ hb]

/-- Claim C19, `spawn_bullet` is `obtain_bullet` on the structure of the pool.  From every
pool and for every property mapping, `spawn_bullet` and `obtain_bullet` run inside the
arrays together, and then leave the same configuration, counters, cycles and stable
indices in the same order, and the same `shapes_to_indices`; `spawn_bullet` rewrites only
the data of the slot at position `available_bullets - 1`, which it activates after the
properties are set; with `available_bullets == 0` it leaves the pool as it is. -/
theorem spawn_bullet_refines_obtain_bullet {α ν : Type} (k : Hooks α ν)
    (p : BulletsPool α) (properties : List (String × ν)) :
    (spawn_bullet k p properties).map skeleton =
        (obtain_bullet k p).map (fun r => skeleton r.2) ∧
      (∀ q, spawn_bullet k p properties = some q → 0 < p.available_bullets →
        ∃ b, getAt p.bullets (p.available_bullets - 1) = some b ∧
          ∀ pos, getAt q.bullets pos =
            if pos = p.available_bullets - 1 then
              some { b with data := k.enable_bullet (set_properties k properties b.data) }
            else getAt p.bullets pos) ∧
      spawn_bullet k { p with available_bullets := 0 } properties =
        some { p with available_bullets := 0 } := by
  refine ⟨?_, ?_, ?_⟩
  · unfold spawn_bullet obtain_bullet
    by_cases h0 : 0 < p.available_bullets
    · rw [if_pos h0, if_pos h0]
      have := activate_skeleton (fun d => k.enable_bullet (set_properties k properties d))
        k.enable_bullet p
      cases h1 : activate (fun d => k.enable_bullet (set_properties k properties d)) p with
      | none =>
        rw [h1] at this
        cases h2 : activate k.enable_bullet p with
        | none => rfl
        | some r => rw [h2] at this; simp at this
      | some r =>
        rw [h1] at this
        cases h2 : activate k.enable_bullet p with
        | none => rw [h2] at this; simp at this
        | some r' =>
          rw [h2] at this
          simpa using this
    · rw [if_neg h0, if_neg h0]
      rfl
  · intro q hq h0
    rcases spawn_bullet_cases k hq with ⟨hle, -⟩ | ⟨-, b, hact⟩
    · omega
    · exact ⟨b, (activate_eq_some hact).1, (activate_cells hact).2.2.2.2.2⟩
  · unfold spawn_bullet
    rw [if_neg (by show ¬ (0 : Int) < 0; omega)]

/-! ## Initialisation and teardown -/

/-- With collisions enabled `_init` gives slot `i` the stable index
`starting_shape_index + i` and sets `shapes_to_indices[i] = i`. -/
theorem _init_enabled_cells {α ν : Type} (k : Hooks α ν) (base N : Int)
    (fresh : Nat → Bullet α) (uninit : Nat → Int) (hN : 0 ≤ N) :
    ∃ p, _init k true base N fresh uninit = some p ∧ p.available_bullets = N ∧
      p.active_bullets = 0 ∧
      ∀ i : Int, 0 ≤ i → i < N →
        getAt p.shapes_to_indices i = some i ∧
        ∃ b, getAt p.bullets i = some b ∧ b.shape_index = base + i := by
  have hinit : ∃ p, _init k true base N fresh uninit = some p := by
    unfold _init
    rw [if_neg (by omega)]
    exact ⟨_, rfl⟩
  obtain ⟨p, hp⟩ := hinit
  have hw := _init_wf k base N fresh uninit hp
  have hfields : p.available_bullets = N ∧ p.active_bullets = 0 ∧ p.pool_size = N ∧
      p.starting_shape_index = base ∧
      p.shapes_to_indices = (List.range N.toNat).map fun i => Int.ofNat i := by
    unfold _init at hp
    rw [if_neg (by omega)] at hp
    simp only [Option.some.injEq] at hp
    subst hp
    exact ⟨rfl, rfl, rfl, rfl, by simp⟩
  obtain ⟨f1, f2, f3, f4, f5⟩ := hfields
  refine ⟨p, hp, f1, f2, ?_⟩
  intro i h0 h1
  have hlt : i.toNat < N.toNat := by omega
  have hs : getAt p.shapes_to_indices i = some i := by
    rw [f5, getAt_eq_some]
    refine ⟨h0, ?_⟩
    simp [List.getElem?_map, List.getElem?_range hlt, Int.toNat_of_nonneg h0]
  refine ⟨hs, ?_⟩
  obtain ⟨pos, b, g1, -, -, g4, g5⟩ := hw.2.2 i h0 (by omega)
  rw [hs] at g1
  cases g1
  exact ⟨b, g4, by rw [g5, f4]⟩

/-- With collisions disabled `_init` writes neither field: slot `i` keeps the stable
index its constructor gave it and `shapes_to_indices[i]` keeps what the fresh array
held. -/
theorem _init_disabled_cells {α ν : Type} (k : Hooks α ν) (base N : Int)
    (fresh : Nat → Bullet α) (uninit : Nat → Int) (hN : 0 ≤ N) :
    ∃ p, _init k false base N fresh uninit = some p ∧ p.available_bullets = N ∧
      p.active_bullets = 0 ∧
      ∀ i : Nat, (i : Int) < N →
        getAt p.shapes_to_indices i = some (uninit i) ∧
        ∃ b, getAt p.bullets i = some b ∧ b.shape_index = (fresh i).shape_index := by
  unfold _init
  rw [if_neg (by omega)]
  refine ⟨_, rfl, rfl, rfl, ?_⟩
  intro i hi
  have hlt : i < N.toNat := by omega
  constructor
  · rw [getAt_eq_some]
    refine ⟨by omega, ?_⟩
    simp [List.getElem?_map, List.getElem?_range hlt]
  · refine ⟨{ fresh i with data := k.init_bullet (fresh i).data }, ?_, rfl⟩
    rw [getAt_eq_some]
    refine ⟨by omega, ?_⟩
    simp [List.getElem?_map, List.getElem?_range hlt]

/-- Claim C15 fails on the code for `collisions_enabled == false`.  The assignments
`bullet->shape_index = starting_shape_index + i` and `shapes_to_indices[i] = i` sit inside
`if(collisions_enabled)`: with `pool_size` 2 and base 0, a bullet type whose new bullets
have `shape_index` `-1` and a fresh array of zeros, `_init` leaves both slots with
`shape_index` `-1` and `shapes_to_indices == [0, 0]`.  The indirection predicate fails,
and an `obtain_bullet` followed by a tick in which the bullet expires indexes
`shapes_to_indices` at `-1`. -/
theorem init_without_collisions_leaves_indices_unset :
    _init plainHooks false 0 2 (fun _ => ⟨0, -1, ()⟩) (fun _ => 0) = some looseInitPool ∧
      looseInitPool.available_bullets = 2 ∧ looseInitPool.active_bullets = 0 ∧
      getAt looseInitPool.bullets 1 = some ⟨0, -1, ()⟩ ∧
      getAt looseInitPool.shapes_to_indices 1 = some 0 ∧
      ¬ Indirection looseInitPool ∧
      run plainHooks looseInitPool
        [Call.obtain_bullet, Call.process (fun b => (b.data, true))] = none := by
  decide

/-- Claim C16 as amended, the capacity `_init` refuses.  The call fails exactly when
`pool_size < 0`, where the allocation of the arrays fails; for `pool_size == 0` it yields
the pool without slots, with both counters 0. -/
theorem init_fails_iff_negative {α ν : Type} (k : Hooks α ν) (collisions_enabled : Bool)
    (starting_shape_index pool_size : Int) (fresh : Nat → Bullet α) (uninit : Nat → Int) :
    (_init k collisions_enabled starting_shape_index pool_size fresh uninit = none ↔
        pool_size < 0) ∧
      _init k collisions_enabled starting_shape_index 0 fresh uninit =
        some ⟨collisions_enabled, starting_shape_index, 0, 0, 0, [], []⟩ := by
  constructor
  · unfold _init
    by_cases h : pool_size < 0
    · simp [h]
    · simp [h]
  · unfold _init
    simp

/-- The claim C16 as stated fails for `pool_size == 0`: `_init` returns a pool, which is
well-formed, whose counters add up, on which `obtain_bullet` returns the sentinel and a
tick returns 0. -/
theorem init_zero_capacity_counterexample :
    _init plainHooks true 0 0 (fun _ => ⟨0, -1, ()⟩) (fun _ => 0) = some emptyPool ∧
      WellFormed emptyPool ∧ Counted emptyPool ∧
      obtain_bullet plainHooks emptyPool = some (⟨-1, -1⟩, emptyPool) ∧
      _process plainHooks (fun b => (b.data, true)) emptyPool = some (0, emptyPool) := by
  decide

/-- The first access of the destructor, in any pool with `pool_size >= 0`, is
`bullets[-1]`. -/
theorem destructor_first_access {α : Type} (p : BulletsPool α) (h : 0 ≤ p.pool_size) :
    destructor p = ⟨[-1], false⟩ := by
  unfold destructor
  obtain ⟨n, hn⟩ : ∃ n : Nat, (p.pool_size - (0 - 1)).toNat = n + 1 :=
    ⟨p.pool_size.toNat, by omega⟩
  rw [hn]
  unfold teardown_loop
  have hi : p.pool_size - ((n + 1 : Nat) : Int) = -1 := by omega
  simp only [hi]
  have : getAt p.bullets (-1) = none := by
    unfold getAt
    simp
  simp [this]

/-- Claim C20 fails on the code.  The loop of the destructor starts at `i = 0 - 1`: for
the pool of size 4 its first access is `bullets[-1]`, outside `[0, 4)`, and no position of
`[0, 4)` has been visited when that access is made. -/
theorem destructor_reads_before_array :
    fullPool.pool_size = 4 ∧ destructor fullPool = ⟨[-1], false⟩ ∧
      getAt fullPool.bullets (-1) = none := by
  decide

/-! ## Further instances on the concrete pools -/

/-- A witness of claim C11: the first `obtain_bullet` on the fresh pool of size 4. -/
theorem obtain_bullet_postcondition_witness :
    0 < freshPool.available_bullets ∧ Sized freshPool ∧
      freshPool.available_bullets ≤ freshPool.pool_size ∧
      ∃ b q, getAt freshPool.bullets (freshPool.available_bullets - 1) = some b ∧
        obtain_bullet plainHooks freshPool = some (⟨b.shape_index, b.cycle⟩, q) ∧
        q.available_bullets = freshPool.available_bullets - 1 ∧
        q.active_bullets = freshPool.active_bullets + 1 ∧
        q.collisions_enabled = freshPool.collisions_enabled ∧
        q.starting_shape_index = freshPool.starting_shape_index ∧
        q.pool_size = freshPool.pool_size ∧
        q.shapes_to_indices = freshPool.shapes_to_indices ∧
        q.bullets.length = freshPool.bullets.length ∧
        (∀ pos, getAt q.bullets pos =
          if pos = freshPool.available_bullets - 1 then
            some { b with data := plainHooks.enable_bullet b.data }
          else getAt freshPool.bullets pos) ∧
        (∀ pos x, getAt freshPool.bullets pos = some x →
          ∃ y, getAt q.bullets pos = some y ∧ y.cycle = x.cycle ∧
            y.shape_index = x.shape_index) :=
  ⟨by decide, by decide, by decide,
    obtain_bullet_postcondition plainHooks (by decide) (by decide) (by decide)⟩

/-- A witness of claim C12: the release of the handle `(2, 0)` in the pool of size 4 with
every slot active. -/
theorem release_bullet_postcondition_witness :
    WellFormed fullPool ∧ is_bullet_valid fullPool ⟨2, 0⟩ = some true ∧
      ∃ pos b c q,
        getAt fullPool.shapes_to_indices
          ((⟨2, 0⟩ : BulletID).index - fullPool.starting_shape_index) = some pos ∧
        getAt fullPool.bullets pos = some b ∧
        getAt fullPool.bullets fullPool.available_bullets = some c ∧
        b.shape_index = (⟨2, 0⟩ : BulletID).index ∧ b.cycle = (⟨2, 0⟩ : BulletID).cycle ∧
        release_bullet plainHooks fullPool ⟨2, 0⟩ = some (true, q) ∧
        getAt q.bullets fullPool.available_bullets =
          some { b with
            cycle := (if (⟨2, 0⟩ : BulletID).cycle = 2147483647 then -2147483648
              else (⟨2, 0⟩ : BulletID).cycle + 1)
            data := plainHooks.disable_bullet b.data } ∧
        (pos ≠ fullPool.available_bullets → getAt q.bullets pos = some c) ∧
        (∀ i, i ≠ fullPool.available_bullets → i ≠ pos →
          getAt q.bullets i = getAt fullPool.bullets i) ∧
        getAt q.shapes_to_indices
          ((⟨2, 0⟩ : BulletID).index - fullPool.starting_shape_index)
          = some fullPool.available_bullets ∧
        (pos ≠ fullPool.available_bullets →
          getAt q.shapes_to_indices (c.shape_index - fullPool.starting_shape_index)
            = some pos) ∧
        (∀ idx, idx ≠ (⟨2, 0⟩ : BulletID).index - fullPool.starting_shape_index →
          idx ≠ c.shape_index - fullPool.starting_shape_index →
          getAt q.shapes_to_indices idx = getAt fullPool.shapes_to_indices idx) ∧
        q.available_bullets = fullPool.available_bullets + 1 ∧
        q.active_bullets = fullPool.active_bullets - 1 ∧
        q.collisions_enabled = fullPool.collisions_enabled ∧
        q.starting_shape_index = fullPool.starting_shape_index ∧
        q.pool_size = fullPool.pool_size :=
  ⟨by decide, by decide, release_bullet_postcondition plainHooks (by decide) (by decide)⟩

/-- The claim C12 as stated fails at the largest cycle.  The pool `_init` leaves for
`pool_size` 1 reaches, by an `obtain_bullet` and 2147483647 rounds of `release_bullet`
and `obtain_bullet`, the state in which its bullet is active with cycle 2147483647.  The
handle `(0, 2147483647)` is valid there and `release_bullet` of it returns true, but the
released slot has cycle -2147483648, not `2147483647 + 1`. -/
theorem release_bullet_cycle_wraps_counterexample :
    ((_init plainHooks true 0 1 (fun _ => ⟨0, -1, ()⟩) (fun _ => 0)).bind fun p =>
        run plainHooks p (Call.obtain_bullet :: churn 0 2147483647 0))
        = some (busyPool 0 2147483647) ∧
      WellFormed (busyPool 0 2147483647) ∧
      is_bullet_valid (busyPool 0 2147483647) ⟨0, 2147483647⟩ = some true ∧
      ((release_bullet plainHooks (busyPool 0 2147483647) ⟨0, 2147483647⟩).bind fun r =>
        (getAt r.2.bullets 0).map fun b => (r.1, b.cycle)) = some (true, -2147483648) ∧
      (-2147483648 : Int) ≠ 2147483647 + 1 :=
  ⟨(_init_run 0 _).trans ((run_obtain_churn (by decide) 2147483647 0 (by decide)).trans
      (congrArg (fun c => some (busyPool 0 c))
        (show wrap32 (0 + ((2147483647 : Nat) : Int)) = 2147483647 from by decide))),
    by decide, by decide, by decide, by decide⟩

/-- A witness of claim C13: the lookup of the stable indices 3 (active), 2 (free) and 9
(out of range) in the pool of size 4 after one release. -/
theorem get_bullet_from_shape_spec_witness :
    WellFormed releasedPool ∧
      releasedPool.starting_shape_index + releasedPool.pool_size ≤ 2147483647 ∧
      get_bullet_from_shape releasedPool 3 = some ⟨3, 0⟩ ∧
      get_bullet_from_shape releasedPool 2 = some ⟨-1, -1⟩ ∧
      get_bullet_from_shape releasedPool 9 = some ⟨-1, -1⟩ ∧
      (((3 : Int) < releasedPool.starting_shape_index ∨
          releasedPool.starting_shape_index + releasedPool.pool_size ≤ 3 ∨
          ∃ pos, getAt releasedPool.shapes_to_indices
              (3 - releasedPool.starting_shape_index) = some pos ∧
            pos < releasedPool.available_bullets) →
        get_bullet_from_shape releasedPool 3 = some ⟨-1, -1⟩) ∧
      (¬ ((3 : Int) < releasedPool.starting_shape_index ∨
          releasedPool.starting_shape_index + releasedPool.pool_size ≤ 3 ∨
          ∃ pos, getAt releasedPool.shapes_to_indices
              (3 - releasedPool.starting_shape_index) = some pos ∧
            pos < releasedPool.available_bullets) →
        ∃ pos b, getAt releasedPool.shapes_to_indices
            (3 - releasedPool.starting_shape_index) = some pos ∧
          releasedPool.available_bullets ≤ pos ∧ pos < releasedPool.pool_size ∧
          getAt releasedPool.bullets pos = some b ∧
          b.shape_index = 3 ∧ get_bullet_from_shape releasedPool 3 = some ⟨3, b.cycle⟩ ∧
          is_bullet_valid releasedPool ⟨3, b.cycle⟩ = some true) :=
  ⟨by decide, by decide, by decide, by decide, by decide,
    get_bullet_from_shape_spec (p := releasedPool) (by decide) (by decide) 3⟩

/-- The claim C13 as stated fails where the range of stable indices ends beyond the int32
values.  In the well-formed pool that `_init` with `starting_shape_index` 2147483646 and
`pool_size` 2 and one `obtain_bullet` leave, the stable index 2147483647 lies inside
`[2147483646, 2147483646 + 2)` and its slot, at position 1, is active, yet
`get_bullet_from_shape(2147483647)` returns the sentinel. -/
theorem lookup_rejects_active_counterexample :
    ((_init plainHooks true 2147483646 2 (fun _ => ⟨0, -1, ()⟩) (fun _ => 0)).bind fun p =>
        run plainHooks p [Call.obtain_bullet]) = some edgeFirstPool ∧
      WellFormed edgeFirstPool ∧
      edgeFirstPool.starting_shape_index ≤ 2147483647 ∧
      (2147483647 : Int) < edgeFirstPool.starting_shape_index + edgeFirstPool.pool_size ∧
      getAt edgeFirstPool.shapes_to_indices (2147483647 - edgeFirstPool.starting_shape_index)
        = some 1 ∧
      edgeFirstPool.available_bullets ≤ 1 ∧
      getAt edgeFirstPool.bullets 1 = some ⟨0, 2147483647, ()⟩ ∧
      get_bullet_from_shape edgeFirstPool 2147483647 = some ⟨-1, -1⟩ := by
  decide

/-- A witness of claim C14: the handles `(3, 0)` and `(2, 0)` in the pool of size 4 after
the release of `(2, 0)`. -/
theorem is_bullet_valid_characterisation_witness :
    WellFormed releasedPool ∧
      releasedPool.starting_shape_index + releasedPool.pool_size ≤ 2147483647 ∧
      is_bullet_valid releasedPool ⟨3, 0⟩ = some true ∧
      is_bullet_valid releasedPool ⟨2, 0⟩ = some false ∧
      ((is_bullet_valid releasedPool ⟨3, 0⟩ = some true ↔
          ∃ pos b, releasedPool.available_bullets ≤ pos ∧ pos < releasedPool.pool_size ∧
            getAt releasedPool.bullets pos = some b ∧
            b.shape_index = (⟨3, 0⟩ : BulletID).index ∧
            b.cycle = (⟨3, 0⟩ : BulletID).cycle) ∧
        (is_bullet_valid releasedPool ⟨3, 0⟩ = some false ↔
          ¬ ∃ pos b, releasedPool.available_bullets ≤ pos ∧ pos < releasedPool.pool_size ∧
            getAt releasedPool.bullets pos = some b ∧
            b.shape_index = (⟨3, 0⟩ : BulletID).index ∧
            b.cycle = (⟨3, 0⟩ : BulletID).cycle) ∧
        (Call.is_bullet_valid ⟨3, 0⟩ : Call Unit Unit).apply plainHooks releasedPool
          = some releasedPool) :=
  ⟨by decide, by decide, by decide, by decide,
    is_bullet_valid_characterisation plainHooks (by decide) (by decide) ⟨3, 0⟩⟩

/-- The claim C14 as stated fails where the range of stable indices ends beyond the int32
values.  In the well-formed pool that `_init` with `starting_shape_index` 2147483646 and
`pool_size` 2 and one `obtain_bullet` leave, the active position 1 holds the slot with
`shape_index` 2147483647 and cycle 0, yet `is_bullet_valid` of the handle
`(2147483647, 0)` is false. -/
theorem valid_iff_active_counterexample :
    ((_init plainHooks true 2147483646 2 (fun _ => ⟨0, -1, ()⟩) (fun _ => 0)).bind fun p =>
        run plainHooks p [Call.obtain_bullet]) = some edgeFirstPool ∧
      WellFormed edgeFirstPool ∧
      (∃ pos b, edgeFirstPool.available_bullets ≤ pos ∧ pos < edgeFirstPool.pool_size ∧
        getAt edgeFirstPool.bullets pos = some b ∧
        b.shape_index = (⟨2147483647, 0⟩ : BulletID).index ∧
        b.cycle = (⟨2147483647, 0⟩ : BulletID).cycle) ∧
      is_bullet_valid edgeFirstPool ⟨2147483647, 0⟩ = some false :=
  ⟨by decide, by decide,
    ⟨1, ⟨0, 2147483647, ()⟩, by decide, by decide, by decide, by decide, by decide⟩,
    by decide⟩

/-- A witness of claim C17: a tick on the pool of size 4 with every slot active, in
which every step reports expiry, returns `-2`. -/
theorem process_return_value_witness :
    WellFormed fullPool ∧
      (_process plainHooks (fun b => (b.data, true)) fullPool).map Prod.fst = some (-2) ∧
      ∃ t, process_tick plainHooks (fun b => (b.data, true)) fullPool = some t ∧
        _process plainHooks (fun b => (b.data, true)) fullPool
          = some (t.amount_variation, t.pool) ∧
        t.amount_variation = t.pool.active_bullets - fullPool.active_bullets ∧
        t.amount_variation ≤ 0 ∧
        t.amount_variation = -((t.calls.countP fun c => c.expired : Nat) : Int) :=
  ⟨by decide, by decide, process_return_value plainHooks _ (by decide)⟩

/-- A witness of claim C18: a tick on the pool of size 4 after one release, whose free
part is position 0. -/
theorem process_touches_active_only_witness :
    WellFormed releasedPool ∧
      ∃ t, process_tick plainHooks (fun b => (b.data, decide (b.shape_index = 3)))
          releasedPool = some t ∧
        _process plainHooks (fun b => (b.data, decide (b.shape_index = 3))) releasedPool
          = some (t.amount_variation, t.pool) ∧
        (∀ c ∈ t.calls, releasedPool.available_bullets ≤ c.available ∧
          c.available ≤ c.position ∧ c.position < releasedPool.pool_size) ∧
        t.calls.Pairwise (fun c d => c.shape_index ≠ d.shape_index) ∧
        releasedPool.available_bullets ≤ t.pool.available_bullets ∧
        (∀ pos, pos < releasedPool.available_bullets →
          getAt t.pool.bullets pos = getAt releasedPool.bullets pos) ∧
        (∀ idx pos, getAt releasedPool.shapes_to_indices idx = some pos →
          pos < releasedPool.available_bullets →
          getAt t.pool.shapes_to_indices idx = some pos) :=
  ⟨by decide, process_touches_active_only plainHooks _ (by decide)⟩

/-- A witness of claim C19: `spawn_bullet` with one property on the fresh pool of size 4
leaves the pool `obtain_bullet` leaves. -/
theorem spawn_bullet_refines_obtain_bullet_witness :
    spawn_bullet plainHooks freshPool [("speed", ())] = some firstPool ∧
      ((spawn_bullet plainHooks freshPool [("speed", ())]).map skeleton =
          (obtain_bullet plainHooks freshPool).map (fun r => skeleton r.2) ∧
        (∀ q, spawn_bullet plainHooks freshPool [("speed", ())] = some q →
          0 < freshPool.available_bullets →
          ∃ b, getAt freshPool.bullets (freshPool.available_bullets - 1) = some b ∧
            ∀ pos, getAt q.bullets pos =
              if pos = freshPool.available_bullets - 1 then
                some { b with data := (plainHooks.enable_bullet
                  (set_properties plainHooks [("speed", ())] b.data)) }
              else getAt freshPool.bullets pos) ∧
        spawn_bullet plainHooks { freshPool with available_bullets := 0 } [("speed", ())] =
          some { freshPool with available_bullets := 0 }) :=
  ⟨by decide, spawn_bullet_refines_obtain_bullet plainHooks freshPool [("speed", ())]⟩

end NativeBullets
